import Mathlib

/-!
Byte buffers of the LLVM runtime (`libraries/llvm/buffer.c`).

A shallow embedding of the C functions of `buffer.c` over an explicit heap, and
theorems about them.

Memory model:

* The heap is a list of blocks. A block is either freed or live; a live block
  is a list of cells; a cell is either indeterminate (fresh `malloc` memory) or
  holds one byte.
* A pointer is `NULL` or a block number with a (signed) offset; pointer
  arithmetic only moves the offset, every access checks it against the block.
* `uint64_t` values are natural numbers below `2 ^ 64`; every arithmetic
  operation of the source that can wrap is written with an explicit
  `% 2 ^ 64`.
* A C function becomes a function from the heap (and its arguments) to
  `Except Fault _`: it either returns normally with the new heap, or stops with
  a fault (allocation failure, an access outside a live block, a read of
  indeterminate memory).
* `c_buffer_as_null_terminated_string` is the one function that reads a cell of
  a fresh block before writing it. Such a read gives the byte that the memory
  happens to hold, so this function takes the contents `stale` of its new block
  as an argument and is considered for every `stale`.
-/

namespace Effekt

/-! ## Machine words and bytes -/

/-- One octet (`uint8_t`). -/
abbrev Byte := Fin 256

/-- Conversion of an integer value to `uint8_t`. -/
def toByte (n : Nat) : Byte := ⟨n % 256, Nat.mod_lt n (by decide)⟩

/-- Number of values of a `uint64_t`. -/
def U64 : Nat := 2 ^ 64

/-- Addition on `uint64_t`. -/
def add64 (a b : Nat) : Nat := (a + b) % U64

/-- Subtraction on `uint64_t`. -/
def sub64 (a b : Nat) : Nat := (a + U64 - b % U64) % U64

/-- Multiplication on `uint64_t`. -/
def mul64 (a b : Nat) : Nat := (a * b) % U64

/-! ## Heap -/

/-- The ways in which a run can stop without returning. -/
inductive Fault where
  /-- The macro `ASSERT_NON_NULL` saw a null pointer: the process is aborted. -/
  | allocationFailure
  /-- An access through `NULL`, outside its block, or to a freed block; or a
  `free` of something that is not the base of a live block. -/
  | invalidAccess
  /-- A read of a cell that was never written. -/
  | indeterminateRead
  deriving DecidableEq

/-- Outcome of running a C function. -/
abbrev Run (α : Type) := Except Fault α

/-- One memory cell: `none` is indeterminate. -/
abbrev Cell := Option Byte

/-- A pointer: `NULL`, or an offset into a block. -/
inductive Ptr where
  | null
  | addr (block : Nat) (off : Int)
  deriving DecidableEq

/-- Pointer arithmetic `p + k`. -/
def Ptr.add : Ptr → Int → Ptr
  | .null, _ => .null
  | .addr b o, k => .addr b (o + k)

/-- The heap: its blocks (`none` is a freed block), and the largest request the
allocator satisfies. -/
structure Heap where
  blocks : List (Option (List Cell))
  limit : Nat
  deriving DecidableEq

/-- Cells of the live block a pointer points into. -/
def Heap.cells (h : Heap) (b : Nat) : Run (List Cell) :=
  match h.blocks[b]? with
  | some (some cs) => .ok cs
  | _ => .error .invalidAccess

/-- Read of one `uint8_t` through a pointer. -/
def Heap.load (h : Heap) : Ptr → Run Byte
  | .null => .error .invalidAccess
  | .addr b o =>
    if o < 0 then .error .invalidAccess
    else
      match h.cells b with
      | .error e => .error e
      | .ok cs =>
        match cs[o.toNat]? with
        | none => .error .invalidAccess
        | some none => .error .indeterminateRead
        | some (some v) => .ok v

/-- Write of one `uint8_t` through a pointer. -/
def Heap.store (h : Heap) : Ptr → Byte → Run Heap
  | .null, _ => .error .invalidAccess
  | .addr b o, v =>
    if o < 0 then .error .invalidAccess
    else
      match h.cells b with
      | .error e => .error e
      | .ok cs =>
        if o.toNat < cs.length then
          .ok { h with blocks := h.blocks.set b (some (cs.set o.toNat (some v))) }
        else .error .invalidAccess

/-- The call `malloc(size)`: a new block of `size` indeterminate cells (also for
`size = 0`), or `NULL` when the allocator does not satisfy the request. -/
def Heap.malloc (h : Heap) (size : Nat) : Heap × Ptr :=
  if size ≤ h.limit then
    ({ h with blocks := h.blocks ++ [some (List.replicate size none)] },
      .addr h.blocks.length 0)
  else (h, .null)

/-- The call `malloc(size)` when the memory that the allocator hands out holds
the bytes `stale`: cell `k` of the new block reads as `stale k` until it is
written. The contents of a new block are indeterminate and a read through a
`uint8_t` lvalue gives whatever byte is there, so a function that reads a cell
of the block before writing it is considered for every `stale`. -/
def Heap.mallocStale (h : Heap) (size : Nat) (stale : Nat → Byte) : Heap × Ptr :=
  if size ≤ h.limit then
    ({ h with blocks := h.blocks ++ [some ((List.range size).map (fun k => some (stale k)))] },
      .addr h.blocks.length 0)
  else (h, .null)

/-- The call `calloc(count, width)`: a new block of zero bytes, or `NULL` when the
product overflows or the allocator does not satisfy the request. -/
def Heap.calloc (h : Heap) (count width : Nat) : Heap × Ptr :=
  if count * width < U64 ∧ count * width ≤ h.limit then
    ({ h with blocks := h.blocks ++ [some (List.replicate (count * width) (some 0))] },
      .addr h.blocks.length 0)
  else (h, .null)

/-- The call `free(p)`: `p` must be the base of a live block. -/
def Heap.free (h : Heap) : Ptr → Run Heap
  | .null => .ok h
  | .addr b o =>
    if o = 0 then
      match h.cells b with
      | .error e => .error e
      | .ok _ => .ok { h with blocks := h.blocks.set b none }
    else .error .invalidAccess

/-- Modelled from the spec: the macro `ASSERT_NON_NULL` is not defined in the
sources at hand; the specification makes an allocation failure fatal (the
process is aborted, there is no recovery path). -/
def ASSERT_NON_NULL : Ptr → Run Unit
  | .null => .error .allocationFailure
  | .addr _ _ => .ok ()

/-- Reads `n` consecutive bytes starting at `p`. -/
def Heap.loadBytes (h : Heap) (p : Ptr) : Nat → Run (List Byte)
  | 0 => .ok []
  | n + 1 =>
    match h.load p with
    | .error e => .error e
    | .ok v =>
      match h.loadBytes (p.add 1) n with
      | .error e => .error e
      | .ok vs => .ok (v :: vs)

/-- Value of eight bytes read as one `uint64_t` (least significant byte first). -/
def word64 : List Byte → Nat
  | [] => 0
  | v :: vs => v.val + 256 * word64 vs

/-- Read of a `uint64_t` through a pointer. -/
def Heap.load64 (h : Heap) (p : Ptr) : Run Nat :=
  match h.loadBytes p 8 with
  | .error e => .error e
  | .ok vs => .ok (word64 vs)

/-- Writes `k` bytes of the value `w`, least significant byte first, at `p`. -/
def Heap.storeWord (h : Heap) (p : Ptr) (w : Nat) : Nat → Run Heap
  | 0 => .ok h
  | k + 1 =>
    match h.store p (toByte w) with
    | .error e => .error e
    | .ok h1 => Heap.storeWord h1 (p.add 1) (w / 256) k

/-- Write of a `uint64_t` through a pointer. -/
def Heap.store64 (h : Heap) (p : Ptr) (w : Nat) : Run Heap :=
  h.storeWord p w 8

/-- The loop `for (uint64_t j = from; j < from + count; ++j) body`, for a bound
that the body does not change. -/
def forLoop {σ : Type} (body : Nat → σ → Run σ) : Nat → Nat → σ → Run σ
  | 0, _, s => .ok s
  | count + 1, j, s =>
    match body j s with
    | .error e => .error e
    | .ok s1 => forLoop body count (j + 1) s1

/-! ## `primitives.c` -/

/-- The type `struct Pos`: a tag and a heap object. -/
structure Pos where
  tag : Nat
  obj : Ptr
  deriving DecidableEq

/-! ## `buffer.c` -/

/-- Eight bytes for the reference counter. -/
def BUFFER_METADATA_WIDTH : Nat := 8

/-- Function `c_buffer_length`. -/
def c_buffer_length (buffer : Pos) : Nat := buffer.tag

/-- Function `c_buffer_refcount`: address of the reference counter. -/
def c_buffer_refcount (buffer : Pos) : Ptr := buffer.obj.add (-8)

/-- Function `c_buffer_bytes`. -/
def c_buffer_bytes (buffer : Pos) : Ptr := buffer.obj

/-- Function `c_buffer_construct`. -/
def c_buffer_construct (h : Heap) (n : Nat) (data : Ptr) : Run (Heap × Pos) :=
  let (h1, buf) := h.malloc (add64 BUFFER_METADATA_WIDTH (mul64 n 1))
  match ASSERT_NON_NULL buf with
  | .error e => .error e
  | .ok () =>
    -- reference count (a reference count of zero means one sole owner)
    match forLoop (fun j hj => hj.store (buf.add j) 0) BUFFER_METADATA_WIDTH 0 h1 with
    | .error e => .error e
    | .ok h2 =>
      -- data
      match forLoop (fun j hj =>
          match hj.load (data.add j) with
          | .error e => .error e
          | .ok v => hj.store (buf.add (BUFFER_METADATA_WIDTH + j : Nat)) v) n 0 h2 with
      | .error e => .error e
      | .ok h3 => .ok (h3, { tag := n, obj := buf.add BUFFER_METADATA_WIDTH })

/-- Function `c_buffer_destruct`. -/
def c_buffer_destruct (h : Heap) (buffer : Pos) : Run Heap :=
  h.free (buffer.obj.add (-(BUFFER_METADATA_WIDTH : Int)))

/-- Function `c_buffer_refcount_increment`: `(*c_buffer_refcount(buffer))++`.
The trace that `DEBUG_REFCOUNT` sends to `stderr` is not part of the state. -/
def c_buffer_refcount_increment (h : Heap) (buffer : Pos) : Run Heap :=
  match h.load64 (c_buffer_refcount buffer) with
  | .error e => .error e
  | .ok r => h.store64 (c_buffer_refcount buffer) (add64 r 1)

/-- Function `c_buffer_refcount_decrement`:
`if (!(*c_buffer_refcount(buffer))--) c_buffer_destruct(buffer);`: the counter is
read, the decremented value is written back, and the value read decides. -/
def c_buffer_refcount_decrement (h : Heap) (buffer : Pos) : Run Heap :=
  match h.load64 (c_buffer_refcount buffer) with
  | .error e => .error e
  | .ok r =>
    match h.store64 (c_buffer_refcount buffer) (sub64 r 1) with
    | .error e => .error e
    | .ok h1 => if r = 0 then c_buffer_destruct h1 buffer else .ok h1

/-- Function `c_buffer_construct_zeroed`. -/
def c_buffer_construct_zeroed (h : Heap) (n : Nat) : Run (Heap × Pos) :=
  let (h1, zeroes) := h.calloc n 1
  match ASSERT_NON_NULL zeroes with
  | .error e => .error e
  | .ok () =>
    match c_buffer_construct h1 n zeroes with
    | .error e => .error e
    | .ok (h2, buffer) =>
      match h2.free zeroes with
      | .error e => .error e
      | .ok h3 => .ok (h3, buffer)

/-- Body of `c_buffer_truncate`: the value of the parameter `buffer`, a
`struct Pos` that the function received by value, when the function returns. -/
def c_buffer_truncate_parameter (buffer : Pos) (n : Nat) : Pos :=
  if n > c_buffer_length buffer then buffer
  else { buffer with tag := n }

/-- The statement `c_buffer_truncate(x, n);` in a caller that holds a buffer in
the variable `x`: the heap and the value of `x` after the call. The function is
`void c_buffer_truncate(struct Pos buffer, const uint64_t n)`: it works on its
own copy of the structure, touches no memory, and returns nothing, so its
parameter at exit (`c_buffer_truncate_parameter`) is dropped. -/
def c_buffer_truncate (h : Heap) (x : Pos) (n : Nat) : Heap × Pos :=
  let _buffer := c_buffer_truncate_parameter x n
  (h, x)

/-- Function `c_buffer_copy`. -/
def c_buffer_copy (h : Heap) (buffer : Pos) : Run (Heap × Pos) :=
  c_buffer_construct h (c_buffer_length buffer) (c_buffer_bytes buffer)

/-- First loop of `c_buffer_as_null_terminated_string`:
`zero_runes += !c_buffer_bytes(buffer)[j]`. -/
def countZeroRunes (h : Heap) (buffer : Pos) : Run Nat :=
  forLoop (fun j zero_runes =>
    match h.load ((c_buffer_bytes buffer).add j) with
    | .error e => .error e
    | .ok v => .ok (add64 zero_runes (if v = 0 then 1 else 0)))
    (c_buffer_length buffer) 0 0

/-- One round of the second loop of `c_buffer_as_null_terminated_string`, on
the heap and the write position `i`:
`buf[i++] = bytes[j]; if (!buf[i]) { buf[i] = 0xc0; buf[i++] = 0x80; }`. -/
def escapeStep (buffer : Pos) (buf : Ptr) (j : Nat) (s : Heap × Nat) : Run (Heap × Nat) :=
  match s.1.load ((c_buffer_bytes buffer).add j) with
  | .error e => .error e
  | .ok v =>
    match s.1.store (buf.add s.2) v with
    | .error e => .error e
    | .ok h1 =>
      let i := add64 s.2 1
      match h1.load (buf.add i) with
      | .error e => .error e
      | .ok w =>
        if w = 0 then
          match h1.store (buf.add i) 0xc0 with
          | .error e => .error e
          | .ok h2 =>
            match h2.store (buf.add i) 0x80 with
            | .error e => .error e
            | .ok h3 => .ok (h3, add64 i 1)
        else .ok (h1, i)

/-- Function `c_buffer_as_null_terminated_string`. The second loop tests
`buf[i]` before anything has written that cell, so the run depends on the bytes
`stale` that the block returned by `malloc` holds. The body of the C function
ends without a `return` statement, so the call yields no pointer: the value
next to the final heap is `none`. -/
def c_buffer_as_null_terminated_string (h : Heap) (buffer : Pos) (stale : Nat → Byte) :
    Run (Heap × Option Ptr) :=
  match countZeroRunes h buffer with
  | .error e => .error e
  | .ok zero_runes =>
    let n := add64 (c_buffer_length buffer) zero_runes
    let (h1, buf) := h.mallocStale (mul64 (add64 n 1) 1) stale
    match ASSERT_NON_NULL buf with
    | .error e => .error e
    | .ok () =>
      match forLoop (escapeStep buffer buf) (c_buffer_length buffer) 0 (h1, 0) with
      | .error e => .error e
      | .ok (h2, _) =>
        -- null-terminated
        match h2.store (buf.add n) 0 with
        | .error e => .error e
        | .ok h3 => .ok (h3, none)

/-- The loop `while (data_nt[n++]);` of
`c_buffer_construct_from_null_terminated_string`: the value of `n` at exit.
Every round reads one more cell, so at most as many rounds run as the block has
cells. -/
def scanTerminator (h : Heap) (data_nt : Ptr) : Nat → Nat → Run Nat
  | 0, _ => .error .invalidAccess
  | fuel + 1, n =>
    match h.load (data_nt.add n) with
    | .error e => .error e
    | .ok v => if v = 0 then .ok (add64 n 1) else scanTerminator h data_nt fuel (add64 n 1)

/-- Number of cells of the block a pointer points into (0 when there is none). -/
def Heap.blockSize (h : Heap) : Ptr → Nat
  | .null => 0
  | .addr b _ =>
    match h.cells b with
    | .error _ => 0
    | .ok cs => cs.length

/-- Function `c_buffer_construct_from_null_terminated_string`. -/
def c_buffer_construct_from_null_terminated_string (h : Heap) (data_nt : Ptr) :
    Run (Heap × Pos) :=
  match scanTerminator h data_nt (h.blockSize data_nt + 1) 0 with
  | .error e => .error e
  | .ok n => c_buffer_construct h n data_nt

/-- Function `c_buffer_concatenate`. -/
def c_buffer_concatenate (h : Heap) (left right : Pos) : Run (Heap × Pos) :=
  match c_buffer_construct_zeroed h (add64 (c_buffer_length left) (c_buffer_length right)) with
  | .error e => .error e
  | .ok (h1, concatenated) =>
    match forLoop (fun j hj =>
        match (if j < c_buffer_length left
               then hj.load ((c_buffer_bytes left).add j)
               else hj.load ((c_buffer_bytes right).add (sub64 j (c_buffer_length left)))) with
        | .error e => .error e
        | .ok v => hj.store ((c_buffer_bytes concatenated).add j) v)
        (c_buffer_length concatenated) 0 h1 with
    | .error e => .error e
    | .ok h2 => .ok (h2, concatenated)

/-- Function `c_buffer_bytes_index`. The index is a `uint64_t`, so the test
`idx < 0` never holds. -/
def c_buffer_bytes_index (h : Heap) (buffer : Pos) (idx : Nat) : Run Byte :=
  if idx < 0 ∨ idx ≥ c_buffer_length buffer then .ok 0x00
  else h.load ((c_buffer_bytes buffer).add idx)

/-- Conversion of an `int` value to `uint16_t`. -/
def toU16 (z : Int) : Nat := (z % 65536).toNat

/-- The value that `c_buffer_base64decode` gives to `sixlet` for the input
byte `e` (all arithmetic is on `int`):
`'A' <= e && e <= 'Z' ? 0 + e - 'A' : 'a' <= e && e <= 'z' ? 26 + e - 'a' :
'0' <= e && e <= '9' ? 52 + e - '0' : e == '+' || e == '-' ? 62 :
e == '/' || e == '_' ? 63 : -1`. -/
def sixletOf (e : Byte) : Int :=
  if 65 ≤ e.val ∧ e.val ≤ 90 then 0 + (e.val : Int) - 65
  else if 97 ≤ e.val ∧ e.val ≤ 122 then 26 + (e.val : Int) - 97
  else if 48 ≤ e.val ∧ e.val ≤ 57 then 52 + (e.val : Int) - 48
  else if e.val = 43 ∨ e.val = 45 then 62
  else if e.val = 47 ∨ e.val = 95 then 63
  else -1

/-- The loop `while (sixlet == -1 && i < c_buffer_length(encoded))` of
`c_buffer_base64decode`, on `sixlet` and `i`. Every round advances `i`, so
`c_buffer_length(encoded) - i` rounds are enough. -/
def scanSixlet (h : Heap) (encoded : Pos) : Nat → Int × Nat → Run (Int × Nat)
  | 0, s => .ok s
  | fuel + 1, (sixlet, i) =>
    if sixlet = -1 ∧ i < c_buffer_length encoded then
      match h.load ((c_buffer_bytes encoded).add i) with
      | .error e => .error e
      | .ok e => scanSixlet h encoded fuel (sixletOf e, add64 i 1)
    else .ok (sixlet, i)

/-- Local variables of the decoding loop: `bits` (`uint16_t`), `bitslen` (`int`)
and `i` (`uint64_t`). -/
structure DecodeState where
  bits : Nat
  bitslen : Int
  i : Nat
  deriving DecidableEq

/-- The loop `while (bitslen < 8)` of `c_buffer_base64decode`. Every round adds 6
to `bitslen`, so `8 - bitslen` rounds are enough. -/
def refill (h : Heap) (encoded : Pos) : Nat → DecodeState → Run DecodeState
  | 0, s => .ok s
  | fuel + 1, s =>
    if s.bitslen < 8 then
      match scanSixlet h encoded (c_buffer_length encoded - s.i) (-1, s.i) with
      | .error e => .error e
      | .ok (sixlet, i) =>
        refill h encoded fuel
          { bits := toU16 (Int.lor ((s.bits <<< 6 : Nat) : Int) sixlet),
            bitslen := s.bitslen + 6,
            i := i }
    else .ok s

/-- One round of the outer loop of `c_buffer_base64decode`, on the heap and the
local variables. -/
def decodeStep (encoded decoded : Pos) (j : Nat) (s : Heap × DecodeState) :
    Run (Heap × DecodeState) :=
  match refill s.1 encoded (8 - s.2.bitslen).toNat s.2 with
  | .error e => .error e
  | .ok t =>
    let bitslen := t.bitslen - 8
    match s.1.store ((c_buffer_bytes decoded).add j)
        (toByte ((t.bits >>> bitslen.toNat) &&& 0xff)) with
    | .error e => .error e
    | .ok h1 =>
      .ok (h1, { bits := t.bits &&& (((1 <<< bitslen.toNat) % 2 ^ 32 + 2 ^ 32 - 1) % 2 ^ 32),
                 bitslen := bitslen,
                 i := t.i })

/-- The operand `!!(n >= k && c_buffer_bytes(encoded)[n-k] == '=')` of the length
computation of `c_buffer_base64decode`. -/
def paddingAt (h : Heap) (encoded : Pos) (k : Nat) : Run Nat :=
  let n := c_buffer_length encoded
  if n ≥ k then
    match h.load ((c_buffer_bytes encoded).add (sub64 n k)) with
    | .error e => .error e
    | .ok v => .ok (if v = 61 then 1 else 0)
  else .ok 0

/-- Function `c_buffer_base64decode`. -/
def c_buffer_base64decode (h : Heap) (encoded : Pos) : Run (Heap × Pos) :=
  let n := c_buffer_length encoded
  match paddingAt h encoded 1 with
  | .error e => .error e
  | .ok p1 =>
    match paddingAt h encoded 2 with
    | .error e => .error e
    | .ok p2 =>
      match c_buffer_construct_zeroed h (sub64 (sub64 (mul64 (n / 4) 3) p1) p2) with
      | .error e => .error e
      | .ok (h1, decoded) =>
        match forLoop (decodeStep encoded decoded) (c_buffer_length decoded) 0
            (h1, { bits := 0, bitslen := 0, i := 0 }) with
        | .error e => .error e
        | .ok (h2, _) => .ok (h2, decoded)


/-! ## Views of a buffer -/

/-- The bytes of a buffer, read through `c_buffer_bytes` at the indices below
`c_buffer_length`. -/
def to_bytes (h : Heap) (buffer : Pos) : Run (List Byte) :=
  h.loadBytes (c_buffer_bytes buffer) (c_buffer_length buffer)

/-- The reference count of a buffer, read through `c_buffer_refcount`. -/
def refcount (h : Heap) (buffer : Pos) : Run Nat :=
  h.load64 (c_buffer_refcount buffer)

/-- Block `b` of the heap has been freed. -/
def Heap.freed (h : Heap) (b : Nat) : Prop := h.blocks[b]? = some none

/-- Block `b` of the heap is live. -/
def Heap.live (h : Heap) (b : Nat) : Prop := ∃ cs, h.blocks[b]? = some (some cs)

/-! ## Sample states -/

/-- A heap with one block that holds the three bytes of `"foo"`. -/
def fooData : Heap := { blocks := [some [some 102, some 111, some 111]], limit := 4096 }

/-- A heap with one buffer: reference count 2 and the three bytes of `"foo"`. -/
def fooHeap : Heap :=
  { blocks := [some [some 2, some 0, some 0, some 0, some 0, some 0, some 0, some 0,
      some 102, some 111, some 111]],
    limit := 4096 }

/-- The buffer of `fooHeap`. -/
def fooBuffer : Pos := { tag := 3, obj := .addr 0 8 }

/-- A heap with two buffers: `"foo"` with reference count 2, and `"ba"` with
reference count 0. -/
def pairHeap : Heap :=
  { blocks := [some [some 2, some 0, some 0, some 0, some 0, some 0, some 0, some 0,
      some 102, some 111, some 111],
      some [some 0, some 0, some 0, some 0, some 0, some 0, some 0, some 0, some 98, some 97]],
    limit := 4096 }

/-- The second buffer of `pairHeap`. -/
def baBuffer : Pos := { tag := 2, obj := .addr 1 8 }

/-- The first `k` bytes of the value `w`, least significant byte first. -/
def bytesOf (w : Nat) : Nat → List Byte
  | 0 => []
  | k + 1 => toByte w :: bytesOf (w / 256) k

/-- Runs `f` on the heap `k` times in a row. -/
def repeatRun (f : Heap → Run Heap) : Nat → Heap → Run Heap
  | 0, h => .ok h
  | k + 1, h =>
    match f h with
    | .error e => .error e
    | .ok h1 => repeatRun f k h1

/-- What a store leaves alone: which blocks are freed, which are live, how many
there are, and the limit of the allocator. -/
structure SameShape (h1 h : Heap) : Prop where
  freed : ∀ c : Nat, h1.freed c ↔ h.freed c
  live : ∀ c : Nat, h1.live c ↔ h.live c
  length : h1.blocks.length = h.blocks.length
  limit : h1.limit = h.limit

/-- A heap with one buffer: reference count 0 and the single byte `0x00`. -/
def nulHeap : Heap :=
  { blocks := [some [some 0, some 0, some 0, some 0, some 0, some 0, some 0, some 0, some 0]],
    limit := 4096 }

/-- The buffer of `nulHeap`. -/
def nulBuffer : Pos := { tag := 1, obj := .addr 0 8 }

/-- A heap with one buffer: reference count 0 and no bytes. -/
def emptyHeap : Heap :=
  { blocks := [some [some 0, some 0, some 0, some 0, some 0, some 0, some 0, some 0]],
    limit := 4096 }

/-- The buffer of `emptyHeap`. -/
def emptyBuffer : Pos := { tag := 0, obj := .addr 0 8 }

/-! ## The decoding loop on a list

The same loops as in `c_buffer_base64decode`, reading the encoded bytes from a
list instead of the heap. They are used to reason about the function; the
function itself is `c_buffer_base64decode` above. -/

/-- The loop `scanSixlet` over the list `e` of the encoded bytes. -/
def scanSixletL (e : List Byte) : Nat → Int × Nat → Int × Nat
  | 0, s => s
  | fuel + 1, (sixlet, i) =>
    if sixlet = -1 ∧ i < e.length then scanSixletL e fuel (sixletOf (e.getD i 0), add64 i 1)
    else (sixlet, i)

/-- The loop `refill` over the list `e` of the encoded bytes. -/
def refillL (e : List Byte) : Nat → DecodeState → DecodeState
  | 0, s => s
  | fuel + 1, s =>
    if s.bitslen < 8 then
      refillL e fuel
        { bits := toU16 (Int.lor ((s.bits <<< 6 : Nat) : Int)
            (scanSixletL e (e.length - s.i) (-1, s.i)).1),
          bitslen := s.bitslen + 6,
          i := (scanSixletL e (e.length - s.i) (-1, s.i)).2 }
    else s

/-- One round of `decodeStep` over the list `e` of the encoded bytes: the byte
that is stored and the new local variables. -/
def decodeStepL (e : List Byte) (s : DecodeState) : Byte × DecodeState :=
  let t := refillL e (8 - s.bitslen).toNat s
  let bitslen := t.bitslen - 8
  (toByte ((t.bits >>> bitslen.toNat) &&& 0xff),
    { bits := t.bits &&& (((1 <<< bitslen.toNat) % 2 ^ 32 + 2 ^ 32 - 1) % 2 ^ 32),
      bitslen := bitslen,
      i := t.i })

/-- The bytes that `k` rounds of a loop store, and its state after them, when
round `j` in state `t` stores `(step j t).1` and goes to state `(step j t).2`. -/
def runSteps {τ : Type} (step : Nat → τ → Byte × τ) : Nat → Nat → τ → List Byte × τ
  | 0, _, t => ([], t)
  | k + 1, j, t =>
    ((step j t).1 :: (runSteps step k (j + 1) (step j t).2).1,
      (runSteps step k (j + 1) (step j t).2).2)

/-- The operand `!!(n >= k && e[n-k] == '=')` over the list `e` of the encoded
bytes. -/
def paddingAtL (e : List Byte) (k : Nat) : Nat :=
  if e.length ≥ k then (if e.getD (sub64 e.length k) 0 = 61 then 1 else 0) else 0

/-- The length that `c_buffer_base64decode` computes for its result. -/
def decodedLength (e : List Byte) : Nat :=
  sub64 (sub64 (mul64 (e.length / 4) 3) (paddingAtL e 1)) (paddingAtL e 2)

/-! ## Base 64 encoding (RFC 4648, section 4)

The encoding that `c_buffer_base64decode` undoes, written after the RFC: the
input is cut into groups of three bytes (24 bits), each group gives four
characters of the alphabet, one per six bits; a final group of one byte gives two
characters and `"=="`, a final group of two bytes gives three characters and
`"="`. -/

/-- The base 64 alphabet (Table 1 of the RFC): `A`-`Z`, `a`-`z`, `0`-`9`, `+`,
`/`. -/
def base64Alphabet : List Byte :=
  (List.range' 65 26 ++ List.range' 97 26 ++ List.range' 48 10 ++ [43, 47]).map toByte

/-- The character of the alphabet for a six-bit value. -/
def base64Char (v : Nat) : Byte := base64Alphabet.getD v 0

/-- The pad character `=`. -/
def base64Pad : Byte := 61

/-- The base 64 encoding of a byte sequence. -/
def base64encode : List Byte → List Byte
  | [] => []
  | [a] => [base64Char (a.val / 4), base64Char (a.val % 4 * 16), base64Pad, base64Pad]
  | [a, b] =>
    [base64Char (a.val / 4), base64Char (a.val % 4 * 16 + b.val / 16),
      base64Char (b.val % 16 * 4), base64Pad]
  | a :: b :: c :: rest =>
    base64Char (a.val / 4) :: base64Char (a.val % 4 * 16 + b.val / 16) ::
      base64Char (b.val % 16 * 4 + c.val / 64) :: base64Char (c.val % 64) ::
      base64encode rest

/-- A heap with one buffer: reference count 0 and the bytes `bs`. -/
def textHeap (bs : List Byte) : Heap :=
  { blocks := [some (List.replicate 8 (some 0) ++ bs.map some)], limit := 4096 }

/-- The buffer of `textHeap bs`. -/
def textBuffer (bs : List Byte) : Pos := { tag := bs.length, obj := .addr 0 8 }

/-- The bytes of an ASCII string. -/
def ascii (s : String) : List Byte := s.toList.map (fun c => toByte c.toNat)


/-! ## More sample states -/

/-- A heap with one buffer whose eight counter bytes are all `0xff`: reference
count `2 ^ 64 - 1`, and the bytes of `"foo"`. -/
def fullHeap : Heap :=
  { blocks := [some [some 255, some 255, some 255, some 255, some 255, some 255, some 255,
      some 255, some 102, some 111, some 111]],
    limit := 4096 }

/-- A heap with one block that holds the null-terminated string `bs`, `0x00`. -/
def stringHeap (bs : List Byte) : Heap :=
  { blocks := [some (bs.map some ++ [some 0])], limit := 4096 }

/-- The number of `=` characters in the last two positions of the input (in the
last position when the input has one byte). -/
def paddingCount (e : List Byte) : Nat :=
  ((e.drop (e.length - 2)).filter (fun c => c = 61)).length

/-- The length expression `n / 4 * 3 - p1 - p2` of `c_buffer_base64decode`,
computed on `uint64_t`. -/
def lengthExpression (n p1 p2 : Nat) : Nat := sub64 (sub64 (mul64 (n / 4) 3) p1) p2

/-! ## The decoding loop on the stream of six-bit values

The same loops once more, reading from the list of the values of the alphabet
characters of the input instead of the input: position `i` is then the number
of values taken so far, and a value that is not there reads as `-1`. -/

/-- The values that `sixletOf` gives to the alphabet characters of `e`, in input
order. -/
def sixlets (e : List Byte) : List Int := (e.map sixletOf).filter (fun v => v ≠ -1)

/-- The loop `refill` over the stream `s` of six-bit values. -/
def refillS (s : List Int) : Nat → DecodeState → DecodeState
  | 0, t => t
  | fuel + 1, t =>
    if t.bitslen < 8 then
      refillS s fuel
        { bits := toU16 (Int.lor ((t.bits <<< 6 : Nat) : Int) (s.getD t.i (-1))),
          bitslen := t.bitslen + 6,
          i := t.i + 1 }
    else t

/-- One round of `decodeStep` over the stream `s` of six-bit values. -/
def decodeStepS (s : List Int) (t : DecodeState) : Byte × DecodeState :=
  let u := refillS s (8 - t.bitslen).toNat t
  let bitslen := u.bitslen - 8
  (toByte ((u.bits >>> bitslen.toNat) &&& 0xff),
    { bits := u.bits &&& (((1 <<< bitslen.toNat) % 2 ^ 32 + 2 ^ 32 - 1) % 2 ^ 32),
      bitslen := bitslen,
      i := u.i })

/-- The local variables of the decoding loop over the input `e` and over its
stream of values describe the same point of the run. -/
structure SameRun (e : List Byte) (t u : DecodeState) : Prop where
  bits : t.bits = u.bits
  bitslen : t.bitslen = u.bitslen
  bound : t.i ≤ e.length
  taken : sixlets (e.take t.i) = (sixlets e).take u.i

/-- The assignment `bits = (bits << 6) | sixlet` of `c_buffer_base64decode`: the
new value of `bits`. -/
def accumulate (bits : Nat) (sixlet : Int) : Nat :=
  toU16 (Int.lor ((bits <<< 6 : Nat) : Int) sixlet)

/-- The point of the run at the start of round `j` of the decoding loop:
`ceil(8 * j / 6)` values have been taken from the stream, and the bits of them
that are not yet stored are pending. -/
structure Phase (j : Nat) (t : DecodeState) : Prop where
  taken : t.i = (4 * j + 2) / 3
  pending : t.bitslen = 6 * (((4 * j + 2) / 3 : Nat) : Int) - 8 * (j : Int)

/-! ## The bit string of the six-bit values -/

/-- Bit number `t` (counted from 0, most significant first) of the bit string
formed by concatenating the six-bit values of the stream `s`. -/
def streamBit (s : List Int) (t : Nat) : Nat :=
  (s.getD (t / 6) 0).toNat / 2 ^ (5 - t % 6) % 2

/-- The byte made of the bits `8 * j`, ..., `8 * j + 7` of the bit string, most
significant first. -/
def streamByte (s : List Int) (j : Nat) : Nat :=
  streamBit s (8 * j) * 128 + streamBit s (8 * j + 1) * 64 + streamBit s (8 * j + 2) * 32 +
    streamBit s (8 * j + 3) * 16 + streamBit s (8 * j + 4) * 8 + streamBit s (8 * j + 5) * 4 +
    streamBit s (8 * j + 6) * 2 + streamBit s (8 * j + 7)

/-- The bits of the last value taken that are still to be stored at the start of
round `j`. -/
def pendingBits (s : List Int) (j : Nat) : Nat :=
  (s.getD ((4 * j + 2) / 3 - 1) 0).toNat % 2 ^ (6 * ((4 * j + 2) / 3) - 8 * j)

/-! ## Alphabet characters -/

/-- The bytes that are characters of the alphabet that the decoder accepts:
`A`-`Z`, `a`-`z`, `0`-`9`, `+`, `-`, `/`, `_`. -/
def isAlphabetChar (c : Byte) : Bool :=
  (65 ≤ c.val && c.val ≤ 90) || (97 ≤ c.val && c.val ≤ 122) || (48 ≤ c.val && c.val ≤ 57) ||
    c.val == 43 || c.val == 45 || c.val == 47 || c.val == 95

/-- The subsequence of the alphabet characters of the input. -/
def alphabetChars (e : List Byte) : List Byte := e.filter isAlphabetChar

/-- The character of the standard alphabet for a character of the URL-safe
alphabet: `-` gives `+`, `_` gives `/`, every other byte is kept. -/
def toStandard (c : Byte) : Byte := if c = 45 then 43 else if c = 95 then 47 else c

/-- The local variables of the decoding loop at the start of round `j`. -/
def stateAt (e : List Byte) (j : Nat) : DecodeState :=
  (runSteps (fun _ => decodeStepL e) j 0 { bits := 0, bitslen := 0, i := 0 }).2

/-! ## Pointers and single accesses -/

theorem Ptr.add_zero (p : Ptr) : p.add 0 = p := by
  cases p <;> simp [Ptr.add]

theorem Ptr.add_add (p : Ptr) (a b : Int) : (p.add a).add b = p.add (a + b) := by
  cases p <;> simp [Ptr.add, Int.add_assoc]

theorem Ptr.addr_add (b : Nat) (o k : Int) : (Ptr.addr b o).add k = .addr b (o + k) := rfl

theorem cells_eq_ok {h : Heap} {b : Nat} {cs : List Cell} :
    h.cells b = .ok cs ↔ h.blocks[b]? = some (some cs) := by
  unfold Heap.cells
  split <;> simp_all

theorem load_eq_ok {h : Heap} {p : Ptr} {v : Byte} :
    h.load p = .ok v ↔
      ∃ b o cs, p = .addr b o ∧ 0 ≤ o ∧ h.blocks[b]? = some (some cs) ∧
        cs[o.toNat]? = some (some v) := by
  constructor
  · intro hl
    cases p with
    | null => simp [Heap.load] at hl
    | addr b o =>
      simp only [Heap.load] at hl
      by_cases ho : o < 0
      · simp [ho] at hl
      · simp only [ho, if_false] at hl
        cases hcs : h.cells b with
        | error e => simp [hcs] at hl
        | ok cs =>
          simp only [hcs] at hl
          refine ⟨b, o, cs, rfl, by omega, cells_eq_ok.mp hcs, ?_⟩
          split at hl <;> simp_all
  · rintro ⟨b, o, cs, rfl, ho, hb, hc⟩
    have hcs := cells_eq_ok.mpr hb
    have : ¬ o < 0 := by omega
    simp [Heap.load, this, hcs, hc]

/-- A load only looks at the block the pointer points into. -/
theorem load_congr {h h1 : Heap} {b : Nat} (hb : h1.blocks[b]? = h.blocks[b]?) (o : Int) :
    h1.load (.addr b o) = h.load (.addr b o) := by
  simp [Heap.load, Heap.cells, hb]

theorem store_eq_ok {h : Heap} {p : Ptr} {v : Byte} {h1 : Heap} :
    h.store p v = .ok h1 ↔
      ∃ b o cs, p = .addr b o ∧ 0 ≤ o ∧ h.blocks[b]? = some (some cs) ∧
        o.toNat < cs.length ∧
        h1 = { h with blocks := h.blocks.set b (some (cs.set o.toNat (some v))) } := by
  constructor
  · intro hs
    cases p with
    | null => simp [Heap.store] at hs
    | addr b o =>
      simp only [Heap.store] at hs
      by_cases ho : o < 0
      · simp [ho] at hs
      · simp only [ho, if_false] at hs
        cases hcs : h.cells b with
        | error e => simp [hcs] at hs
        | ok cs =>
          simp only [hcs] at hs
          by_cases hlen : o.toNat < cs.length
          · simp only [hlen, if_true, Except.ok.injEq] at hs
            exact ⟨b, o, cs, rfl, by omega, cells_eq_ok.mp hcs, hlen, hs.symm⟩
          · simp [hlen] at hs
  · rintro ⟨b, o, cs, rfl, ho, hb, hlen, rfl⟩
    have hcs := cells_eq_ok.mpr hb
    have : ¬ o < 0 := by omega
    simp [Heap.store, this, hcs, hlen]

/-- After a store, a load sees the stored byte at that address and the old
memory everywhere else. -/
theorem load_store {h : Heap} {p : Ptr} {v : Byte} {h1 : Heap}
    (hs : h.store p v = .ok h1) (q : Ptr) :
    h1.load q = if q = p then .ok v else h.load q := by
  obtain ⟨b, o, cs, rfl, ho, hb, hlen, rfl⟩ := store_eq_ok.mp hs
  cases q with
  | null => simp [Heap.load]
  | addr c r =>
    by_cases hc : c = b
    · subst hc
      have hlt : c < h.blocks.length := by
        rcases Nat.lt_or_ge c h.blocks.length with hl | hl
        · exact hl
        · rw [List.getElem?_eq_none hl] at hb
          cases hb
      by_cases hr : r < 0
      · have hne : r ≠ o := by omega
        simp [Heap.load, hr, hne]
      · have hcs : h.cells c = .ok cs := cells_eq_ok.mpr hb
        by_cases hro : r = o
        · subst hro
          simp [Heap.load, Heap.cells, hr, hlt, hlen]
        · have hne : ¬ o.toNat = r.toNat := by omega
          simp [Heap.load, Heap.cells, hr, hlt, hro, hb, List.getElem?_set, hne]
    · have hne : ¬ b = c := fun e => hc e.symm
      simp [Heap.load, Heap.cells, hc, List.getElem?_set, hne]

/-- A store succeeds wherever a load does. -/
theorem store_ok_of_load {h : Heap} {p : Ptr} {v : Byte} (w : Byte)
    (hl : h.load p = .ok v) : ∃ h1, h.store p w = .ok h1 := by
  obtain ⟨b, o, cs, rfl, ho, hb, hc⟩ := load_eq_ok.mp hl
  have hlen : o.toNat < cs.length := by
    rcases Nat.lt_or_ge o.toNat cs.length with hl | hl
    · exact hl
    · rw [List.getElem?_eq_none hl] at hc
      cases hc
  exact ⟨_, store_eq_ok.mpr ⟨b, o, cs, rfl, ho, hb, hlen, rfl⟩⟩

theorem loadBytes_eq_ok {h : Heap} {n : Nat} {p : Ptr} {bs : List Byte} :
    h.loadBytes p n = .ok bs ↔
      bs.length = n ∧ ∀ j (hj : j < bs.length), h.load (p.add j) = .ok bs[j] := by
  induction n generalizing p bs with
  | zero =>
    simp only [Heap.loadBytes, Except.ok.injEq]
    constructor
    · rintro rfl
      simp
    · rintro ⟨hlen, -⟩
      exact (List.length_eq_zero.mp hlen).symm
  | succ n ih =>
    simp only [Heap.loadBytes]
    constructor
    · intro hl
      cases hv : h.load p with
      | error e => simp [hv] at hl
      | ok v =>
        simp only [hv] at hl
        cases hvs : h.loadBytes (p.add 1) n with
        | error e => simp [hvs] at hl
        | ok vs =>
          simp only [hvs, Except.ok.injEq] at hl
          subst hl
          obtain ⟨hlen, hget⟩ := ih.mp hvs
          refine ⟨by simp [hlen], ?_⟩
          intro j hj
          cases j with
          | zero => simpa [Ptr.add_zero] using hv
          | succ j =>
            have := hget j (by simpa using hj)
            rw [Ptr.add_add] at this
            simpa [Int.add_comm] using this
    · rintro ⟨hlen, hget⟩
      cases bs with
      | nil => simp at hlen
      | cons v vs =>
        have hv := hget 0 (by simp)
        simp only [Nat.cast_zero, Ptr.add_zero, List.getElem_cons_zero] at hv
        have hvs : h.loadBytes (p.add 1) n = .ok vs := by
          refine ih.mpr ⟨by simpa using hlen, ?_⟩
          intro j hj
          have := hget (j + 1) (by simpa using hj)
          rw [Ptr.add_add]
          simpa [Int.add_comm] using this
        simp [hv, hvs]

/-- Reading a range gives the same result in two heaps that agree on it. -/
theorem loadBytes_congr {h h1 : Heap} {n : Nat} {p : Ptr}
    (hag : ∀ j : Nat, j < n → h1.load (p.add j) = h.load (p.add j)) :
    h1.loadBytes p n = h.loadBytes p n := by
  induction n generalizing p with
  | zero => rfl
  | succ n ih =>
    have h0 := hag 0 (by omega)
    simp only [Nat.cast_zero, Ptr.add_zero] at h0
    have hrest : h1.loadBytes (p.add 1) n = h.loadBytes (p.add 1) n := by
      apply ih
      intro j hj
      have := hag (j + 1) (by omega)
      simp only [Ptr.add_add]
      simpa [Int.add_comm] using this
    simp only [Heap.loadBytes, h0, hrest]

/-! ## Blocks at the end of the heap -/

theorem lt_length_of_live {B : List (Option (List Cell))} {b : Nat} {x : Option (List Cell)}
    (hb : B[b]? = some x) : b < B.length := by
  rcases Nat.lt_or_ge b B.length with hl | hl
  · exact hl
  · rw [List.getElem?_eq_none hl] at hb
    cases hb

/-- Memory that can be read stays readable when blocks are added. -/
theorem load_append {h : Heap} {p : Ptr} {v : Byte} (ex : List (Option (List Cell)))
    (l : Nat) (hl : h.load p = .ok v) : (⟨h.blocks ++ ex, l⟩ : Heap).load p = .ok v := by
  obtain ⟨b, o, cs, rfl, ho, hb, hc⟩ := load_eq_ok.mp hl
  refine load_eq_ok.mpr ⟨b, o, cs, rfl, ho, ?_, hc⟩
  have hlt := lt_length_of_live hb
  simp only [List.getElem?_append_left hlt, hb]

theorem set_at_length (pre post : List Cell) (c d : Cell) :
    (pre ++ c :: post).set pre.length d = pre ++ d :: post := by
  induction pre with
  | nil => rfl
  | cons a pre ih => simp [ih]

theorem set_last_block (B : List (Option (List Cell))) (x y : Option (List Cell)) :
    (B ++ [x]).set B.length y = B ++ [y] := by
  induction B with
  | nil => rfl
  | cons a B ih => simp [ih]

/-- A store into the last block of the heap. -/
theorem store_last (B : List (Option (List Cell))) (l : Nat) (pre post : List Cell)
    (c : Cell) (v : Byte) :
    (⟨B ++ [some (pre ++ c :: post)], l⟩ : Heap).store (.addr B.length pre.length) v
      = .ok ⟨B ++ [some (pre ++ some v :: post)], l⟩ := by
  refine store_eq_ok.mpr ⟨B.length, pre.length, pre ++ c :: post, rfl, by omega, by simp,
    by simp, ?_⟩
  simp [set_at_length, set_last_block]

/-- A loop whose round `j` stores the byte `v j` in the next cell of the last
block fills a range of that block. -/
theorem forLoop_fill (body : Nat → Heap → Run Heap) (B : List (Option (List Cell)))
    (l off N : Nat) (v : Nat → Byte)
    (hbody : ∀ j, j < N → ∀ (pre post : List Cell) (c : Cell), pre.length = off + j →
      body j ⟨B ++ [some (pre ++ c :: post)], l⟩
        = .ok ⟨B ++ [some (pre ++ some (v j) :: post)], l⟩)
    (cs : List Cell) : ∀ (j : Nat) (pre post : List Cell), pre.length = off + j →
      j + cs.length ≤ N →
      forLoop body cs.length j ⟨B ++ [some (pre ++ cs ++ post)], l⟩
        = .ok ⟨B ++ [some (pre ++ (List.range' j cs.length).map (fun x => some (v x)) ++ post)],
            l⟩ := by
  induction cs with
  | nil =>
    intro j pre post _ _
    simp [forLoop]
  | cons c cs ih =>
    intro j pre post hpre hN
    simp only [List.length_cons] at hN ⊢
    have h1 := hbody j (by omega) pre (cs ++ post) c hpre
    have h2 := ih (j + 1) (pre ++ [some (v j)]) post (by simp [hpre]; omega) (by omega)
    simp only [List.append_assoc, List.singleton_append, List.cons_append,
      List.nil_append] at h1 h2 ⊢
    simp only [forLoop, h1, h2, List.range'_succ, List.map_cons, List.cons_append]

theorem map_range_getD (bs : List Byte) :
    (List.range' 0 bs.length).map (fun x => some (bs.getD x 0)) = bs.map some := by
  apply List.ext_getElem
  · simp
  · intro i h1 h2
    simp at h1
    simp [List.getD_eq_getElem?_getD, List.getElem?_eq_getElem h1]

theorem map_range_const (n : Nat) (j : Nat) (c : Cell) :
    (List.range' j n).map (fun _ => c) = List.replicate n c := by
  induction n generalizing j with
  | zero => rfl
  | succ n ih => simp [List.range'_succ, ih, List.replicate_succ]

theorem malloc_ok {h : Heap} {size : Nat} (hs : size ≤ h.limit) :
    h.malloc size
      = (⟨h.blocks ++ [some (List.replicate size none)], h.limit⟩, .addr h.blocks.length 0) := by
  simp [Heap.malloc, hs]

/-! ## `c_buffer_construct` -/

/-- The heap and the handle that `c_buffer_construct` returns: one new block,
eight zero bytes followed by the data. -/
theorem construct_eq {h : Heap} {data : Ptr} {bs : List Byte}
    (hdata : h.loadBytes data bs.length = .ok bs)
    (hfit : 8 + bs.length < U64) (halloc : 8 + bs.length ≤ h.limit) :
    c_buffer_construct h bs.length data
      = .ok (⟨h.blocks ++ [some (List.replicate 8 (some 0) ++ bs.map some)], h.limit⟩,
          ⟨bs.length, .addr h.blocks.length 8⟩) := by
  have hsize : add64 BUFFER_METADATA_WIDTH (mul64 bs.length 1) = 8 + bs.length := by
    have : bs.length < U64 := by omega
    simp [add64, mul64, BUFFER_METADATA_WIDTH, Nat.mod_eq_of_lt this, Nat.mod_eq_of_lt hfit]
  have hget := (loadBytes_eq_ok.mp hdata).2
  -- the reference count
  have hhdr := forLoop_fill (fun j hj => hj.store ((Ptr.addr h.blocks.length 0).add j) 0)
    h.blocks h.limit 0 8 (fun _ => 0)
    (by
      intro j _ pre post c hpre
      have : (0 : Int) + (j : Int) = (pre.length : Int) := by omega
      simp only [Ptr.addr_add, this]
      exact store_last _ _ _ _ _ _)
    (List.replicate 8 none) 0 [] (List.replicate bs.length none) rfl (by simp)
  -- the data
  have hcopy := forLoop_fill
    (fun j hj =>
      match hj.load (data.add j) with
      | .error e => .error e
      | .ok v => hj.store ((Ptr.addr h.blocks.length 0).add (BUFFER_METADATA_WIDTH + j : Nat)) v)
    h.blocks h.limit 8 bs.length (fun j => bs.getD j 0)
    (by
      intro j hj pre post c hpre
      have hl := load_append [some (pre ++ c :: post)] h.limit (hget j hj)
      have : (0 : Int) + ((BUFFER_METADATA_WIDTH + j : Nat) : Int) = (pre.length : Int) := by
        simp only [BUFFER_METADATA_WIDTH]
        omega
      simp only [hl, Ptr.addr_add, this]
      rw [store_last]
      simp [List.getD_eq_getElem?_getD, List.getElem?_eq_getElem hj])
    (List.replicate bs.length none) 0 (List.replicate 8 (some 0)) [] rfl (by simp)
  simp only [List.length_replicate, List.nil_append, map_range_const, List.append_nil,
    map_range_getD] at hhdr hcopy
  unfold c_buffer_construct
  rw [hsize, malloc_ok halloc]
  simp only [ASSERT_NON_NULL, List.replicate_add]
  rw [show BUFFER_METADATA_WIDTH = 8 from rfl] at hcopy ⊢
  simp only [Ptr.addr_add] at hhdr hcopy ⊢
  simp only [hhdr, hcopy]
  rfl

/-- Reading back a run of bytes that stands in a block. -/
theorem loadBytes_block (h : Heap) (b : Nat) (pre post : List Cell) (bs : List Byte)
    (hb : h.blocks[b]? = some (some (pre ++ bs.map some ++ post))) :
    h.loadBytes (.addr b pre.length) bs.length = .ok bs := by
  refine loadBytes_eq_ok.mpr ⟨rfl, ?_⟩
  intro j hj
  refine load_eq_ok.mpr ⟨b, pre.length + j, _, rfl, by omega, hb, ?_⟩
  have e : ((pre.length : Int) + (j : Int)).toNat = pre.length + j := by omega
  rw [e, List.append_assoc, List.getElem?_append_right (by omega)]
  simp [List.getElem?_append_left, hj]

theorem word64_zero : word64 (List.replicate 8 (0 : Byte)) = 0 := by decide

/-- A block that starts with eight zero bytes holds the reference count 0. -/
theorem load64_zero_header {h : Heap} {b : Nat} {post : List Cell}
    (hb : h.blocks[b]? = some (some (List.replicate 8 (some 0) ++ post))) :
    h.load64 (.addr b 0) = .ok 0 := by
  have := loadBytes_block h b [] post (List.replicate 8 (0 : Byte)) (by simpa using hb)
  simp only [List.length_nil, List.length_replicate, Nat.cast_zero] at this
  simp only [Heap.load64, this, word64_zero]

/-- A range that can be read stays readable when blocks are added. -/
theorem loadBytes_append {h : Heap} {p : Ptr} {n : Nat} {bs : List Byte}
    (ex : List (Option (List Cell))) (l : Nat) (hl : h.loadBytes p n = .ok bs) :
    (⟨h.blocks ++ ex, l⟩ : Heap).loadBytes p n = .ok bs := by
  obtain ⟨hlen, hget⟩ := loadBytes_eq_ok.mp hl
  exact loadBytes_eq_ok.mpr ⟨hlen, fun j hj => load_append ex l (hget j hj)⟩

theorem load64_eq_ok {h : Heap} {p : Ptr} {r : Nat} :
    h.load64 p = .ok r ↔ ∃ vs, h.loadBytes p 8 = .ok vs ∧ word64 vs = r := by
  unfold Heap.load64
  cases h.loadBytes p 8 with
  | error e => simp
  | ok vs => simp

/-- A reference count that can be read stays the same when blocks are added. -/
theorem load64_append {h : Heap} {p : Ptr} {r : Nat}
    (ex : List (Option (List Cell))) (l : Nat) (hl : h.load64 p = .ok r) :
    (⟨h.blocks ++ ex, l⟩ : Heap).load64 p = .ok r := by
  obtain ⟨vs, hvs, hw⟩ := load64_eq_ok.mp hl
  exact load64_eq_ok.mpr ⟨vs, loadBytes_append ex l hvs, hw⟩

/-! ## `c_buffer_construct_zeroed` -/

theorem calloc_ok {h : Heap} {n : Nat} (hfit : n < U64) (hs : n ≤ h.limit) :
    h.calloc n 1
      = (⟨h.blocks ++ [some (List.replicate n (some 0))], h.limit⟩, .addr h.blocks.length 0) := by
  simp [Heap.calloc, hs, hfit]

theorem set_middle_block (B : List (Option (List Cell))) (x y z : Option (List Cell)) :
    (B ++ [x] ++ [y]).set B.length z = B ++ [z, y] := by
  induction B with
  | nil => rfl
  | cons a B ih =>
    simp only [List.cons_append, List.length_cons, List.set_cons_succ, ih]

/-- The heap and the handle that `c_buffer_construct_zeroed` returns: the staging
block, freed, and one new block of `8 + n` zero bytes. -/
theorem construct_zeroed_eq {h : Heap} {n : Nat}
    (hfit : 8 + n < U64) (halloc : 8 + n ≤ h.limit) :
    c_buffer_construct_zeroed h n
      = .ok (⟨h.blocks ++
            [none, some (List.replicate 8 (some 0) ++ List.replicate n (some 0))], h.limit⟩,
          ⟨n, .addr (h.blocks.length + 1) 8⟩) := by
  have hstage : (⟨h.blocks ++ [some (List.replicate n (some 0))], h.limit⟩ : Heap).loadBytes
      (.addr h.blocks.length 0) (List.replicate n (0 : Byte)).length
        = .ok (List.replicate n (0 : Byte)) := by
    have := loadBytes_block
      (⟨h.blocks ++ [some (List.replicate n (some 0))], h.limit⟩ : Heap)
      h.blocks.length [] [] (List.replicate n (0 : Byte)) (by simp)
    simpa using this
  have hc := construct_eq hstage (by simpa using hfit) (by simpa using halloc)
  simp only [List.length_replicate, List.map_replicate, List.length_append, List.length_singleton]
    at hc
  unfold c_buffer_construct_zeroed
  rw [calloc_ok (by omega) (by omega)]
  simp only [ASSERT_NON_NULL, hc]
  have hcells : (⟨h.blocks ++ [some (List.replicate n (some 0))] ++
      [some (List.replicate 8 (some 0) ++ List.replicate n (some (0 : Byte)))], h.limit⟩ :
      Heap).cells h.blocks.length = .ok (List.replicate n (some 0)) := by
    apply cells_eq_ok.mpr
    show (h.blocks ++ [some (List.replicate n (some 0))] ++ _)[h.blocks.length]? = _
    rw [List.append_assoc, List.getElem?_append_right (Nat.le_refl _), Nat.sub_self]
    rfl
  simp only [Heap.free, if_true, hcells, set_middle_block]

/-! ## Arithmetic on `uint64_t` without wrap-around -/

theorem U64_eq : U64 = 18446744073709551616 := by decide

theorem add64_eq {a b : Nat} (hab : a + b < U64) : add64 a b = a + b :=
  Nat.mod_eq_of_lt hab

theorem sub64_eq {a b : Nat} (hba : b ≤ a) (ha : a < U64) : sub64 a b = a - b := by
  unfold sub64
  rw [U64_eq] at *
  omega

theorem mul64_eq {a b : Nat} (hab : a * b < U64) : mul64 a b = a * b :=
  Nat.mod_eq_of_lt hab

/-! ## `c_buffer_concatenate` -/

theorem load_append2 {h : Heap} {p : Ptr} {v : Byte} (ex1 ex2 : List (Option (List Cell)))
    (l : Nat) (hl : h.load p = .ok v) : (⟨h.blocks ++ ex1 ++ ex2, l⟩ : Heap).load p = .ok v := by
  rw [List.append_assoc]
  exact load_append _ l hl

/-- The heap and the handle that `c_buffer_concatenate` returns. -/
theorem concatenate_eq {h : Heap} {left right : Pos} {bl br : List Byte}
    (hl : to_bytes h left = .ok bl) (hr : to_bytes h right = .ok br)
    (hfit : 8 + (bl.length + br.length) < U64)
    (halloc : 8 + (bl.length + br.length) ≤ h.limit) :
    c_buffer_concatenate h left right
      = .ok (⟨h.blocks ++ [none, some (List.replicate 8 (some 0) ++ (bl ++ br).map some)],
            h.limit⟩,
          ⟨bl.length + br.length, .addr (h.blocks.length + 1) 8⟩) := by
  obtain ⟨hll, hlg⟩ := loadBytes_eq_ok.mp hl
  obtain ⟨hrl, hrg⟩ := loadBytes_eq_ok.mp hr
  have hsum : add64 (c_buffer_length left) (c_buffer_length right) = bl.length + br.length := by
    rw [← hll, ← hrl, add64_eq (by omega)]
  have hfill := forLoop_fill
    (fun j hj =>
      match (if j < c_buffer_length left
             then hj.load ((c_buffer_bytes left).add j)
             else hj.load ((c_buffer_bytes right).add (sub64 j (c_buffer_length left)))) with
      | .error e => .error e
      | .ok v => hj.store ((Ptr.addr (h.blocks.length + 1) 8).add j) v)
    (h.blocks ++ [none]) h.limit 8 (bl.length + br.length) (fun j => (bl ++ br).getD j 0)
    (by
      intro j hj pre post c hpre
      have hst : (8 : Int) + (j : Int) = (pre.length : Int) := by omega
      have hB : h.blocks.length + 1 = (h.blocks ++ [none]).length := by simp
      by_cases hjl : j < c_buffer_length left
      · have hjl1 : j < bl.length := by omega
        have hld := load_append2 [none] [some (pre ++ c :: post)] h.limit (hlg j hjl1)
        simp only [hjl, if_true, hld, Ptr.addr_add, hst, hB]
        rw [store_last]
        simp [List.getD_eq_getElem?_getD, List.getElem?_append_left hjl1,
          List.getElem?_eq_getElem hjl1]
      · have hjr : j - bl.length < br.length := by omega
        have hsub : sub64 j (c_buffer_length left) = j - bl.length := by
          rw [sub64_eq (by omega) (by omega), hll]
        have hld := load_append2 [none] [some (pre ++ c :: post)] h.limit
          (hrg (j - bl.length) hjr)
        simp only [hjl, if_false, hsub, hld, Ptr.addr_add, hst, hB]
        rw [store_last]
        simp [List.getD_eq_getElem?_getD, List.getElem?_append_right (by omega : bl.length ≤ j),
          List.getElem?_eq_getElem hjr])
    (List.replicate (bl.length + br.length) (some 0)) 0 (List.replicate 8 (some 0)) [] rfl
    (by simp)
  have hrange : (List.range' 0 (bl.length + br.length)).map
      (fun x => some ((bl ++ br).getD x 0)) = (bl ++ br).map some := by
    rw [← List.length_append]
    exact map_range_getD _
  simp only [List.length_replicate, List.append_nil, hrange, List.append_assoc,
    List.singleton_append] at hfill
  unfold c_buffer_concatenate
  rw [hsum, construct_zeroed_eq hfit halloc]
  simp only [c_buffer_length, c_buffer_bytes] at hfill ⊢
  simp only [hfill]

/-! ## Words in memory -/

theorem word64_bytesOf (w k : Nat) : word64 (bytesOf w k) = w % 256 ^ k := by
  induction k generalizing w with
  | zero => simp [bytesOf, word64, Nat.mod_one]
  | succ k ih =>
    simp only [bytesOf, word64, ih, toByte]
    rw [pow_succ', Nat.mod_mul]

theorem word64_lt (vs : List Byte) : word64 vs < 256 ^ vs.length := by
  induction vs with
  | nil => simp [word64]
  | cons v vs ih =>
    simp only [word64, List.length_cons, pow_succ]
    have := v.isLt
    omega

theorem SameShape.refl (h : Heap) : SameShape h h :=
  ⟨fun _ => Iff.rfl, fun _ => Iff.rfl, rfl, rfl⟩

theorem SameShape.trans {h2 h1 h : Heap} (a : SameShape h2 h1) (b : SameShape h1 h) :
    SameShape h2 h :=
  ⟨fun c => (a.freed c).trans (b.freed c), fun c => (a.live c).trans (b.live c),
    a.length.trans b.length, a.limit.trans b.limit⟩

theorem store_shape {h : Heap} {p : Ptr} {v : Byte} {h1 : Heap}
    (hs : h.store p v = .ok h1) : SameShape h1 h := by
  obtain ⟨b, o, cs, rfl, ho, hb, hlen, rfl⟩ := store_eq_ok.mp hs
  have hlt := lt_length_of_live hb
  refine ⟨?_, ?_, by simp, rfl⟩
  · intro c
    by_cases hc : b = c
    · subst hc
      simp [Heap.freed, List.getElem?_set, hlt, hb]
    · simp [Heap.freed, List.getElem?_set, hc]
  · intro c
    by_cases hc : b = c
    · subst hc
      simp [Heap.live, List.getElem?_set, hlt, hb]
    · simp [Heap.live, List.getElem?_set, hc]

/-- A word can be stored wherever its bytes can be read; afterwards the bytes of
the word can be read back there and all other memory is as before. -/
theorem storeWord_spec (k : Nat) : ∀ (h : Heap) (p : Ptr) (w : Nat),
    (∀ j : Nat, j < k → ∃ v, h.load (p.add j) = .ok v) →
    ∃ h1, h.storeWord p w k = .ok h1 ∧
      h1.loadBytes p k = .ok (bytesOf w k) ∧
      (∀ q, (∀ j : Nat, j < k → q ≠ p.add j) → h1.load q = h.load q) ∧
      SameShape h1 h := by
  induction k with
  | zero =>
    intro h p w _
    exact ⟨h, rfl, rfl, fun _ _ => rfl, SameShape.refl h⟩
  | succ k ih =>
    intro h p w hok
    obtain ⟨v0, hv0⟩ := hok 0 (by omega)
    simp only [Nat.cast_zero, Ptr.add_zero] at hv0
    obtain ⟨b, o, cs, rfl, -, -, -⟩ := load_eq_ok.mp hv0
    obtain ⟨h1, hs⟩ := store_ok_of_load (toByte w) hv0
    have hok1 : ∀ j : Nat, j < k → ∃ v, h1.load ((Ptr.addr b o).add 1 |>.add j) = .ok v := by
      intro j hj
      rw [load_store hs]
      split
      · exact ⟨_, rfl⟩
      · have := hok (j + 1) (by omega)
        simpa [Ptr.add_add, Int.add_comm] using this
    obtain ⟨h2, hw, hread, hframe, hshape⟩ := ih h1 ((Ptr.addr b o).add 1) (w / 256) hok1
    refine ⟨h2, by simp only [Heap.storeWord, hs, hw], ?_, ?_, hshape.trans (store_shape hs)⟩
    · have h0 : h2.load (.addr b o) = .ok (toByte w) := by
        rw [hframe, load_store hs, if_pos rfl]
        intro j _
        simp only [Ptr.addr_add, ne_eq, Ptr.addr.injEq, true_and]
        omega
      simp only [Heap.loadBytes, h0, hread, bytesOf]
    · intro q hq
      rw [hframe, load_store hs, if_neg]
      · simpa [Ptr.add_zero] using hq 0 (by omega)
      · intro j hj
        have := hq (j + 1) (by omega)
        simpa [Ptr.add_add, Int.add_comm] using this

/-! ## The reference counter -/

theorem refcount_lt {h : Heap} {x : Pos} {r : Nat} (hr : refcount h x = .ok r) : r < U64 := by
  obtain ⟨vs, hvs, rfl⟩ := load64_eq_ok.mp hr
  have := word64_lt vs
  rw [(loadBytes_eq_ok.mp hvs).1] at this
  exact this

/-- A buffer whose reference count can be read lies in a live block. -/
theorem obj_of_refcount {h : Heap} {x : Pos} {r : Nat} (hr : refcount h x = .ok r) :
    ∃ b o, x.obj = .addr b o ∧ h.live b := by
  obtain ⟨vs, hvs, -⟩ := load64_eq_ok.mp hr
  obtain ⟨hlen, hget⟩ := loadBytes_eq_ok.mp hvs
  have h0 := hget 0 (by omega)
  obtain ⟨b, o, cs, hp, -, hb, -⟩ := load_eq_ok.mp h0
  cases hx : x.obj with
  | null => simp [c_buffer_refcount, hx, Ptr.add] at hp
  | addr b1 o1 =>
    simp only [c_buffer_refcount, hx, Ptr.addr_add, Ptr.addr.injEq] at hp
    exact ⟨b1, o1, rfl, cs, hp.1 ▸ hb⟩

/-- Writing a new value into the reference counter of a buffer: the counter
holds the value, the bytes of the buffer and the shape of the heap are as
before. -/
theorem store_refcount {h : Heap} {x : Pos} {r : Nat} (w : Nat) (hw : w < U64)
    (hr : refcount h x = .ok r) :
    ∃ h1, h.store64 (c_buffer_refcount x) w = .ok h1 ∧
      refcount h1 x = .ok w ∧
      to_bytes h1 x = to_bytes h x ∧
      SameShape h1 h := by
  obtain ⟨vs, hvs, -⟩ := load64_eq_ok.mp hr
  obtain ⟨hlen, hget⟩ := loadBytes_eq_ok.mp hvs
  obtain ⟨b, o, hobj, -⟩ := obj_of_refcount hr
  obtain ⟨h1, hs, hread, hframe, hshape⟩ :=
    storeWord_spec 8 h (c_buffer_refcount x) w (fun j hj => ⟨_, hget j (by omega)⟩)
  refine ⟨h1, hs, ?_, ?_, hshape⟩
  · have hmod : w % 256 ^ 8 = w := Nat.mod_eq_of_lt (by rw [U64_eq] at hw; omega)
    simp only [refcount, Heap.load64, hread, word64_bytesOf, hmod]
  · apply loadBytes_congr
    intro j _
    apply hframe
    intro i hi
    simp only [c_buffer_bytes, c_buffer_refcount, hobj, Ptr.addr_add, ne_eq, Ptr.addr.injEq,
      true_and]
    omega

/-- Function `c_buffer_refcount_increment` on a buffer with reference count `r`. -/
theorem increment_eq {h : Heap} {x : Pos} {r : Nat} (hr : refcount h x = .ok r) :
    ∃ h1, c_buffer_refcount_increment h x = .ok h1 ∧
      refcount h1 x = .ok (add64 r 1) ∧
      to_bytes h1 x = to_bytes h x ∧
      SameShape h1 h := by
  obtain ⟨h1, hs, h2, h3, h4⟩ :=
    store_refcount (add64 r 1) (Nat.mod_lt _ (by decide)) hr
  refine ⟨h1, ?_, h2, h3, h4⟩
  have hr1 : h.load64 (c_buffer_refcount x) = .ok r := hr
  simp only [c_buffer_refcount_increment, hr1, hs]

/-- Function `c_buffer_refcount_decrement` on a buffer with a positive reference
count. -/
theorem decrement_pos {h : Heap} {x : Pos} {r : Nat} (hr : refcount h x = .ok r)
    (hpos : 0 < r) :
    ∃ h1, c_buffer_refcount_decrement h x = .ok h1 ∧
      refcount h1 x = .ok (r - 1) ∧
      to_bytes h1 x = to_bytes h x ∧
      SameShape h1 h := by
  have hlt := refcount_lt hr
  obtain ⟨h1, hs, h2, h3, h4⟩ := store_refcount (r - 1) (by omega) hr
  refine ⟨h1, ?_, h2, h3, h4⟩
  have hr1 : h.load64 (c_buffer_refcount x) = .ok r := hr
  have hne : r ≠ 0 := by omega
  simp only [c_buffer_refcount_decrement, hr1, sub64_eq hpos hlt, hs, hne, if_false]

/-- Function `c_buffer_refcount_decrement` on a buffer with reference count 0:
the block of the buffer is freed. -/
theorem decrement_zero {h : Heap} {x : Pos} {b : Nat} (hobj : x.obj = .addr b 8)
    (hr : refcount h x = .ok 0) :
    ∃ h1, c_buffer_refcount_decrement h x = .ok h1 ∧ h1.freed b := by
  obtain ⟨h1, hs, -, -, h4⟩ := store_refcount (sub64 0 1) (Nat.mod_lt _ (by decide)) hr
  obtain ⟨b1, o1, hobj1, hlive⟩ := obj_of_refcount hr
  rw [hobj] at hobj1
  cases hobj1
  obtain ⟨cs, hcs⟩ := (h4.live b).mpr hlive
  have hr1 : h.load64 (c_buffer_refcount x) = .ok 0 := hr
  have hlt := lt_length_of_live hcs
  refine ⟨{ h1 with blocks := h1.blocks.set b none }, ?_, ?_⟩
  · have hfree : h1.free (.addr b 0) = .ok { h1 with blocks := h1.blocks.set b none } := by
      simp only [Heap.free, cells_eq_ok.mpr hcs, if_true]
    simp only [c_buffer_refcount_decrement, hr1, hs, if_true, c_buffer_destruct, hobj,
      Ptr.addr_add, BUFFER_METADATA_WIDTH]
    exact hfree
  · simp [Heap.freed, hlt]

theorem repeatRun_succ {f : Heap → Run Heap} {h h1 : Heap} (k : Nat) (hf : f h = .ok h1) :
    repeatRun f (k + 1) h = repeatRun f k h1 := by
  simp only [repeatRun, hf]

theorem not_freed_of_live {h : Heap} {b : Nat} (hl : h.live b) : ¬ h.freed b := by
  obtain ⟨cs, hcs⟩ := hl
  simp [Heap.freed, hcs]

/-- The state after `k` increments of a buffer with reference count `r`. -/
theorem increments_eq (x : Pos) (k : Nat) : ∀ (h : Heap) (r : Nat),
    refcount h x = .ok r → r + k < U64 →
    ∃ h1, repeatRun (fun s => c_buffer_refcount_increment s x) k h = .ok h1 ∧
      refcount h1 x = .ok (r + k) ∧ to_bytes h1 x = to_bytes h x ∧ SameShape h1 h := by
  induction k with
  | zero =>
    intro h r hr _
    exact ⟨h, rfl, hr, rfl, SameShape.refl h⟩
  | succ k ih =>
    intro h r hr hlt
    obtain ⟨h1, hi, hr1, hb1, hs1⟩ := increment_eq hr
    rw [add64_eq (by omega)] at hr1
    obtain ⟨h2, hrep, hr2, hb2, hs2⟩ := ih h1 (r + 1) hr1 (by omega)
    refine ⟨h2, (repeatRun_succ k hi).trans hrep, ?_, hb2.trans hb1, hs2.trans hs1⟩
    rw [hr2]
    congr 1
    omega

/-- The state after `m` decrements of a buffer with reference count `r`, for
`m ≤ r`. -/
theorem decrements_eq (x : Pos) (m : Nat) : ∀ (h : Heap) (r : Nat),
    refcount h x = .ok r → m ≤ r →
    ∃ h1, repeatRun (fun s => c_buffer_refcount_decrement s x) m h = .ok h1 ∧
      refcount h1 x = .ok (r - m) ∧ to_bytes h1 x = to_bytes h x ∧ SameShape h1 h := by
  induction m with
  | zero =>
    intro h r hr _
    exact ⟨h, rfl, hr, rfl, SameShape.refl h⟩
  | succ m ih =>
    intro h r hr hle
    obtain ⟨h1, hd, hr1, hb1, hs1⟩ := decrement_pos hr (by omega)
    obtain ⟨h2, hrep, hr2, hb2, hs2⟩ := ih h1 (r - 1) hr1 (by omega)
    refine ⟨h2, (repeatRun_succ m hd).trans hrep, ?_, hb2.trans hb1, hs2.trans hs1⟩
    rw [hr2]
    congr 1
    omega

/-- Decrementing a buffer with reference count `r` for `r + 1` times frees it. -/
theorem decrements_free (x : Pos) (b : Nat) (hobj : x.obj = .addr b 8) (r : Nat) :
    ∀ (h : Heap), refcount h x = .ok r →
    ∃ h1, repeatRun (fun s => c_buffer_refcount_decrement s x) (r + 1) h = .ok h1 ∧
      h1.freed b := by
  induction r with
  | zero =>
    intro h hr
    obtain ⟨h1, hd, hf⟩ := decrement_zero hobj hr
    exact ⟨h1, (repeatRun_succ 0 hd).trans rfl, hf⟩
  | succ r ih =>
    intro h hr
    obtain ⟨h1, hd, hr1, -, -⟩ := decrement_pos hr (by omega)
    obtain ⟨h2, hrep, hf⟩ := ih h1 hr1
    exact ⟨h2, (repeatRun_succ (r + 1) hd).trans hrep, hf⟩

/-! ## `c_buffer_base64decode`: from the heap to the list of encoded bytes -/

/-- A loop whose round `j` stores one byte in the next cell of the last block and
updates local variables fills a range of that block with the bytes of
`runSteps`. -/
theorem forLoop_fill_state {τ : Type} (body : Nat → Heap × τ → Run (Heap × τ))
    (B : List (Option (List Cell))) (l off N : Nat) (step : Nat → τ → Byte × τ)
    (hbody : ∀ j, j < N → ∀ (pre post : List Cell) (c : Cell) (t : τ), pre.length = off + j →
      body j (⟨B ++ [some (pre ++ c :: post)], l⟩, t)
        = .ok (⟨B ++ [some (pre ++ some (step j t).1 :: post)], l⟩, (step j t).2))
    (cs : List Cell) : ∀ (j : Nat) (pre post : List Cell) (t : τ), pre.length = off + j →
      j + cs.length ≤ N →
      forLoop body cs.length j (⟨B ++ [some (pre ++ cs ++ post)], l⟩, t)
        = .ok (⟨B ++ [some (pre ++ (runSteps step cs.length j t).1.map some ++ post)], l⟩,
            (runSteps step cs.length j t).2) := by
  induction cs with
  | nil =>
    intro j pre post t _ _
    simp [forLoop, runSteps]
  | cons c cs ih =>
    intro j pre post t hpre hN
    simp only [List.length_cons] at hN ⊢
    have h1 := hbody j (by omega) pre (cs ++ post) c t hpre
    have h2 := ih (j + 1) (pre ++ [some (step j t).1]) post (step j t).2
      (by simp [hpre]; omega) (by omega)
    simp only [List.append_assoc, List.singleton_append, List.cons_append,
      List.nil_append] at h1 h2 ⊢
    simp only [forLoop, h1, h2, runSteps, List.map_cons, List.cons_append]

/-- The heap `h` holds the list `e` as the bytes of the buffer `encoded`. -/
theorem scanSixlet_eq {h : Heap} {encoded : Pos} {e : List Byte}
    (he : to_bytes h encoded = .ok e) (fuel : Nat) : ∀ s : Int × Nat,
    scanSixlet h encoded fuel s = .ok (scanSixletL e fuel s) := by
  obtain ⟨hlen, hget⟩ := loadBytes_eq_ok.mp he
  induction fuel with
  | zero =>
    intro s
    rfl
  | succ fuel ih =>
    rintro ⟨sixlet, i⟩
    simp only [scanSixlet, scanSixletL, hlen]
    by_cases hc : sixlet = -1 ∧ i < c_buffer_length encoded
    · have hi : i < e.length := by omega
      simp only [hc, and_self, if_true, hget i hi, ih]
      simp [List.getD_eq_getElem?_getD, List.getElem?_eq_getElem hi]
    · simp only [hc, if_false]

theorem refill_eq {h : Heap} {encoded : Pos} {e : List Byte}
    (he : to_bytes h encoded = .ok e) (fuel : Nat) : ∀ s : DecodeState,
    refill h encoded fuel s = .ok (refillL e fuel s) := by
  have hlen := (loadBytes_eq_ok.mp he).1
  induction fuel with
  | zero =>
    intro s
    rfl
  | succ fuel ih =>
    intro s
    simp only [refill, refillL, scanSixlet_eq he, ih, ← hlen]
    split <;> rfl

theorem paddingAt_eq {h : Heap} {encoded : Pos} {e : List Byte}
    (he : to_bytes h encoded = .ok e) (hn : e.length < U64) (k : Nat) (hk : 1 ≤ k) :
    paddingAt h encoded k = .ok (paddingAtL e k) := by
  obtain ⟨hlen, hget⟩ := loadBytes_eq_ok.mp he
  simp only [paddingAt, paddingAtL, ← hlen]
  by_cases hc : e.length ≥ k
  · have hsub : sub64 e.length k = e.length - k := sub64_eq hc hn
    have hi : e.length - k < e.length := by omega
    simp only [hc, if_true, hsub, hget _ hi]
    simp [List.getD_eq_getElem?_getD, List.getElem?_eq_getElem hi]
  · simp only [hc, if_false]

theorem loadBytes_append2 {h : Heap} {p : Ptr} {n : Nat} {bs : List Byte}
    (ex1 ex2 : List (Option (List Cell))) (l : Nat) (hl : h.loadBytes p n = .ok bs) :
    (⟨h.blocks ++ ex1 ++ ex2, l⟩ : Heap).loadBytes p n = .ok bs := by
  rw [List.append_assoc]
  exact loadBytes_append _ l hl

theorem runSteps_length {τ : Type} (step : Nat → τ → Byte × τ) (k : Nat) :
    ∀ (j : Nat) (t : τ), (runSteps step k j t).1.length = k := by
  induction k with
  | zero => intro j t; rfl
  | succ k ih => intro j t; simp [runSteps, ih]

/-- The heap and the handle that `c_buffer_base64decode` returns, for an encoded
buffer with bytes `e`: one new block with reference count 0 and the bytes that
`decodedLength e` rounds of `decodeStepL e` produce. -/
theorem base64decode_eq {h : Heap} {encoded : Pos} {e : List Byte}
    (he : to_bytes h encoded = .ok e) (hn : e.length < U64)
    (hfit : 8 + decodedLength e < U64) (halloc : 8 + decodedLength e ≤ h.limit) :
    c_buffer_base64decode h encoded
      = .ok (⟨h.blocks ++ [none, some (List.replicate 8 (some 0) ++
              (runSteps (fun _ => decodeStepL e) (decodedLength e) 0
                { bits := 0, bitslen := 0, i := 0 }).1.map some)], h.limit⟩,
          ⟨decodedLength e, .addr (h.blocks.length + 1) 8⟩) := by
  have hlen := (loadBytes_eq_ok.mp he).1
  have hfill := forLoop_fill_state
    (decodeStep encoded ⟨decodedLength e, .addr (h.blocks.length + 1) 8⟩)
    (h.blocks ++ [none]) h.limit 8 (decodedLength e) (fun _ => decodeStepL e)
    (by
      intro j _ pre post c t hpre
      have hst : (8 : Int) + (j : Int) = (pre.length : Int) := by omega
      have hB : h.blocks.length + 1 = (h.blocks ++ [none]).length := by simp
      have he1 : to_bytes ⟨h.blocks ++ [none] ++ [some (pre ++ c :: post)], h.limit⟩ encoded
          = .ok e := loadBytes_append2 _ _ _ he
      simp only [decodeStep, refill_eq he1, c_buffer_bytes, Ptr.addr_add, hst, hB]
      rw [store_last]
      rfl)
    (List.replicate (decodedLength e) (some 0)) 0 (List.replicate 8 (some 0)) []
    { bits := 0, bitslen := 0, i := 0 } rfl (by simp)
  simp only [List.length_replicate, List.append_nil, List.append_assoc,
    List.singleton_append] at hfill
  unfold c_buffer_base64decode
  simp only [paddingAt_eq he hn 1 (Nat.le_refl 1), paddingAt_eq he hn 2 (by omega)]
  have hL : sub64 (sub64 (mul64 (c_buffer_length encoded / 4) 3) (paddingAtL e 1))
      (paddingAtL e 2) = decodedLength e := by
    rw [← hlen]
    rfl
  rw [hL, construct_zeroed_eq hfit halloc]
  simp only [c_buffer_length, hfill]

/-! ## The decoding loop on valid characters -/

theorem sixletOf_base64Char : ∀ v, v < 64 → sixletOf (base64Char v) = (v : Int) := by
  decide

theorem base64Char_ne_pad : ∀ v, v < 64 → base64Char v ≠ base64Pad := by
  decide

theorem scanSixletL_stop (e : List Byte) (fuel : Nat) (sixlet : Int) (i : Nat)
    (hs : sixlet ≠ -1) : scanSixletL e fuel (sixlet, i) = (sixlet, i) := by
  cases fuel with
  | zero => rfl
  | succ fuel => simp [scanSixletL, hs]

/-- The scan stops on the first character when it is a character of the
alphabet. -/
theorem scanSixletL_char {e : List Byte} {i v : Nat} (hv : v < 64)
    (hi : e[i]? = some (base64Char v)) (hn : e.length < U64) :
    scanSixletL e (e.length - i) (-1, i) = ((v : Int), i + 1) := by
  have hlt : i < e.length := by
    rcases Nat.lt_or_ge i e.length with hl | hl
    · exact hl
    · rw [List.getElem?_eq_none hl] at hi
      cases hi
  obtain ⟨fuel, hfuel⟩ : ∃ fuel, e.length - i = fuel + 1 := ⟨e.length - i - 1, by omega⟩
  have hget : e.getD i 0 = base64Char v := by
    simp [List.getD_eq_getElem?_getD, hi]
  have hne : ((v : Nat) : Int) ≠ -1 := by omega
  rw [hfuel]
  simp only [scanSixletL, hlt, and_self, if_true, hget, sixletOf_base64Char v hv,
    add64_eq (show i + 1 < U64 by omega)]
  exact scanSixletL_stop e fuel _ _ hne

theorem toU16_accumulate {bits v : Nat} (hb : bits < 1024) (hv : v < 64) :
    toU16 (Int.lor ((bits <<< 6 : Nat) : Int) (v : Int)) = bits * 64 + v := by
  have hor : Int.lor ((bits <<< 6 : Nat) : Int) (v : Int) = ((bits <<< 6 ||| v : Nat) : Int) :=
    rfl
  have hadd : bits <<< 6 ||| v = bits * 64 + v := by
    rw [Nat.shiftLeft_eq, Nat.mul_comm bits, ← Nat.mul_add_lt_is_or (by simpa using hv)]
  rw [hor, hadd]
  unfold toU16
  omega

theorem refillL_done (e : List Byte) (fuel : Nat) (s : DecodeState) (hs : ¬ s.bitslen < 8) :
    refillL e fuel s = s := by
  cases fuel with
  | zero => rfl
  | succ fuel => simp only [refillL, hs, if_false]

/-- One round of `refillL` that finds a character of the alphabet at
position `s.i`. -/
theorem refillL_char {e : List Byte} {s : DecodeState} {v : Nat} (fuel : Nat)
    (hs : s.bitslen < 8) (hb : s.bits < 1024) (hv : v < 64)
    (hi : e[s.i]? = some (base64Char v)) (hn : e.length < U64) :
    refillL e (fuel + 1) s
      = refillL e fuel { bits := s.bits * 64 + v, bitslen := s.bitslen + 6, i := s.i + 1 } := by
  simp only [refillL, hs, if_true, scanSixletL_char hv hi hn, toU16_accumulate hb hv]

theorem and_255 (x : Nat) : x &&& 0xff = x % 256 := Nat.and_pow_two_sub_one_eq_mod x 8

theorem and_15 (x : Nat) : x &&& 15 = x % 16 := Nat.and_pow_two_sub_one_eq_mod x 4

theorem and_3 (x : Nat) : x &&& 3 = x % 4 := Nat.and_pow_two_sub_one_eq_mod x 2

theorem toByte_mod (x : Nat) : toByte (x % 256) = toByte x := by
  simp [toByte]

theorem toByte_val (a : Byte) : toByte a.val = a := by
  apply Fin.ext
  simp [toByte, Nat.mod_eq_of_lt a.isLt]

/-- A round of the decoding loop that starts with no pending bits reads two
characters and keeps four bits. -/
theorem decodeStepL_first {e : List Byte} {i u v : Nat} (hu : u < 64) (hv : v < 64)
    (h0 : e[i]? = some (base64Char u)) (h1 : e[i + 1]? = some (base64Char v))
    (hn : e.length < U64) :
    decodeStepL e { bits := 0, bitslen := 0, i := i }
      = (toByte ((u * 64 + v) / 16),
          { bits := (u * 64 + v) % 16, bitslen := 4, i := i + 2 }) := by
  have hfuel : ((8 : Int) - 0).toNat = 1 + 1 + 6 := by decide
  have r1 := refillL_char (e := e) (s := { bits := 0, bitslen := 0, i := i }) (1 + 6)
    (by norm_num) (by norm_num) hu h0 hn
  have r2 := refillL_char (e := e) (s := { bits := 0 * 64 + u, bitslen := 0 + 6, i := i + 1 }) 6
    (by norm_num) (by simp only []; omega) hv h1 hn
  have r3 := refillL_done e 6
    { bits := (0 * 64 + u) * 64 + v, bitslen := 0 + 6 + 6, i := i + 1 + 1 } (by norm_num)
  simp only [decodeStepL, hfuel]
  rw [show 1 + 1 + 6 = (1 + 6) + 1 from rfl, r1, r2, r3]
  simp only [Nat.zero_mul, Nat.zero_add]
  have hk : ((0 : Int) + 6 + 6 - 8).toNat = 4 := by decide
  simp only [hk, Nat.shiftRight_eq_div_pow, and_255, toByte_mod]
  have hm : (1 <<< 4 % 2 ^ 32 + 2 ^ 32 - 1) % 2 ^ 32 = 15 := by decide
  rw [hm, and_15]
  norm_num

/-- A round of the decoding loop that starts with four pending bits reads one
character and keeps two bits. -/
theorem decodeStepL_second {e : List Byte} {i x v : Nat} (hx : x < 16) (hv : v < 64)
    (h0 : e[i]? = some (base64Char v)) (hn : e.length < U64) :
    decodeStepL e { bits := x, bitslen := 4, i := i }
      = (toByte ((x * 64 + v) / 4), { bits := (x * 64 + v) % 4, bitslen := 2, i := i + 1 }) := by
  have hfuel : ((8 : Int) - 4).toNat = 3 + 1 := by decide
  have r1 := refillL_char (e := e) (s := { bits := x, bitslen := 4, i := i }) 3
    (by norm_num) (by simp only []; omega) hv h0 hn
  have r2 := refillL_done e 3 { bits := x * 64 + v, bitslen := 4 + 6, i := i + 1 } (by norm_num)
  simp only [decodeStepL, hfuel]
  rw [r1, r2]
  have hk : ((4 : Int) + 6 - 8).toNat = 2 := by decide
  simp only [hk, Nat.shiftRight_eq_div_pow, and_255, toByte_mod]
  have hm : (1 <<< 2 % 2 ^ 32 + 2 ^ 32 - 1) % 2 ^ 32 = 3 := by decide
  rw [hm, and_3]
  norm_num

/-- A round of the decoding loop that starts with two pending bits reads one
character and keeps no bit. -/
theorem decodeStepL_third {e : List Byte} {i y v : Nat} (hy : y < 4) (hv : v < 64)
    (h0 : e[i]? = some (base64Char v)) (hn : e.length < U64) :
    decodeStepL e { bits := y, bitslen := 2, i := i }
      = (toByte (y * 64 + v), { bits := 0, bitslen := 0, i := i + 1 }) := by
  have hfuel : ((8 : Int) - 2).toNat = 5 + 1 := by decide
  have r1 := refillL_char (e := e) (s := { bits := y, bitslen := 2, i := i }) 5
    (by norm_num) (by simp only []; omega) hv h0 hn
  have r2 := refillL_done e 5 { bits := y * 64 + v, bitslen := 2 + 6, i := i + 1 } (by norm_num)
  simp only [decodeStepL, hfuel]
  rw [r1, r2]
  have hk : ((2 : Int) + 6 - 8).toNat = 0 := by decide
  simp only [hk, Nat.shiftRight_eq_div_pow, and_255, toByte_mod]
  have hm : (1 <<< 0 % 2 ^ 32 + 2 ^ 32 - 1) % 2 ^ 32 = 0 := by decide
  rw [hm]
  norm_num

theorem getElem?_append_add (e1 l : List Byte) (k : Nat) :
    (e1 ++ l)[e1.length + k]? = l[k]? := by
  rw [List.getElem?_append_right (by omega)]
  congr 1
  omega

theorem runSteps_succ {τ : Type} (step : Nat → τ → Byte × τ) (k j : Nat) (t : τ) (v : Byte)
    (t1 : τ) (hs : step j t = (v, t1)) :
    (runSteps step (k + 1) j t).1 = v :: (runSteps step k (j + 1) t1).1 := by
  simp only [runSteps, hs]

/-- Decoding the encoding of `rest`, found after `e1` in the encoded bytes, from
a state with no pending bits, gives `rest`. -/
theorem runSteps_base64encode (rest : List Byte) : ∀ (e1 : List Byte) (j : Nat),
    (e1 ++ base64encode rest).length < U64 →
    (runSteps (fun _ => decodeStepL (e1 ++ base64encode rest)) rest.length j
      { bits := 0, bitslen := 0, i := e1.length }).1 = rest := by
  induction rest using base64encode.induct with
  | case1 =>
    intro e1 j _
    rfl
  | case2 a =>
    intro e1 j hn
    have ha := a.isLt
    have s1 := decodeStepL_first (e := e1 ++ base64encode [a]) (i := e1.length)
      (u := a.val / 4) (v := a.val % 4 * 16) (by omega) (by omega)
      (by simpa [base64encode] using getElem?_append_add e1 (base64encode [a]) 0)
      (by simpa [base64encode] using getElem?_append_add e1 (base64encode [a]) 1) hn
    rw [List.length_singleton, runSteps_succ _ 0 j _ _ _ s1]
    have e0 : (a.val / 4 * 64 + a.val % 4 * 16) / 16 = a.val := by omega
    simp only [runSteps, e0, toByte_val]
  | case3 a b =>
    intro e1 j hn
    have ha := a.isLt
    have hb := b.isLt
    have s1 := decodeStepL_first (e := e1 ++ base64encode [a, b]) (i := e1.length)
      (u := a.val / 4) (v := a.val % 4 * 16 + b.val / 16) (by omega) (by omega)
      (by simpa [base64encode] using getElem?_append_add e1 (base64encode [a, b]) 0)
      (by simpa [base64encode] using getElem?_append_add e1 (base64encode [a, b]) 1) hn
    have s2 := decodeStepL_second (e := e1 ++ base64encode [a, b]) (i := e1.length + 2)
      (x := (a.val / 4 * 64 + (a.val % 4 * 16 + b.val / 16)) % 16) (v := b.val % 16 * 4)
      (by omega) (by omega)
      (by simpa [base64encode] using getElem?_append_add e1 (base64encode [a, b]) 2) hn
    rw [show [a, b].length = 1 + 1 from rfl, runSteps_succ _ 1 j _ _ _ s1,
      runSteps_succ _ 0 (j + 1) _ _ _ s2]
    have e0 : (a.val / 4 * 64 + (a.val % 4 * 16 + b.val / 16)) / 16 = a.val := by omega
    have e1 : ((a.val / 4 * 64 + (a.val % 4 * 16 + b.val / 16)) % 16 * 64 + b.val % 16 * 4) / 4
        = b.val := by omega
    simp only [runSteps, e0, e1, toByte_val]
  | case4 a b c rest ih =>
    intro e1 j hn
    have ha := a.isLt
    have hb := b.isLt
    have hc := c.isLt
    have s1 := decodeStepL_first (e := e1 ++ base64encode (a :: b :: c :: rest))
      (i := e1.length) (u := a.val / 4) (v := a.val % 4 * 16 + b.val / 16)
      (by omega) (by omega)
      (by simpa [base64encode] using
        getElem?_append_add e1 (base64encode (a :: b :: c :: rest)) 0)
      (by simpa [base64encode] using
        getElem?_append_add e1 (base64encode (a :: b :: c :: rest)) 1) hn
    have s2 := decodeStepL_second (e := e1 ++ base64encode (a :: b :: c :: rest))
      (i := e1.length + 2)
      (x := (a.val / 4 * 64 + (a.val % 4 * 16 + b.val / 16)) % 16)
      (v := b.val % 16 * 4 + c.val / 64) (by omega) (by omega)
      (by simpa [base64encode] using
        getElem?_append_add e1 (base64encode (a :: b :: c :: rest)) 2) hn
    have s3 := decodeStepL_third (e := e1 ++ base64encode (a :: b :: c :: rest))
      (i := e1.length + 2 + 1)
      (y := ((a.val / 4 * 64 + (a.val % 4 * 16 + b.val / 16)) % 16 * 64 +
        (b.val % 16 * 4 + c.val / 64)) % 4)
      (v := c.val % 64) (by omega) (by omega)
      (by
        rw [show e1.length + 2 + 1 = e1.length + 3 from rfl, getElem?_append_add]
        simp [base64encode]) hn
    have hsplit : e1 ++ base64encode (a :: b :: c :: rest)
        = (e1 ++ [base64Char (a.val / 4), base64Char (a.val % 4 * 16 + b.val / 16),
            base64Char (b.val % 16 * 4 + c.val / 64), base64Char (c.val % 64)])
          ++ base64encode rest := by
      simp [base64encode]
    have hrec := ih (e1 ++ [base64Char (a.val / 4), base64Char (a.val % 4 * 16 + b.val / 16),
      base64Char (b.val % 16 * 4 + c.val / 64), base64Char (c.val % 64)]) (j + 1 + 1 + 1)
      (by rw [← hsplit]; exact hn)
    rw [← hsplit] at hrec
    rw [show (a :: b :: c :: rest).length = rest.length + 1 + 1 + 1 from rfl,
      runSteps_succ _ _ j _ _ _ s1, runSteps_succ _ _ (j + 1) _ _ _ s2,
      runSteps_succ _ _ (j + 1 + 1) _ _ _ s3]
    have hi : (e1 ++ [base64Char (a.val / 4), base64Char (a.val % 4 * 16 + b.val / 16),
        base64Char (b.val % 16 * 4 + c.val / 64), base64Char (c.val % 64)]).length
          = e1.length + 2 + 1 + 1 := by simp
    rw [hi] at hrec
    rw [hrec]
    have e0 : (a.val / 4 * 64 + (a.val % 4 * 16 + b.val / 16)) / 16 = a.val := by omega
    have e1 : ((a.val / 4 * 64 + (a.val % 4 * 16 + b.val / 16)) % 16 * 64 +
        (b.val % 16 * 4 + c.val / 64)) / 4 = b.val := by omega
    have e2 : ((a.val / 4 * 64 + (a.val % 4 * 16 + b.val / 16)) % 16 * 64 +
        (b.val % 16 * 4 + c.val / 64)) % 4 * 64 + c.val % 64 = c.val := by omega
    simp only [e0, e1, e2, toByte_val]

/-! ## The length computed for the encoding of a byte sequence -/

theorem base64encode_length (b : List Byte) :
    (base64encode b).length = 4 * ((b.length + 2) / 3) := by
  induction b using base64encode.induct with
  | case1 => rfl
  | case2 a => simp [base64encode]
  | case3 a b => simp [base64encode]
  | case4 a b c rest ih =>
    simp only [base64encode, List.length_cons, ih]
    omega

theorem sub64_small {a b : Nat} (hba : b ≤ a) (ha : a < 256) : sub64 a b = a - b :=
  sub64_eq hba (by rw [U64_eq]; omega)

theorem paddingAtL_cons4 (c0 c1 c2 c3 : Byte) (l : List Byte) (k : Nat)
    (hkl : k ≤ l.length) (hn : l.length + 4 < U64) :
    paddingAtL (c0 :: c1 :: c2 :: c3 :: l) k = paddingAtL l k := by
  have h1 : (c0 :: c1 :: c2 :: c3 :: l).length ≥ k := by
    simp only [List.length_cons]
    omega
  have h2 : l.length ≥ k := hkl
  have s1 : sub64 (c0 :: c1 :: c2 :: c3 :: l).length k = (l.length - k) + 4 := by
    rw [sub64_eq h1 (by simpa using hn)]
    simp only [List.length_cons]
    omega
  have s2 : sub64 l.length k = l.length - k := sub64_eq h2 (by omega)
  simp only [paddingAtL, h1, h2, if_true, s1, s2]
  rfl

/-- The paddings that the length computation sees at the end of an encoding. -/
theorem paddingAtL_base64encode (b : List Byte) : (base64encode b).length < U64 →
    paddingAtL (base64encode b) 1 = (if b.length % 3 = 0 then 0 else 1) ∧
    paddingAtL (base64encode b) 2 = (if b.length % 3 = 1 then 1 else 0) := by
  induction b using base64encode.induct with
  | case1 =>
    intro _
    simp [paddingAtL, base64encode]
  | case2 a =>
    intro _
    have hs1 : sub64 4 1 = 3 := sub64_small (by omega) (by omega)
    have hs2 : sub64 4 2 = 2 := sub64_small (by omega) (by omega)
    simp [paddingAtL, base64encode, hs1, hs2, base64Pad]
  | case3 a b =>
    intro _
    have hb := b.isLt
    have hne := base64Char_ne_pad (b.val % 16 * 4) (by omega)
    have hs1 : sub64 4 1 = 3 := sub64_small (by omega) (by omega)
    have hs2 : sub64 4 2 = 2 := sub64_small (by omega) (by omega)
    simp only [base64Pad] at hne
    simp [paddingAtL, base64encode, hs1, hs2, base64Pad, hne]
  | case4 a b c rest ih =>
    intro hn
    have hb := b.isLt
    have hc := c.isLt
    have hlen := base64encode_length rest
    cases rest with
    | nil =>
      have hne2 := base64Char_ne_pad (b.val % 16 * 4 + c.val / 64) (by omega)
      have hne3 := base64Char_ne_pad (c.val % 64) (by omega)
      have hs1 : sub64 4 1 = 3 := sub64_small (by omega) (by omega)
      have hs2 : sub64 4 2 = 2 := sub64_small (by omega) (by omega)
      simp only [base64Pad] at hne2 hne3
      simp [paddingAtL, base64encode, hs1, hs2, hne2, hne3]
    | cons d rest =>
      have hlen4 : 4 ≤ (base64encode (d :: rest)).length := by
        rw [hlen]
        simp only [List.length_cons]
        omega
      have hn1 : (base64encode (d :: rest)).length + 4 < U64 := by
        simpa [base64encode] using hn
      obtain ⟨ih1, ih2⟩ := ih (by omega)
      have hmod : (a :: b :: c :: d :: rest).length % 3 = (d :: rest).length % 3 := by
        simp only [List.length_cons]
        omega
      rw [hmod, ← ih1, ← ih2]
      simp only [base64encode] at hn1 hlen4 ⊢
      exact ⟨paddingAtL_cons4 _ _ _ _ _ 1 (by omega) hn1,
        paddingAtL_cons4 _ _ _ _ _ 2 (by omega) hn1⟩

theorem sub64_sub64 {n p q : Nat} (hpq : p + q ≤ n) (hn : n < U64) :
    sub64 (sub64 n p) q = n - p - q := by
  have h1 : sub64 n p = n - p := sub64_eq (by omega) hn
  rw [h1, sub64_eq (by omega) (by omega)]

/-- The length that `c_buffer_base64decode` computes for the encoding of `b` is
the length of `b`. -/
theorem decodedLength_base64encode (b : List Byte) (hn : (base64encode b).length < U64) :
    decodedLength (base64encode b) = b.length := by
  obtain ⟨h1, h2⟩ := paddingAtL_base64encode b hn
  have hlen := base64encode_length b
  have hU := U64_eq
  rw [hlen] at hn
  have h3 : mul64 ((base64encode b).length / 4) 3 = 4 * ((b.length + 2) / 3) / 4 * 3 := by
    rw [hlen, mul64_eq (by omega)]
  unfold decodedLength
  rw [h1, h2, h3]
  by_cases c0 : b.length % 3 = 0
  · have c1 : ¬ b.length % 3 = 1 := by omega
    rw [if_pos c0, if_neg c1, sub64_sub64 (by omega) (by omega)]
    omega
  · by_cases c1 : b.length % 3 = 1
    · rw [if_neg c0, if_pos c1, sub64_sub64 (by omega) (by omega)]
      omega
    · rw [if_neg c0, if_neg c1, sub64_sub64 (by omega) (by omega)]
      omega

/-! ## Functions that give nothing back -/

/-- The statement `c_buffer_truncate(x, n);` changes neither the heap nor the
caller's handle, whatever `n` is. -/
theorem c_buffer_truncate_eq (h : Heap) (x : Pos) (n : Nat) :
    c_buffer_truncate h x n = (h, x) := rfl

/-- Function `c_buffer_as_null_terminated_string` returns no pointer on any
input, whatever the new block holds: when it returns at all, the value next to
the heap is `none`. -/
theorem as_null_terminated_string_none {h h1 : Heap} {x : Pos} {stale : Nat → Byte}
    {r : Option Ptr}
    (hr : c_buffer_as_null_terminated_string h x stale = .ok (h1, r)) : r = none := by
  unfold c_buffer_as_null_terminated_string at hr
  split at hr
  · cases hr
  · simp only at hr
    split at hr
    · cases hr
    · split at hr
      · cases hr
      · split at hr
        · cases hr
        · simp only [Except.ok.injEq, Prod.mk.injEq] at hr
          exact hr.2.symm


/-! ## `c_buffer_construct_from_null_terminated_string` -/

/-- The loop `while (data_nt[n++]);` on a string whose first zero byte is at
position `s.length`: the loop ends with `n = s.length + 1`. -/
theorem scanTerminator_eq {h : Heap} {data : Ptr} {s : List Byte}
    (hs : ∀ v ∈ s, v ≠ 0) (hdata : h.loadBytes data (s.length + 1) = .ok (s ++ [0]))
    (hfit : s.length + 1 < U64) (fuel : Nat) : ∀ n, n ≤ s.length → s.length < n + fuel →
    scanTerminator h data fuel n = .ok (s.length + 1) := by
  obtain ⟨-, hget⟩ := loadBytes_eq_ok.mp hdata
  induction fuel with
  | zero =>
    intro n hn hlt
    omega
  | succ fuel ih =>
    intro n hn hlt
    have hload := hget n (by simp; omega)
    simp only [scanTerminator, hload]
    rcases Nat.lt_or_ge n s.length with hlt1 | hge
    · have hlt2 : n < (s ++ [0]).length := by simp; omega
      have hv : (s ++ [0])[n] ≠ 0 := by
        rw [List.getElem_append_left hlt1]
        exact hs _ (List.getElem_mem _)
      rw [if_neg hv, add64_eq (by omega)]
      exact ih (n + 1) (by omega) (by omega)
    · have hn1 : n = s.length := by omega
      subst hn1
      have hlt2 : s.length < (s ++ [0]).length := by simp
      have hv : (s ++ [0])[s.length] = 0 := by simp
      rw [if_pos hv, add64_eq (by omega)]

theorem blockSize_gt_of_load {h : Heap} {data : Ptr} {m : Nat} {u v : Byte}
    (h0 : h.load data = .ok u) (hl : h.load (data.add m) = .ok v) : m < h.blockSize data := by
  obtain ⟨b0, o0, cs0, hp0, ho0, hb0, -⟩ := load_eq_ok.mp h0
  obtain ⟨b, o, cs, hp, ho, hb, hc⟩ := load_eq_ok.mp hl
  have hlt : o.toNat < cs.length := by
    rcases Nat.lt_or_ge o.toNat cs.length with hl | hl
    · exact hl
    · rw [List.getElem?_eq_none hl] at hc
      cases hc
  subst hp0
  simp only [Ptr.addr_add, Ptr.addr.injEq] at hp
  obtain ⟨rfl, rfl⟩ := hp
  rw [hb0] at hb
  cases hb
  simp only [Heap.blockSize, cells_eq_ok.mpr hb0]
  omega

/-- The heap and the handle that `c_buffer_construct_from_null_terminated_string`
returns for a string whose first zero byte is at position `s.length`: the
buffer has `s.length + 1` bytes, the terminator is the last of them. -/
theorem from_null_terminated_eq {h : Heap} {data : Ptr} {s : List Byte}
    (hs : ∀ v ∈ s, v ≠ 0) (hdata : h.loadBytes data (s.length + 1) = .ok (s ++ [0]))
    (hfit : 8 + (s.length + 1) < U64) (halloc : 8 + (s.length + 1) ≤ h.limit) :
    c_buffer_construct_from_null_terminated_string h data
      = .ok (⟨h.blocks ++ [some (List.replicate 8 (some 0) ++ (s ++ [0]).map some)], h.limit⟩,
          ⟨s.length + 1, .addr h.blocks.length 8⟩) := by
  obtain ⟨-, hget⟩ := loadBytes_eq_ok.mp hdata
  have h0 := hget 0 (by simp)
  simp only [Nat.cast_zero, Ptr.add_zero] at h0
  have hm := hget s.length (by simp)
  have hsize := blockSize_gt_of_load h0 hm
  have hscan := scanTerminator_eq hs hdata (by omega) (h.blockSize data + 1) 0 (by omega)
    (by omega)
  have hdata1 : h.loadBytes data (s ++ [0]).length = .ok (s ++ [0]) := by
    simpa using hdata
  have hc := construct_eq hdata1 (by simpa using hfit) (by simpa using halloc)
  simp only [List.length_append, List.length_singleton] at hc
  simp only [c_buffer_construct_from_null_terminated_string, hscan, hc]

/-! ## The length that `c_buffer_base64decode` requests -/

theorem paddingAtL_le_one (e : List Byte) (k : Nat) : paddingAtL e k ≤ 1 := by
  unfold paddingAtL
  split
  · split <;> omega
  · omega

theorem paddingAtL_eq_one {e : List Byte} {k : Nat} (hk : 1 ≤ k) (hn : e.length < U64) :
    paddingAtL e k = 1 ↔ k ≤ e.length ∧ e[e.length - k]? = some 61 := by
  unfold paddingAtL
  by_cases hc : e.length ≥ k
  · have hi : e.length - k < e.length := by omega
    rw [if_pos hc, sub64_eq hc hn]
    simp only [List.getD_eq_getElem?_getD, List.getElem?_eq_getElem hi, Option.getD_some,
      Option.some.injEq]
    constructor
    · intro h1
      refine ⟨hc, ?_⟩
      by_contra hne
      rw [if_neg hne] at h1
      omega
    · rintro ⟨-, h1⟩
      rw [if_pos h1]
  · rw [if_neg hc]
    constructor
    · intro h1
      omega
    · rintro ⟨h1, -⟩
      omega

theorem construct_tag {h h1 : Heap} {n : Nat} {data : Ptr} {x : Pos}
    (hc : c_buffer_construct h n data = .ok (h1, x)) : c_buffer_length x = n := by
  unfold c_buffer_construct at hc
  simp only at hc
  split at hc
  · cases hc
  · split at hc
    · cases hc
    · split at hc
      · cases hc
      · simp only [Except.ok.injEq, Prod.mk.injEq] at hc
        rw [← hc.2]
        rfl

theorem construct_zeroed_tag {h h1 : Heap} {n : Nat} {x : Pos}
    (hc : c_buffer_construct_zeroed h n = .ok (h1, x)) : c_buffer_length x = n := by
  unfold c_buffer_construct_zeroed at hc
  simp only at hc
  split at hc
  · cases hc
  · split at hc
    · cases hc
    · rename_i h2 buffer hcon
      split at hc
      · cases hc
      · simp only [Except.ok.injEq, Prod.mk.injEq] at hc
        rw [← hc.2]
        exact construct_tag hcon

/-- Whenever `c_buffer_base64decode` returns, the length of its result is the
value of the length expression. -/
theorem base64decode_tag {h h1 : Heap} {encoded d : Pos} {e : List Byte}
    (he : to_bytes h encoded = .ok e) (hn : e.length < U64)
    (hd : c_buffer_base64decode h encoded = .ok (h1, d)) :
    c_buffer_length d = decodedLength e := by
  have hlen := (loadBytes_eq_ok.mp he).1
  unfold c_buffer_base64decode at hd
  simp only [paddingAt_eq he hn 1 (Nat.le_refl 1), paddingAt_eq he hn 2 (by omega)] at hd
  split at hd
  · cases hd
  · rename_i h2 decoded hz
    split at hd
    · cases hd
    · simp only [Except.ok.injEq, Prod.mk.injEq] at hd
      rw [← hd.2, construct_zeroed_tag hz, ← hlen]
      rfl

/-- The value of the length expression, by cases: below four input bytes every
padding makes the subtraction wrap; from four input bytes on it never wraps. -/
theorem decodedLength_cases (e : List Byte) (hn : e.length < U64) :
    (e.length < 4 → 1 ≤ paddingAtL e 1 + paddingAtL e 2 →
      decodedLength e = 2 ^ 64 - (paddingAtL e 1 + paddingAtL e 2)) ∧
    (e.length < 4 → paddingAtL e 1 + paddingAtL e 2 = 0 → decodedLength e = 0) ∧
    (4 ≤ e.length → paddingAtL e 1 + paddingAtL e 2 ≤ e.length / 4 * 3 ∧
      decodedLength e = e.length / 4 * 3 - (paddingAtL e 1 + paddingAtL e 2)) := by
  have h1 := paddingAtL_le_one e 1
  have h2 := paddingAtL_le_one e 2
  have hU := U64_eq
  have hmul : mul64 (e.length / 4) 3 = e.length / 4 * 3 := mul64_eq (by omega)
  unfold decodedLength
  rw [hmul]
  refine ⟨?_, ?_, ?_⟩
  · intro hlt hp
    have h0 : e.length / 4 * 3 = 0 := by omega
    rw [h0]
    unfold sub64
    rw [hU]
    omega
  · intro hlt hp
    have h0 : e.length / 4 * 3 = 0 := by omega
    have p1 : paddingAtL e 1 = 0 := by omega
    have p2 : paddingAtL e 2 = 0 := by omega
    rw [h0, p1, p2]
    unfold sub64
    rw [hU]
  · intro hge
    refine ⟨by omega, ?_⟩
    rw [sub64_sub64 (by omega) (by omega)]
    omega

theorem paddingAtL_ite {e : List Byte} {k : Nat} (hk : 1 ≤ k) (hn : e.length < U64) :
    paddingAtL e k = if k ≤ e.length ∧ e[e.length - k]? = some 61 then 1 else 0 := by
  have h1 := paddingAtL_eq_one (e := e) hk hn
  have h2 := paddingAtL_le_one e k
  split
  · rename_i hc
    exact h1.mpr hc
  · rename_i hc
    have : ¬ paddingAtL e k = 1 := fun hp => hc (h1.mp hp)
    omega

/-- The two operands of the length expression count the `=` characters in the
last two positions. -/
theorem paddingAtL_add (e : List Byte) (hn : e.length < U64) :
    paddingAtL e 1 + paddingAtL e 2 = paddingCount e := by
  rw [paddingAtL_ite (Nat.le_refl 1) hn, paddingAtL_ite (by omega) hn]
  unfold paddingCount
  rcases Nat.lt_or_ge e.length 2 with hlt | hge
  · cases e with
    | nil => simp
    | cons a e =>
      cases e with
      | nil =>
        by_cases ha : a = 61 <;> simp [ha]
      | cons b e =>
        simp at hlt
        omega
  · have h2 : e.length - 2 < e.length := by omega
    have h1 : e.length - 2 + 1 < e.length := by omega
    have hd : e.drop (e.length - 2) = [e[e.length - 2], e[e.length - 2 + 1]] := by
      rw [List.drop_eq_getElem_cons h2, List.drop_eq_getElem_cons h1,
        List.drop_eq_nil_of_le (by omega)]
    have hidx : e.length - 2 + 1 = e.length - 1 := by omega
    rw [hd]
    simp only [hidx, List.getElem?_eq_getElem h2,
      List.getElem?_eq_getElem (show e.length - 1 < e.length by omega), Option.some.injEq]
    have hge1 : 1 ≤ e.length := by omega
    by_cases ha : e[e.length - 2] = 61 <;> by_cases hb : e[e.length - 1] = 61 <;>
      simp [ha, hb, hge, hge1, List.filter]

/-! ## From the encoded bytes to the stream of six-bit values -/

theorem sixlets_append (a b : List Byte) : sixlets (a ++ b) = sixlets a ++ sixlets b := by
  simp [sixlets]

theorem sixlets_cons_of_ne {c : Byte} (hc : sixletOf c ≠ -1) (l : List Byte) :
    sixlets (c :: l) = sixletOf c :: sixlets l := by
  simp [sixlets, hc]

theorem sixlets_cons_of_eq {c : Byte} (hc : sixletOf c = -1) (l : List Byte) :
    sixlets (c :: l) = sixlets l := by
  simp [sixlets, hc]

/-- The scan from the end of `pre` skips the bytes that are no alphabet
characters and stops behind the first alphabet character of `suf`, if there is
one. -/
theorem scanSixletL_append (suf : List Byte) : ∀ pre : List Byte,
    (pre ++ suf).length < U64 →
    ∃ i, scanSixletL (pre ++ suf) suf.length (-1, pre.length)
        = ((sixlets suf).headD (-1), i) ∧
      i ≤ (pre ++ suf).length ∧
      sixlets ((pre ++ suf).take i) = sixlets pre ++ (sixlets suf).take 1 := by
  induction suf with
  | nil =>
    intro pre _
    refine ⟨pre.length, rfl, by simp, ?_⟩
    simp [sixlets]
  | cons c suf ih =>
    intro pre hn
    have hlt : pre.length < (pre ++ c :: suf).length := by simp
    have hget : (pre ++ c :: suf).getD pre.length 0 = c := by
      rw [List.getD_eq_getElem?_getD, List.getElem?_append_right (Nat.le_refl _), Nat.sub_self]
      simp
    have hlen : (pre ++ c :: suf).length = pre.length + (suf.length + 1) := by simp
    have hadd : add64 pre.length 1 = pre.length + 1 := add64_eq (by omega)
    simp only [List.length_cons, scanSixletL, hlt, and_self, if_true, hget, hadd]
    by_cases hc : sixletOf c = -1
    · have hsplit : pre ++ c :: suf = (pre ++ [c]) ++ suf := by simp
      obtain ⟨i, hscan, hi, htake⟩ := ih (pre ++ [c]) (by rw [← hsplit]; exact hn)
      rw [← hsplit] at hscan hi htake
      simp only [List.length_append, List.length_singleton] at hscan
      refine ⟨i, ?_, hi, ?_⟩
      · rw [hc, hscan, sixlets_cons_of_eq hc]
      · rw [htake, sixlets_append, sixlets_cons_of_eq hc, sixlets_cons_of_eq hc]
        simp [sixlets]
    · refine ⟨pre.length + 1, ?_, by omega, ?_⟩
      · rw [scanSixletL_stop _ _ _ _ hc, sixlets_cons_of_ne hc]
        rfl
      · have htake : (pre ++ c :: suf).take (pre.length + 1) = pre ++ [c] := by
          rw [List.take_append_eq_append_take]
          simp
        rw [htake, sixlets_append, sixlets_cons_of_ne hc, sixlets_cons_of_ne hc]
        simp [sixlets]

theorem take_succ_eq_append (s : List Int) (k : Nat) :
    s.take (k + 1) = s.take k ++ (s.drop k).take 1 := by
  induction s generalizing k with
  | nil => simp
  | cons a s ih =>
    cases k with
    | zero => simp
    | succ k => simp [ih k]

theorem headD_drop (s : List Int) (k : Nat) : (s.drop k).headD (-1) = s.getD k (-1) := by
  induction s generalizing k with
  | nil => simp
  | cons a s ih =>
    cases k with
    | zero => simp
    | succ k => simp [ih k]

/-- The scan from position `i`, where `k` values have been taken, gives the
value number `k` of the stream (or `-1` when there is none) and moves behind
the character it comes from. -/
theorem scanSixletL_stream {e : List Byte} {i k : Nat} (hn : e.length < U64)
    (hi : i ≤ e.length) (ht : sixlets (e.take i) = (sixlets e).take k) :
    ∃ i1, scanSixletL e (e.length - i) (-1, i) = ((sixlets e).getD k (-1), i1) ∧
      i1 ≤ e.length ∧ sixlets (e.take i1) = (sixlets e).take (k + 1) := by
  have hsplit : e.take i ++ e.drop i = e := List.take_append_drop i e
  have hpre : (e.take i).length = i := by simp [hi]
  have hsuf : (e.drop i).length = e.length - i := by simp
  obtain ⟨i1, hscan, hi1, htake⟩ := scanSixletL_append (e.drop i) (e.take i)
    (by rw [hsplit]; exact hn)
  rw [hsplit, hpre, hsuf] at hscan
  rw [hsplit] at hi1 htake
  have hdrop : sixlets (e.drop i) = (sixlets e).drop k := by
    have h1 : sixlets (e.take i) ++ sixlets (e.drop i) = sixlets e := by
      rw [← sixlets_append, hsplit]
    have h2 : (sixlets e).take k ++ (sixlets e).drop k = sixlets e :=
      List.take_append_drop k _
    rw [ht] at h1
    exact List.append_cancel_left (h1.trans h2.symm)
  refine ⟨i1, ?_, hi1, ?_⟩
  · rw [hscan, hdrop, headD_drop]
  · rw [htake, ht, hdrop]
    exact (take_succ_eq_append _ _).symm

theorem refill_sameRun {e : List Byte} (hn : e.length < U64) (fuel : Nat) :
    ∀ t u : DecodeState, SameRun e t u →
      SameRun e (refillL e fuel t) (refillS (sixlets e) fuel u) := by
  induction fuel with
  | zero =>
    intro t u hr
    exact hr
  | succ fuel ih =>
    intro t u hr
    obtain ⟨i1, hscan, hi1, htake⟩ := scanSixletL_stream hn hr.bound hr.taken
    simp only [refillL, refillS, ← hr.bitslen]
    by_cases hb : t.bitslen < 8
    · simp only [hb, if_true, hscan, hr.bits]
      exact ih _ _ ⟨rfl, rfl, hi1, htake⟩
    · simp only [hb, if_false]
      exact hr

theorem decodeStep_sameRun {e : List Byte} (hn : e.length < U64) {t u : DecodeState}
    (hr : SameRun e t u) :
    (decodeStepL e t).1 = (decodeStepS (sixlets e) u).1 ∧
      SameRun e (decodeStepL e t).2 (decodeStepS (sixlets e) u).2 := by
  have h1 := refill_sameRun hn (8 - t.bitslen).toNat t u hr
  have hfuel : (8 - u.bitslen).toNat = (8 - t.bitslen).toNat := by rw [hr.bitslen]
  simp only [decodeStepL, decodeStepS, hfuel]
  refine ⟨by rw [h1.bits, h1.bitslen], ⟨by rw [h1.bits, h1.bitslen], by rw [h1.bitslen],
    h1.bound, h1.taken⟩⟩

/-- The bytes that the decoding loop stores are those of the loop over the
stream of six-bit values. -/
theorem runSteps_sameRun {e : List Byte} (hn : e.length < U64) (n : Nat) :
    ∀ (j : Nat) (t u : DecodeState), SameRun e t u →
      (runSteps (fun _ => decodeStepL e) n j t).1
        = (runSteps (fun _ => decodeStepS (sixlets e)) n j u).1 := by
  induction n with
  | zero =>
    intro j t u _
    rfl
  | succ n ih =>
    intro j t u hr
    obtain ⟨hb, hr1⟩ := decodeStep_sameRun hn hr
    simp only [runSteps, hb, ih (j + 1) _ _ hr1]

theorem sameRun_start (e : List Byte) :
    SameRun e { bits := 0, bitslen := 0, i := 0 } { bits := 0, bitslen := 0, i := 0 } :=
  ⟨rfl, rfl, Nat.zero_le _, by simp [sixlets]⟩

/-! ## Rounds of the decoding loop on the stream -/

theorem accumulate_neg_one (x : Nat) : accumulate x (-1) = 65535 := by
  unfold accumulate
  have h : Int.lor ((x <<< 6 : Nat) : Int) (-1) = -1 := by
    show Int.lor (Int.ofNat (x <<< 6)) (Int.negSucc 0) = Int.negSucc 0
    simp [Int.lor, Nat.ldiff]
  rw [h]
  rfl

theorem accumulate_value {x v : Nat} (hx : x < 1024) (hv : v < 64) :
    accumulate x (v : Int) = x * 64 + v :=
  toU16_accumulate hx hv

theorem refillS_done (s : List Int) (fuel : Nat) (t : DecodeState) (ht : ¬ t.bitslen < 8) :
    refillS s fuel t = t := by
  cases fuel with
  | zero => rfl
  | succ fuel => simp only [refillS, ht, if_false]

theorem refillS_step (s : List Int) (fuel : Nat) (t : DecodeState) (ht : t.bitslen < 8) :
    refillS s (fuel + 1) t
      = refillS s fuel
          { bits := accumulate t.bits (s.getD t.i (-1)), bitslen := t.bitslen + 6,
            i := t.i + 1 } := by
  simp only [refillS, ht, if_true, accumulate]

/-- A round that starts with no pending bits takes two values and keeps four
bits. -/
theorem decodeStepS_first (s : List Int) (x k : Nat) :
    decodeStepS s { bits := x, bitslen := 0, i := k }
      = (toByte (accumulate (accumulate x (s.getD k (-1))) (s.getD (k + 1) (-1)) / 16),
          { bits := accumulate (accumulate x (s.getD k (-1))) (s.getD (k + 1) (-1)) % 16,
            bitslen := 4, i := k + 2 }) := by
  have hfuel : ((8 : Int) - 0).toNat = 1 + 1 + 6 := by decide
  have r1 := refillS_step s (1 + 6) { bits := x, bitslen := 0, i := k } (by norm_num)
  have r2 := refillS_step s 6
    { bits := accumulate x (s.getD k (-1)), bitslen := 0 + 6, i := k + 1 } (by norm_num)
  have r3 := refillS_done s 6
    { bits := accumulate (accumulate x (s.getD k (-1))) (s.getD (k + 1) (-1)),
      bitslen := 0 + 6 + 6, i := k + 1 + 1 } (by norm_num)
  simp only [decodeStepS, hfuel]
  rw [show 1 + 1 + 6 = (1 + 6) + 1 from rfl, r1, r2, r3]
  have hk : ((0 : Int) + 6 + 6 - 8).toNat = 4 := by decide
  simp only [hk, Nat.shiftRight_eq_div_pow, and_255, toByte_mod]
  have hm : (1 <<< 4 % 2 ^ 32 + 2 ^ 32 - 1) % 2 ^ 32 = 15 := by decide
  rw [hm, and_15]
  norm_num

/-- A round that starts with four pending bits takes one value and keeps two
bits. -/
theorem decodeStepS_second (s : List Int) (x k : Nat) :
    decodeStepS s { bits := x, bitslen := 4, i := k }
      = (toByte (accumulate x (s.getD k (-1)) / 4),
          { bits := accumulate x (s.getD k (-1)) % 4, bitslen := 2, i := k + 1 }) := by
  have hfuel : ((8 : Int) - 4).toNat = 3 + 1 := by decide
  have r1 := refillS_step s 3 { bits := x, bitslen := 4, i := k } (by norm_num)
  have r2 := refillS_done s 3
    { bits := accumulate x (s.getD k (-1)), bitslen := 4 + 6, i := k + 1 } (by norm_num)
  simp only [decodeStepS, hfuel]
  rw [r1, r2]
  have hk : ((4 : Int) + 6 - 8).toNat = 2 := by decide
  simp only [hk, Nat.shiftRight_eq_div_pow, and_255, toByte_mod]
  have hm : (1 <<< 2 % 2 ^ 32 + 2 ^ 32 - 1) % 2 ^ 32 = 3 := by decide
  rw [hm, and_3]
  norm_num

/-- A round that starts with two pending bits takes one value and keeps no
bit. -/
theorem decodeStepS_third (s : List Int) (x k : Nat) :
    decodeStepS s { bits := x, bitslen := 2, i := k }
      = (toByte (accumulate x (s.getD k (-1))),
          { bits := 0, bitslen := 0, i := k + 1 }) := by
  have hfuel : ((8 : Int) - 2).toNat = 5 + 1 := by decide
  have r1 := refillS_step s 5 { bits := x, bitslen := 2, i := k } (by norm_num)
  have r2 := refillS_done s 5
    { bits := accumulate x (s.getD k (-1)), bitslen := 2 + 6, i := k + 1 } (by norm_num)
  simp only [decodeStepS, hfuel]
  rw [r1, r2]
  have hk : ((2 : Int) + 6 - 8).toNat = 0 := by decide
  simp only [hk, Nat.shiftRight_eq_div_pow, and_255, toByte_mod]
  have hm : (1 <<< 0 % 2 ^ 32 + 2 ^ 32 - 1) % 2 ^ 32 = 0 := by decide
  rw [hm]
  norm_num

theorem phase_start : Phase 0 { bits := 0, bitslen := 0, i := 0 } :=
  ⟨rfl, rfl⟩

/-- The three kinds of rounds. -/
theorem phase_cases {j : Nat} {t : DecodeState} (hp : Phase j t) :
    (∃ g, j = 3 * g ∧ t = { bits := t.bits, bitslen := 0, i := 4 * g }) ∨
    (∃ g, j = 3 * g + 1 ∧ t = { bits := t.bits, bitslen := 4, i := 4 * g + 2 }) ∨
    (∃ g, j = 3 * g + 2 ∧ t = { bits := t.bits, bitslen := 2, i := 4 * g + 3 }) := by
  obtain ⟨x, b, k⟩ := t
  obtain ⟨hk, hb⟩ := hp
  simp only at hk hb
  have h3 : j % 3 = 0 ∨ j % 3 = 1 ∨ j % 3 = 2 := by omega
  rcases h3 with h | h | h
  · refine Or.inl ⟨j / 3, by omega, ?_⟩
    simp only [DecodeState.mk.injEq, true_and]
    constructor <;> omega
  · refine Or.inr (Or.inl ⟨j / 3, by omega, ?_⟩)
    simp only [DecodeState.mk.injEq, true_and]
    constructor <;> omega
  · refine Or.inr (Or.inr ⟨j / 3, by omega, ?_⟩)
    simp only [DecodeState.mk.injEq, true_and]
    constructor <;> omega

theorem decodeStepS_phase (s : List Int) {j : Nat} {t : DecodeState} (hp : Phase j t) :
    Phase (j + 1) (decodeStepS s t).2 := by
  rcases phase_cases hp with ⟨g, hj, ht⟩ | ⟨g, hj, ht⟩ | ⟨g, hj, ht⟩
  · rw [ht, decodeStepS_first]
    constructor <;> simp only <;> omega
  · rw [ht, decodeStepS_second]
    constructor <;> simp only <;> omega
  · rw [ht, decodeStepS_third]
    constructor <;> simp only <;> omega

/-- Round `j` looks at no value of the stream from number `ceil(8 * (j + 1) / 6)`
on. -/
theorem decodeStepS_congr {s1 s2 : List Int} {j : Nat} {t : DecodeState} (hp : Phase j t)
    (hag : ∀ i, i < (4 * (j + 1) + 2) / 3 → s1.getD i (-1) = s2.getD i (-1)) :
    decodeStepS s1 t = decodeStepS s2 t := by
  rcases phase_cases hp with ⟨g, hj, ht⟩ | ⟨g, hj, ht⟩ | ⟨g, hj, ht⟩
  · rw [ht, decodeStepS_first, decodeStepS_first, hag (4 * g) (by omega),
      hag (4 * g + 1) (by omega)]
  · rw [ht, decodeStepS_second, decodeStepS_second, hag (4 * g + 2) (by omega)]
  · rw [ht, decodeStepS_third, decodeStepS_third, hag (4 * g + 3) (by omega)]

/-- Round `j` stores `0xff` when the last value it takes, number
`(8 * j + 7) / 6`, is not there. -/
theorem decodeStepS_missing (s : List Int) {j : Nat} {t : DecodeState} (hp : Phase j t)
    (hm : s.length ≤ (8 * j + 7) / 6) : (decodeStepS s t).1 = 255 := by
  have hget : s.getD ((8 * j + 7) / 6) (-1) = -1 := by
    rw [List.getD_eq_getElem?_getD, List.getElem?_eq_none hm]
    rfl
  rcases phase_cases hp with ⟨g, hj, ht⟩ | ⟨g, hj, ht⟩ | ⟨g, hj, ht⟩
  · have hidx : (8 * j + 7) / 6 = 4 * g + 1 := by omega
    rw [hidx] at hget
    rw [ht, decodeStepS_first, hget, accumulate_neg_one]
    rfl
  · have hidx : (8 * j + 7) / 6 = 4 * g + 2 := by omega
    rw [hidx] at hget
    rw [ht, decodeStepS_second, hget, accumulate_neg_one]
    rfl
  · have hidx : (8 * j + 7) / 6 = 4 * g + 3 := by omega
    rw [hidx] at hget
    rw [ht, decodeStepS_third, hget, accumulate_neg_one]
    rfl

/-! ## Rounds of the decoding loop and the bit string -/

theorem streamBit_eq (s : List Int) (t q r v : Nat) (hq : t / 6 = q) (hr : 5 - t % 6 = r)
    (hv : s.getD q 0 = (v : Int)) : streamBit s t = v / 2 ^ r % 2 := by
  simp only [streamBit, hq, hr, hv, Int.toNat_ofNat]

theorem getD_zero_of_value {s : List Int} {i v : Nat} (hv : s.getD i (-1) = (v : Int)) :
    s.getD i 0 = (v : Int) := by
  rcases Nat.lt_or_ge i s.length with hlt | hge
  · simp only [List.getD_eq_getElem?_getD, List.getElem?_eq_getElem hlt,
      Option.getD_some] at hv ⊢
    exact hv
  · simp only [List.getD_eq_getElem?_getD, List.getElem?_eq_none hge, Option.getD_none] at hv
    omega

theorem pendingBits_eq (s : List Int) (j k c v : Nat) (hk : (4 * j + 2) / 3 - 1 = k)
    (hc : 6 * ((4 * j + 2) / 3) - 8 * j = c) (hv : s.getD k 0 = (v : Int)) :
    pendingBits s j = v % 2 ^ c := by
  simp only [pendingBits, hk, hc, hv, Int.toNat_ofNat]

theorem pendingBits_zero (s : List Int) (g : Nat) : pendingBits s (3 * g) = 0 := by
  have hc : 6 * ((4 * (3 * g) + 2) / 3) - 8 * (3 * g) = 0 := by omega
  simp only [pendingBits, hc, pow_zero, Nat.mod_one]

theorem bits6 : ∀ u, u < 64 →
    u / 32 % 2 * 32 + u / 16 % 2 * 16 + u / 8 % 2 * 8 + u / 4 % 2 * 4 + u / 2 % 2 * 2 + u % 2
      = u := by
  decide

theorem bits_high2 : ∀ v, v < 64 → v / 32 % 2 * 2 + v / 16 % 2 = v / 16 := by
  decide

theorem bits_low4 : ∀ v, v < 64 →
    v / 8 % 2 * 8 + v / 4 % 2 * 4 + v / 2 % 2 * 2 + v % 2 = v % 16 := by
  decide

theorem bits_high4 : ∀ w, w < 64 →
    w / 32 % 2 * 8 + w / 16 % 2 * 4 + w / 8 % 2 * 2 + w / 4 % 2 = w / 4 := by
  decide

theorem bits_low2 : ∀ w, w < 64 → w / 2 % 2 * 2 + w % 2 = w % 4 := by
  decide

/-- A round of the first kind stores the byte of the bit string. -/
theorem decodeStepS_first_value (s : List Int) (g u v : Nat) (hu : u < 64) (hv : v < 64)
    (h0 : s.getD (4 * g) (-1) = (u : Int)) (h1 : s.getD (4 * g + 1) (-1) = (v : Int)) :
    decodeStepS s { bits := 0, bitslen := 0, i := 4 * g }
      = (toByte (streamByte s (3 * g)),
          { bits := pendingBits s (3 * g + 1), bitslen := 4, i := 4 * g + 2 }) := by
  have z0 := getD_zero_of_value h0
  have z1 := getD_zero_of_value h1
  have hp := pendingBits_eq s (3 * g + 1) (4 * g + 1) 4 v (by omega) (by omega) z1
  have b0 := streamBit_eq s (8 * (3 * g)) (4 * g) 5 u (by omega) (by omega) z0
  have b1 := streamBit_eq s (8 * (3 * g) + 1) (4 * g) 4 u (by omega) (by omega) z0
  have b2 := streamBit_eq s (8 * (3 * g) + 2) (4 * g) 3 u (by omega) (by omega) z0
  have b3 := streamBit_eq s (8 * (3 * g) + 3) (4 * g) 2 u (by omega) (by omega) z0
  have b4 := streamBit_eq s (8 * (3 * g) + 4) (4 * g) 1 u (by omega) (by omega) z0
  have b5 := streamBit_eq s (8 * (3 * g) + 5) (4 * g) 0 u (by omega) (by omega) z0
  have b6 := streamBit_eq s (8 * (3 * g) + 6) (4 * g + 1) 5 v (by omega) (by omega) z1
  have b7 := streamBit_eq s (8 * (3 * g) + 7) (4 * g + 1) 4 v (by omega) (by omega) z1
  rw [decodeStepS_first, h0, h1, accumulate_value (by omega) hu,
    accumulate_value (by omega) hv, hp]
  simp only [streamByte, b0, b1, b2, b3, b4, b5, b6, b7]
  have f1 := bits6 u hu
  have f2 := bits_high2 v hv
  have e0 : ((0 * 64 + u) * 64 + v) / 16 = u * 4 + v / 16 := by omega
  have e1 : ((0 * 64 + u) * 64 + v) / 16
      = u / 2 ^ 5 % 2 * 128 + u / 2 ^ 4 % 2 * 64 + u / 2 ^ 3 % 2 * 32 + u / 2 ^ 2 % 2 * 16 +
        u / 2 ^ 1 % 2 * 8 + u / 2 ^ 0 % 2 * 4 + v / 2 ^ 5 % 2 * 2 + v / 2 ^ 4 % 2 := by
    rw [e0]
    norm_num
    linarith
  have e2 : ((0 * 64 + u) * 64 + v) % 16 = v % 2 ^ 4 := by
    norm_num
    omega
  rw [e1, e2]

/-- A round of the second kind stores the byte of the bit string. -/
theorem decodeStepS_second_value (s : List Int) (g v w : Nat) (hv : v < 64) (hw : w < 64)
    (h1 : s.getD (4 * g + 1) (-1) = (v : Int)) (h2 : s.getD (4 * g + 2) (-1) = (w : Int)) :
    decodeStepS s { bits := pendingBits s (3 * g + 1), bitslen := 4, i := 4 * g + 2 }
      = (toByte (streamByte s (3 * g + 1)),
          { bits := pendingBits s (3 * g + 2), bitslen := 2, i := 4 * g + 3 }) := by
  have z1 := getD_zero_of_value h1
  have z2 := getD_zero_of_value h2
  have hp1 := pendingBits_eq s (3 * g + 1) (4 * g + 1) 4 v (by omega) (by omega) z1
  have hp2 := pendingBits_eq s (3 * g + 2) (4 * g + 2) 2 w (by omega) (by omega) z2
  have b0 := streamBit_eq s (8 * (3 * g + 1)) (4 * g + 1) 3 v (by omega) (by omega) z1
  have b1 := streamBit_eq s (8 * (3 * g + 1) + 1) (4 * g + 1) 2 v (by omega) (by omega) z1
  have b2 := streamBit_eq s (8 * (3 * g + 1) + 2) (4 * g + 1) 1 v (by omega) (by omega) z1
  have b3 := streamBit_eq s (8 * (3 * g + 1) + 3) (4 * g + 1) 0 v (by omega) (by omega) z1
  have b4 := streamBit_eq s (8 * (3 * g + 1) + 4) (4 * g + 2) 5 w (by omega) (by omega) z2
  have b5 := streamBit_eq s (8 * (3 * g + 1) + 5) (4 * g + 2) 4 w (by omega) (by omega) z2
  have b6 := streamBit_eq s (8 * (3 * g + 1) + 6) (4 * g + 2) 3 w (by omega) (by omega) z2
  have b7 := streamBit_eq s (8 * (3 * g + 1) + 7) (4 * g + 2) 2 w (by omega) (by omega) z2
  have hx : v % 2 ^ 4 < 1024 := by
    norm_num
    omega
  rw [decodeStepS_second, h2, hp1, accumulate_value hx hw, hp2]
  simp only [streamByte, b0, b1, b2, b3, b4, b5, b6, b7]
  have f1 := bits_low4 v hv
  have f2 := bits_high4 w hw
  have e0 : (v % 2 ^ 4 * 64 + w) / 4 = v % 16 * 16 + w / 4 := by
    norm_num
    omega
  have e1 : (v % 2 ^ 4 * 64 + w) / 4
      = v / 2 ^ 3 % 2 * 128 + v / 2 ^ 2 % 2 * 64 + v / 2 ^ 1 % 2 * 32 + v / 2 ^ 0 % 2 * 16 +
        w / 2 ^ 5 % 2 * 8 + w / 2 ^ 4 % 2 * 4 + w / 2 ^ 3 % 2 * 2 + w / 2 ^ 2 % 2 := by
    rw [e0]
    norm_num
    linarith
  have e2 : (v % 2 ^ 4 * 64 + w) % 4 = w % 2 ^ 2 := by
    norm_num
    omega
  rw [e1, e2]

/-- A round of the third kind stores the byte of the bit string. -/
theorem decodeStepS_third_value (s : List Int) (g w z : Nat) (hw : w < 64) (hz : z < 64)
    (h2 : s.getD (4 * g + 2) (-1) = (w : Int)) (h3 : s.getD (4 * g + 3) (-1) = (z : Int)) :
    decodeStepS s { bits := pendingBits s (3 * g + 2), bitslen := 2, i := 4 * g + 3 }
      = (toByte (streamByte s (3 * g + 2)),
          { bits := pendingBits s (3 * (g + 1)), bitslen := 0, i := 4 * (g + 1) }) := by
  have z2 := getD_zero_of_value h2
  have z3 := getD_zero_of_value h3
  have hp2 := pendingBits_eq s (3 * g + 2) (4 * g + 2) 2 w (by omega) (by omega) z2
  have b0 := streamBit_eq s (8 * (3 * g + 2)) (4 * g + 2) 1 w (by omega) (by omega) z2
  have b1 := streamBit_eq s (8 * (3 * g + 2) + 1) (4 * g + 2) 0 w (by omega) (by omega) z2
  have b2 := streamBit_eq s (8 * (3 * g + 2) + 2) (4 * g + 3) 5 z (by omega) (by omega) z3
  have b3 := streamBit_eq s (8 * (3 * g + 2) + 3) (4 * g + 3) 4 z (by omega) (by omega) z3
  have b4 := streamBit_eq s (8 * (3 * g + 2) + 4) (4 * g + 3) 3 z (by omega) (by omega) z3
  have b5 := streamBit_eq s (8 * (3 * g + 2) + 5) (4 * g + 3) 2 z (by omega) (by omega) z3
  have b6 := streamBit_eq s (8 * (3 * g + 2) + 6) (4 * g + 3) 1 z (by omega) (by omega) z3
  have b7 := streamBit_eq s (8 * (3 * g + 2) + 7) (4 * g + 3) 0 z (by omega) (by omega) z3
  have hy : w % 2 ^ 2 < 1024 := by
    norm_num
    omega
  rw [decodeStepS_third, h3, hp2, accumulate_value hy hz, pendingBits_zero]
  simp only [streamByte, b0, b1, b2, b3, b4, b5, b6, b7]
  have f1 := bits_low2 w hw
  have f2 := bits6 z hz
  have e1 : w % 2 ^ 2 * 64 + z
      = w / 2 ^ 1 % 2 * 128 + w / 2 ^ 0 % 2 * 64 + z / 2 ^ 5 % 2 * 32 + z / 2 ^ 4 % 2 * 16 +
        z / 2 ^ 3 % 2 * 8 + z / 2 ^ 2 % 2 * 4 + z / 2 ^ 1 % 2 * 2 + z / 2 ^ 0 % 2 := by
    norm_num
    linarith
  rw [e1, show 4 * g + 3 + 1 = 4 * (g + 1) by omega]

/-- A round whose values are all there stores the byte of the bit string and
leaves the bits of the last value that are still to be stored. -/
theorem decodeStepS_value {s : List Int} {j : Nat} {t : DecodeState} (hp : Phase j t)
    (hb : t.bits = pendingBits s j)
    (hv : ∀ i, i < (4 * (j + 1) + 2) / 3 → ∃ v : Nat, v < 64 ∧ s.getD i (-1) = (v : Int)) :
    (decodeStepS s t).1 = toByte (streamByte s j) ∧
      (decodeStepS s t).2.bits = pendingBits s (j + 1) := by
  rcases phase_cases hp with ⟨g, hj, ht⟩ | ⟨g, hj, ht⟩ | ⟨g, hj, ht⟩
  · obtain ⟨u, hu, h0⟩ := hv (4 * g) (by omega)
    obtain ⟨v, hv1, h1⟩ := hv (4 * g + 1) (by omega)
    rw [ht, hb, hj, pendingBits_zero, decodeStepS_first_value s g u v hu hv1 h0 h1]
    exact ⟨rfl, rfl⟩
  · obtain ⟨v, hv1, h1⟩ := hv (4 * g + 1) (by omega)
    obtain ⟨w, hw, h2⟩ := hv (4 * g + 2) (by omega)
    rw [ht, hb, hj, decodeStepS_second_value s g v w hv1 hw h1 h2]
    exact ⟨rfl, rfl⟩
  · obtain ⟨w, hw, h2⟩ := hv (4 * g + 2) (by omega)
    obtain ⟨z, hz, h3⟩ := hv (4 * g + 3) (by omega)
    rw [ht, hb, hj, decodeStepS_third_value s g w z hw hz h2 h3]
    exact ⟨rfl, rfl⟩

/-! ## Runs of the decoding loop on the stream -/

/-- Two streams that agree on their first `ceil(8 * (j + n) / 6)` values give the
same `n` rounds from round `j` on. -/
theorem runSteps_congr (s1 s2 : List Int) (n : Nat) : ∀ (j : Nat) (t : DecodeState),
    Phase j t →
    (∀ i, i < (4 * (j + n) + 2) / 3 → s1.getD i (-1) = s2.getD i (-1)) →
    runSteps (fun _ => decodeStepS s1) n j t = runSteps (fun _ => decodeStepS s2) n j t := by
  induction n with
  | zero =>
    intro j t _ _
    rfl
  | succ n ih =>
    intro j t hp hag
    have hstep : decodeStepS s1 t = decodeStepS s2 t :=
      decodeStepS_congr hp (fun i hi => hag i (by omega))
    have hnext := ih (j + 1) (decodeStepS s1 t).2 (decodeStepS_phase s1 hp)
      (fun i hi => hag i (by
        have : j + 1 + n = j + (n + 1) := by omega
        rw [this] at hi
        exact hi))
    simp only [runSteps, hnext]
    rw [hstep]

/-- Every round whose last value is not there stores `0xff`. -/
theorem runSteps_missing (s : List Int) (n : Nat) : ∀ (j : Nat) (t : DecodeState),
    Phase j t → ∀ m, m < n → s.length ≤ (8 * (j + m) + 7) / 6 →
    (runSteps (fun _ => decodeStepS s) n j t).1[m]? = some 255 := by
  induction n with
  | zero =>
    intro j t _ m hm
    omega
  | succ n ih =>
    intro j t hp m hm hlen
    cases m with
    | zero =>
      simp only [runSteps, List.getElem?_cons_zero, Option.some.injEq]
      exact decodeStepS_missing s hp (by simpa using hlen)
    | succ m =>
      simp only [runSteps, List.getElem?_cons_succ]
      exact ih (j + 1) _ (decodeStepS_phase s hp) m (by omega)
        (by
          have : j + 1 + m = j + (m + 1) := by omega
          rw [this]
          exact hlen)

/-- When all values that the rounds take are there, the rounds store the bytes
of the bit string, and at the end the pending bits are bits of the last value
taken. -/
theorem runSteps_value (s : List Int) (n : Nat) : ∀ (j : Nat) (t : DecodeState),
    Phase j t → t.bits = pendingBits s j →
    (∀ i, i < (4 * (j + n) + 2) / 3 → ∃ v : Nat, v < 64 ∧ s.getD i (-1) = (v : Int)) →
    (runSteps (fun _ => decodeStepS s) n j t).1
        = (List.range' j n).map (fun m => toByte (streamByte s m)) ∧
      Phase (j + n) (runSteps (fun _ => decodeStepS s) n j t).2 ∧
      (runSteps (fun _ => decodeStepS s) n j t).2.bits = pendingBits s (j + n) := by
  induction n with
  | zero =>
    intro j t hp hb _
    exact ⟨rfl, hp, hb⟩
  | succ n ih =>
    intro j t hp hb hv
    obtain ⟨h1, h2⟩ := decodeStepS_value hp hb (fun i hi => hv i (by omega))
    have hidx : j + 1 + n = j + (n + 1) := by omega
    obtain ⟨r1, r2, r3⟩ := ih (j + 1) (decodeStepS s t).2 (decodeStepS_phase s hp) h2
      (fun i hi => hv i (by rw [hidx] at hi; exact hi))
    rw [hidx] at r2 r3
    refine ⟨?_, r2, r3⟩
    simp only [runSteps, r1, h1, List.range'_succ, List.map_cons]

/-! ## Alphabet characters and their values -/

set_option maxRecDepth 20000 in
theorem isAlphabetChar_iff : ∀ c : Byte, isAlphabetChar c = true ↔ sixletOf c ≠ -1 := by
  decide

set_option maxRecDepth 20000 in
theorem sixletOf_bounds : ∀ c : Byte, sixletOf c ≠ -1 → 0 ≤ sixletOf c ∧ sixletOf c < 64 := by
  decide

theorem sixletOf_range : ∀ c : Byte, sixletOf c ≠ -1 →
    ∃ v : Nat, v < 64 ∧ sixletOf c = (v : Int) := by
  intro c hc
  obtain ⟨h0, h1⟩ := sixletOf_bounds c hc
  exact ⟨(sixletOf c).toNat, by omega, by omega⟩

set_option maxRecDepth 20000 in
theorem sixletOf_toStandard : ∀ c : Byte, sixletOf (toStandard c) = sixletOf c := by
  decide

set_option maxRecDepth 20000 in
theorem toStandard_eq_pad : ∀ c : Byte, toStandard c = 61 ↔ c = 61 := by
  decide

theorem sixlets_eq_map (e : List Byte) : sixlets e = (alphabetChars e).map sixletOf := by
  induction e with
  | nil => rfl
  | cons c e ih =>
    by_cases hc : sixletOf c = -1
    · have hn : ¬ isAlphabetChar c = true := fun h => (isAlphabetChar_iff c).mp h hc
      rw [sixlets_cons_of_eq hc, ih]
      simp [alphabetChars, List.filter, hn]
    · have hy : isAlphabetChar c = true := (isAlphabetChar_iff c).mpr hc
      rw [sixlets_cons_of_ne hc, ih]
      simp [alphabetChars, List.filter, hy]

theorem sixlets_length (e : List Byte) : (sixlets e).length = (alphabetChars e).length := by
  rw [sixlets_eq_map, List.length_map]

/-- Every value of the stream is a six-bit value. -/
theorem sixlets_value (e : List Byte) {i : Nat} (hi : i < (sixlets e).length) :
    ∃ v : Nat, v < 64 ∧ (sixlets e).getD i (-1) = (v : Int) := by
  have hmem : (sixlets e)[i] ∈ sixlets e := List.getElem_mem _
  obtain ⟨x, hx⟩ : ∃ x, (sixlets e)[i] = x := ⟨_, rfl⟩
  rw [hx] at hmem
  simp only [sixlets, List.mem_filter, List.mem_map, decide_eq_true_eq] at hmem
  obtain ⟨⟨c, -, hc⟩, hne⟩ := hmem
  rw [← hc] at hne
  obtain ⟨v, hv, hval⟩ := sixletOf_range c hne
  refine ⟨v, hv, ?_⟩
  rw [List.getD_eq_getElem?_getD, List.getElem?_eq_getElem hi, Option.getD_some, hx, ← hc, hval]

theorem getD_eq_of_take_eq {s1 s2 : List Int} {m i : Nat} (h : s1.take m = s2.take m)
    (hi : i < m) : s1.getD i (-1) = s2.getD i (-1) := by
  have h1 : (s1.take m)[i]? = s1[i]? := by rw [List.getElem?_take, if_pos hi]
  have h2 : (s2.take m)[i]? = s2[i]? := by rw [List.getElem?_take, if_pos hi]
  rw [List.getD_eq_getElem?_getD, List.getD_eq_getElem?_getD, ← h1, ← h2, h]

theorem sixlets_map_toStandard (e : List Byte) : sixlets (e.map toStandard) = sixlets e := by
  simp only [sixlets, List.map_map]
  congr 2
  funext c
  exact sixletOf_toStandard c

theorem paddingAtL_map_toStandard (e : List Byte) (k : Nat) :
    paddingAtL (e.map toStandard) k = paddingAtL e k := by
  simp only [paddingAtL, List.length_map, List.getD_eq_getElem?_getD, List.getElem?_map]
  cases e[sub64 e.length k]? with
  | none => simp
  | some c =>
    simp only [Option.map_some', Option.getD_some]
    by_cases hc : c = 61
    · subst hc
      simp [(toStandard_eq_pad 61).mpr rfl]
    · have : ¬ toStandard c = 61 := fun h => hc ((toStandard_eq_pad c).mp h)
      simp [hc, this]

theorem decodedLength_map_toStandard (e : List Byte) :
    decodedLength (e.map toStandard) = decodedLength e := by
  simp only [decodedLength, paddingAtL_map_toStandard, List.length_map]

/-! ## The result of `c_buffer_base64decode` and the stream -/

/-- The local variables at the end of a run over the input and over its stream
describe the same point. -/
theorem runSteps_sameRun_state {e : List Byte} (hn : e.length < U64) (n : Nat) :
    ∀ (j : Nat) (t u : DecodeState), SameRun e t u →
      SameRun e (runSteps (fun _ => decodeStepL e) n j t).2
        (runSteps (fun _ => decodeStepS (sixlets e)) n j u).2 := by
  induction n with
  | zero =>
    intro j t u hr
    exact hr
  | succ n ih =>
    intro j t u hr
    obtain ⟨-, hr1⟩ := decodeStep_sameRun hn hr
    simp only [runSteps]
    exact ih (j + 1) _ _ hr1

/-- The buffer that `c_buffer_base64decode` returns, for an encoded buffer with
bytes `e`: its length is `decodedLength e` and its bytes are those that the
rounds of the decoding loop produce from the stream of six-bit values. -/
theorem base64decode_bytes {h : Heap} {encoded : Pos} {e : List Byte}
    (he : to_bytes h encoded = .ok e) (hn : e.length < U64)
    (hfit : 8 + decodedLength e < U64) (halloc : 8 + decodedLength e ≤ h.limit) :
    ∃ g d, c_buffer_base64decode h encoded = .ok (g, d) ∧
      c_buffer_length d = decodedLength e ∧
      to_bytes g d = .ok (runSteps (fun _ => decodeStepS (sixlets e)) (decodedLength e) 0
        { bits := 0, bitslen := 0, i := 0 }).1 := by
  have hdec := base64decode_eq he hn hfit halloc
  have hrun := runSteps_sameRun hn (decodedLength e) 0 _ _ (sameRun_start e)
  rw [hrun] at hdec
  have hb : (⟨h.blocks ++ [none, some (List.replicate 8 (some 0) ++
      (runSteps (fun _ => decodeStepS (sixlets e)) (decodedLength e) 0
        { bits := 0, bitslen := 0, i := 0 }).1.map some)], h.limit⟩ :
      Heap).blocks[h.blocks.length + 1]?
        = some (some (List.replicate 8 (some 0) ++
            (runSteps (fun _ => decodeStepS (sixlets e)) (decodedLength e) 0
              { bits := 0, bitslen := 0, i := 0 }).1.map some ++ [])) := by
    show (h.blocks ++ _)[h.blocks.length + 1]? = _
    rw [List.getElem?_append_right (by omega)]
    simp
  have hbytes := loadBytes_block _ _ _ _ _ hb
  simp only [List.length_replicate, runSteps_length] at hbytes
  exact ⟨_, _, hdec, rfl, hbytes⟩

theorem streamBit_le (s : List Int) (t : Nat) : streamBit s t ≤ 1 := by
  unfold streamBit
  omega

theorem streamByte_lt (s : List Int) (j : Nat) : streamByte s j < 256 := by
  have h0 := streamBit_le s (8 * j)
  have h1 := streamBit_le s (8 * j + 1)
  have h2 := streamBit_le s (8 * j + 2)
  have h3 := streamBit_le s (8 * j + 3)
  have h4 := streamBit_le s (8 * j + 4)
  have h5 := streamBit_le s (8 * j + 5)
  have h6 := streamBit_le s (8 * j + 6)
  have h7 := streamBit_le s (8 * j + 7)
  unfold streamByte
  omega

set_option maxRecDepth 20000 in
/-- The six-bit values of the characters of the alphabet. -/
theorem sixletOf_table :
    (∀ c : Byte, 65 ≤ c.val → c.val ≤ 90 → sixletOf c = (c.val : Int) - 65) ∧
    (∀ c : Byte, 97 ≤ c.val → c.val ≤ 122 → sixletOf c = (c.val : Int) - 97 + 26) ∧
    (∀ c : Byte, 48 ≤ c.val → c.val ≤ 57 → sixletOf c = (c.val : Int) - 48 + 52) ∧
    sixletOf 43 = 62 ∧ sixletOf 45 = 62 ∧ sixletOf 47 = 63 ∧ sixletOf 95 = 63 := by
  decide

/-- The local variables at the start of round `j`, when the stream holds the
values that the first `j` rounds take. -/
theorem stateAt_eq {e : List Byte} (hn : e.length < U64) (j : Nat)
    (hk : (4 * j + 2) / 3 ≤ (alphabetChars e).length) :
    (stateAt e j).bits = pendingBits (sixlets e) j ∧
      (stateAt e j).bitslen = 6 * (((4 * j + 2) / 3 : Nat) : Int) - 8 * (j : Int) := by
  have hr := runSteps_sameRun_state hn j 0 _ _ (sameRun_start e)
  have hv := runSteps_value (sixlets e) j 0 { bits := 0, bitslen := 0, i := 0 } phase_start
    (by have := pendingBits_zero (sixlets e) 0; simpa using this.symm)
    (fun i hi => sixlets_value e (by rw [sixlets_length]; rw [Nat.zero_add] at hi; omega))
  obtain ⟨-, hp, hb⟩ := hv
  rw [Nat.zero_add] at hp hb
  exact ⟨by rw [stateAt, hr.bits, hb], by rw [stateAt, hr.bitslen, hp.pending]⟩

/-- A loop of one round. -/
theorem forLoop_one {σ : Type} (body : Nat → σ → Run σ) (j : Nat) (s : σ) :
    forLoop body 1 j s = body j s := by
  simp only [forLoop]
  cases body j s <;> rfl

/-! ## Construction and copy -/

/-- C1: for every byte sequence `b` of length `N` (readable at `data`, and such
that the size `8 + N` of the allocation is a `uint64_t` the allocator
satisfies), `c_buffer_construct(N, data)` returns a buffer whose length is `N`,
whose bytes read through `c_buffer_bytes` are exactly `b`, and whose reference
count is 0. -/
theorem c_buffer_construct_spec (h : Heap) (data : Ptr) (b : List Byte)
    (hdata : h.loadBytes data b.length = .ok b)
    (hfit : BUFFER_METADATA_WIDTH + b.length < U64)
    (halloc : BUFFER_METADATA_WIDTH + b.length ≤ h.limit) :
    ∃ h1 buffer, c_buffer_construct h b.length data = .ok (h1, buffer) ∧
      c_buffer_length buffer = b.length ∧
      to_bytes h1 buffer = .ok b ∧
      refcount h1 buffer = .ok 0 := by
  have hb : (⟨h.blocks ++ [some (List.replicate 8 (some 0) ++ b.map some)], h.limit⟩ :
      Heap).blocks[h.blocks.length]? = some (some (List.replicate 8 (some 0) ++ b.map some)) := by
    simp
  have hbytes := loadBytes_block _ _ (List.replicate 8 (some 0)) [] b
    (by rw [List.append_nil]; exact hb)
  simp only [List.length_replicate] at hbytes
  refine ⟨_, _, construct_eq hdata hfit halloc, rfl, hbytes, ?_⟩
  exact load64_zero_header hb

theorem c_buffer_construct_spec_witness :
    (fooData.loadBytes (.addr 0 0) 3 = .ok [102, 111, 111] ∧
      BUFFER_METADATA_WIDTH + 3 < U64 ∧ BUFFER_METADATA_WIDTH + 3 ≤ fooData.limit) ∧
    ∃ h1 buffer, c_buffer_construct fooData 3 (.addr 0 0) = .ok (h1, buffer) ∧
      c_buffer_length buffer = 3 ∧
      to_bytes h1 buffer = .ok [102, 111, 111] ∧
      refcount h1 buffer = .ok 0 :=
  ⟨⟨rfl, by decide, by decide⟩,
    c_buffer_construct_spec fooData (.addr 0 0) [102, 111, 111] rfl (by decide) (by decide)⟩

/-- C9: for every buffer `x` (with bytes `bs` and reference count `r`, and a
length for which the allocation succeeds), `c_buffer_copy(x)` returns a buffer
with the same length and the same bytes, in a block that was not allocated
before the call, with reference count 0 whatever `r` is; the bytes and the
reference count of `x` are unchanged (its length is the tag of the handle, which
the callee cannot change). -/
theorem c_buffer_copy_spec (h : Heap) (x : Pos) (bs : List Byte) (r : Nat)
    (hx : to_bytes h x = .ok bs) (hr : refcount h x = .ok r)
    (hfit : BUFFER_METADATA_WIDTH + c_buffer_length x < U64)
    (halloc : BUFFER_METADATA_WIDTH + c_buffer_length x ≤ h.limit) :
    ∃ h1 y k, c_buffer_copy h x = .ok (h1, y) ∧
      c_buffer_length y = c_buffer_length x ∧
      to_bytes h1 y = .ok bs ∧
      refcount h1 y = .ok 0 ∧
      y.obj = .addr k 8 ∧ h.blocks[k]? = none ∧ h1.live k ∧
      to_bytes h1 x = .ok bs ∧
      refcount h1 x = .ok r := by
  have hlen : bs.length = c_buffer_length x := (loadBytes_eq_ok.mp hx).1
  rw [← hlen] at hfit halloc
  have hdata : h.loadBytes (c_buffer_bytes x) bs.length = .ok bs := by
    rw [hlen]
    exact hx
  have hb : (⟨h.blocks ++ [some (List.replicate 8 (some 0) ++ bs.map some)], h.limit⟩ :
      Heap).blocks[h.blocks.length]? = some (some (List.replicate 8 (some 0) ++ bs.map some)) := by
    simp
  have hbytes := loadBytes_block _ _ (List.replicate 8 (some 0)) [] bs
    (by rw [List.append_nil]; exact hb)
  simp only [List.length_replicate] at hbytes
  have hc := construct_eq hdata hfit halloc
  rw [hlen] at hc
  refine ⟨_, _, h.blocks.length, hc, rfl, ?_, load64_zero_header hb, rfl, by simp, ⟨_, hb⟩,
    loadBytes_append _ _ hx, load64_append _ _ hr⟩
  show Heap.loadBytes _ (Ptr.addr h.blocks.length 8) x.tag = _
  rw [show x.tag = bs.length from hlen.symm]
  exact hbytes

theorem c_buffer_copy_spec_witness :
    (to_bytes fooHeap fooBuffer = .ok [102, 111, 111] ∧ refcount fooHeap fooBuffer = .ok 2 ∧
      BUFFER_METADATA_WIDTH + c_buffer_length fooBuffer < U64 ∧
      BUFFER_METADATA_WIDTH + c_buffer_length fooBuffer ≤ fooHeap.limit) ∧
    ∃ h1 y k, c_buffer_copy fooHeap fooBuffer = .ok (h1, y) ∧
      c_buffer_length y = c_buffer_length fooBuffer ∧
      to_bytes h1 y = .ok [102, 111, 111] ∧
      refcount h1 y = .ok 0 ∧
      y.obj = .addr k 8 ∧ fooHeap.blocks[k]? = none ∧ h1.live k ∧
      to_bytes h1 fooBuffer = .ok [102, 111, 111] ∧
      refcount h1 fooBuffer = .ok 2 :=
  ⟨⟨rfl, rfl, by decide, by decide⟩,
    c_buffer_copy_spec fooHeap fooBuffer [102, 111, 111] 2 rfl rfl (by decide) (by decide)⟩

/-! ## Concatenation -/

/-- C2: for all buffers `x` and `y` (with bytes `bx` and `bz`, and a total length
for which the allocation succeeds), `c_buffer_concatenate(x, y)` returns a
buffer whose length is `length(x) + length(y)` and whose bytes are the bytes of
`x` followed by the bytes of `y`: byte `j` is `x[j]` when `j < length(x)`, and
`y[j - length(x)]` otherwise. -/
theorem c_buffer_concatenate_spec (h : Heap) (x y : Pos) (bx bz : List Byte)
    (hx : to_bytes h x = .ok bx) (hy : to_bytes h y = .ok bz)
    (hfit : BUFFER_METADATA_WIDTH + (c_buffer_length x + c_buffer_length y) < U64)
    (halloc : BUFFER_METADATA_WIDTH + (c_buffer_length x + c_buffer_length y) ≤ h.limit) :
    ∃ h1 z, c_buffer_concatenate h x y = .ok (h1, z) ∧
      c_buffer_length z = c_buffer_length x + c_buffer_length y ∧
      to_bytes h1 z = .ok (bx ++ bz) ∧
      ∀ j : Nat, j < c_buffer_length z →
        h1.load ((c_buffer_bytes z).add j) =
          if j < c_buffer_length x then h.load ((c_buffer_bytes x).add j)
          else h.load ((c_buffer_bytes y).add (j - c_buffer_length x : Nat)) := by
  obtain ⟨hxl, hxg⟩ := loadBytes_eq_ok.mp hx
  obtain ⟨hyl, hyg⟩ := loadBytes_eq_ok.mp hy
  rw [← hxl, ← hyl] at hfit halloc
  have hb : (⟨h.blocks ++ [none, some (List.replicate 8 (some 0) ++ (bx ++ bz).map some)],
      h.limit⟩ : Heap).blocks[h.blocks.length + 1]?
        = some (some (List.replicate 8 (some 0) ++ (bx ++ bz).map some ++ [])) := by
    show (h.blocks ++ _)[h.blocks.length + 1]? = _
    rw [List.getElem?_append_right (by omega)]
    simp
  have hbytes := loadBytes_block _ _ _ _ _ hb
  simp only [List.length_replicate, List.length_append] at hbytes
  have hz : to_bytes ⟨h.blocks ++ [none, some (List.replicate 8 (some 0) ++ (bx ++ bz).map some)],
      h.limit⟩ ⟨bx.length + bz.length, .addr (h.blocks.length + 1) 8⟩ = .ok (bx ++ bz) := hbytes
  refine ⟨_, _, concatenate_eq hx hy hfit halloc, ?_, hz, ?_⟩
  · show bx.length + bz.length = x.tag + y.tag
    rw [show x.tag = bx.length from hxl.symm, show y.tag = bz.length from hyl.symm]
  · intro j hj
    have hj1 : j < (bx ++ bz).length := by simpa using hj
    have hzj := (loadBytes_eq_ok.mp hz).2 j hj1
    rw [hzj, ← hxl]
    by_cases hjx : j < bx.length
    · rw [if_pos hjx, hxg j hjx, List.getElem_append_left hjx]
    · have hjz : j - bx.length < bz.length := by
        simp only [List.length_append] at hj1
        omega
      rw [if_neg hjx, hyg (j - bx.length) hjz, List.getElem_append_right (by omega)]

theorem c_buffer_concatenate_spec_witness :
    (to_bytes pairHeap fooBuffer = .ok [102, 111, 111] ∧
      to_bytes pairHeap baBuffer = .ok [98, 97] ∧
      BUFFER_METADATA_WIDTH + (c_buffer_length fooBuffer + c_buffer_length baBuffer) < U64 ∧
      BUFFER_METADATA_WIDTH + (c_buffer_length fooBuffer + c_buffer_length baBuffer)
        ≤ pairHeap.limit) ∧
    ∃ h1 z, c_buffer_concatenate pairHeap fooBuffer baBuffer = .ok (h1, z) ∧
      c_buffer_length z = c_buffer_length fooBuffer + c_buffer_length baBuffer ∧
      to_bytes h1 z = .ok ([102, 111, 111] ++ [98, 97]) ∧
      ∀ j : Nat, j < c_buffer_length z →
        h1.load ((c_buffer_bytes z).add j) =
          if j < c_buffer_length fooBuffer then pairHeap.load ((c_buffer_bytes fooBuffer).add j)
          else pairHeap.load
            ((c_buffer_bytes baBuffer).add (j - c_buffer_length fooBuffer : Nat)) :=
  ⟨⟨rfl, rfl, by decide, by decide⟩,
    c_buffer_concatenate_spec pairHeap fooBuffer baBuffer [102, 111, 111] [98, 97]
      rfl rfl (by decide) (by decide)⟩

/-! ## Reference counting -/

/-- C4: for every live buffer with reference count `r` (its handle points eight
bytes into block `b`), `c_buffer_refcount_decrement` frees the block if and only
if `r = 0`; when `r > 0` the block stays live, the reference count becomes
`r - 1` and the bytes are unchanged (the length is the tag of the handle). The
value `r` that decides is the value that is decremented. -/
theorem c_buffer_refcount_decrement_spec (h : Heap) (x : Pos) (b r : Nat)
    (hobj : x.obj = .addr b 8) (hr : refcount h x = .ok r) :
    ∃ h1, c_buffer_refcount_decrement h x = .ok h1 ∧
      (h1.freed b ↔ r = 0) ∧
      (0 < r → h1.live b ∧ refcount h1 x = .ok (r - 1) ∧ to_bytes h1 x = to_bytes h x) := by
  obtain ⟨b1, o1, hobj1, hlive⟩ := obj_of_refcount hr
  rw [hobj] at hobj1
  cases hobj1
  rcases Nat.eq_zero_or_pos r with h0 | hpos
  · subst h0
    obtain ⟨h1, hd, hf⟩ := decrement_zero hobj hr
    exact ⟨h1, hd, ⟨fun _ => rfl, fun _ => hf⟩, fun hp => absurd hp (Nat.lt_irrefl 0)⟩
  · obtain ⟨h1, hd, hr1, hb1, hs1⟩ := decrement_pos hr hpos
    have hl1 : h1.live b := (hs1.live b).mpr hlive
    refine ⟨h1, hd, ⟨fun hf => absurd hf (not_freed_of_live hl1), fun h0 => ?_⟩,
      fun _ => ⟨hl1, hr1, hb1⟩⟩
    omega

theorem c_buffer_refcount_decrement_spec_witness :
    ((fooBuffer.obj = .addr 0 8 ∧ refcount fooHeap fooBuffer = .ok 2) ∧
      ∃ h1, c_buffer_refcount_decrement fooHeap fooBuffer = .ok h1 ∧
        (h1.freed 0 ↔ 2 = 0) ∧
        (0 < 2 → h1.live 0 ∧ refcount h1 fooBuffer = .ok (2 - 1) ∧
          to_bytes h1 fooBuffer = to_bytes fooHeap fooBuffer)) ∧
    ((emptyBuffer.obj = .addr 0 8 ∧ refcount emptyHeap emptyBuffer = .ok 0) ∧
      ∃ h1, c_buffer_refcount_decrement emptyHeap emptyBuffer = .ok h1 ∧
        (h1.freed 0 ↔ 0 = 0) ∧
        (0 < 0 → h1.live 0 ∧ refcount h1 emptyBuffer = .ok (0 - 1) ∧
          to_bytes h1 emptyBuffer = to_bytes emptyHeap emptyBuffer)) :=
  ⟨⟨⟨rfl, rfl⟩, c_buffer_refcount_decrement_spec fooHeap fooBuffer 0 2 rfl rfl⟩,
    ⟨⟨rfl, rfl⟩, c_buffer_refcount_decrement_spec emptyHeap emptyBuffer 0 0 rfl rfl⟩⟩

/-- C5: for every byte sequence `b` (readable at `data`, of a length for which
the allocation succeeds) and every `k < 2 ^ 64`, after `c_buffer_construct` and
`k` calls of `c_buffer_refcount_increment`, the buffer is still live after each
of the first `k` calls of `c_buffer_refcount_decrement`, and the `(k+1)`-th call
frees it. -/
theorem refcount_increments_then_decrements (h : Heap) (data : Ptr) (b : List Byte) (k : Nat)
    (hdata : h.loadBytes data b.length = .ok b)
    (hfit : BUFFER_METADATA_WIDTH + b.length < U64)
    (halloc : BUFFER_METADATA_WIDTH + b.length ≤ h.limit)
    (hk : k < U64) :
    ∃ h0 x blk, c_buffer_construct h b.length data = .ok (h0, x) ∧ x.obj = .addr blk 8 ∧
      ∃ h1, repeatRun (fun s => c_buffer_refcount_increment s x) k h0 = .ok h1 ∧
        (∀ m, m ≤ k →
          ∃ h2, repeatRun (fun s => c_buffer_refcount_decrement s x) m h1 = .ok h2 ∧
            h2.live blk ∧ ¬ h2.freed blk) ∧
        ∃ h3, repeatRun (fun s => c_buffer_refcount_decrement s x) (k + 1) h1 = .ok h3 ∧
          h3.freed blk := by
  have hb : (⟨h.blocks ++ [some (List.replicate 8 (some 0) ++ b.map some)], h.limit⟩ :
      Heap).blocks[h.blocks.length]? = some (some (List.replicate 8 (some 0) ++ b.map some)) := by
    simp
  have hr0 : refcount ⟨h.blocks ++ [some (List.replicate 8 (some 0) ++ b.map some)], h.limit⟩
      ⟨b.length, .addr h.blocks.length 8⟩ = .ok 0 := load64_zero_header hb
  obtain ⟨h1, hinc, hr1, -, hs1⟩ := increments_eq _ k _ 0 hr0 (by omega)
  rw [Nat.zero_add] at hr1
  refine ⟨_, _, h.blocks.length, construct_eq hdata hfit halloc, rfl, h1, hinc, ?_, ?_⟩
  · intro m hm
    obtain ⟨h2, hdec, -, -, hs2⟩ := decrements_eq _ m h1 k hr1 hm
    have hl : h2.live h.blocks.length := (hs2.live _).mpr ((hs1.live _).mpr ⟨_, hb⟩)
    exact ⟨h2, hdec, hl, not_freed_of_live hl⟩
  · exact decrements_free _ _ rfl k h1 hr1

theorem refcount_increments_then_decrements_witness :
    (fooData.loadBytes (.addr 0 0) 3 = .ok [102, 111, 111] ∧
      BUFFER_METADATA_WIDTH + 3 < U64 ∧ BUFFER_METADATA_WIDTH + 3 ≤ fooData.limit ∧
      1 < U64) ∧
    ∃ h0 x blk, c_buffer_construct fooData 3 (.addr 0 0) = .ok (h0, x) ∧ x.obj = .addr blk 8 ∧
      ∃ h1, repeatRun (fun s => c_buffer_refcount_increment s x) 1 h0 = .ok h1 ∧
        (∀ m, m ≤ 1 →
          ∃ h2, repeatRun (fun s => c_buffer_refcount_decrement s x) m h1 = .ok h2 ∧
            h2.live blk ∧ ¬ h2.freed blk) ∧
        ∃ h3, repeatRun (fun s => c_buffer_refcount_decrement s x) (1 + 1) h1 = .ok h3 ∧
          h3.freed blk :=
  ⟨⟨rfl, by decide, by decide, by decide⟩,
    refcount_increments_then_decrements fooData (.addr 0 0) [102, 111, 111] 1 rfl
      (by decide) (by decide) (by decide)⟩

/-! ## Truncation -/

/-- C6: on the buffer `"foo"` (length 3) and `n = 1 ≤ 3`, the statement
`c_buffer_truncate(x, 1);` leaves the heap as it was and the caller's buffer
with length 3 and bytes `"foo"`: the length is not 1 and the bytes are not
`"f"`. Only the callee's own copy of the handle gets the tag 1. -/
theorem c_buffer_truncate_keeps_length :
    1 ≤ c_buffer_length fooBuffer ∧
    c_buffer_truncate fooHeap fooBuffer 1 = (fooHeap, fooBuffer) ∧
    c_buffer_length (c_buffer_truncate fooHeap fooBuffer 1).2 = 3 ∧
    to_bytes (c_buffer_truncate fooHeap fooBuffer 1).1 (c_buffer_truncate fooHeap fooBuffer 1).2
      = .ok [102, 111, 111] ∧
    c_buffer_length (c_buffer_truncate_parameter fooBuffer 1) = 1 :=
  ⟨by decide, rfl, rfl, rfl, rfl⟩

/-- C7: for every buffer `x` and every `n > length(x)`, `c_buffer_truncate(x, n)`
is a no-op: the callee leaves even its own copy of the handle as it is, the heap
is the same, and so the length, the bytes and the reference count of `x` are
all unchanged. -/
theorem c_buffer_truncate_noop (h : Heap) (x : Pos) (n : Nat) (hn : n > c_buffer_length x) :
    c_buffer_truncate_parameter x n = x ∧
    c_buffer_truncate h x n = (h, x) ∧
    c_buffer_length (c_buffer_truncate h x n).2 = c_buffer_length x ∧
    to_bytes (c_buffer_truncate h x n).1 (c_buffer_truncate h x n).2 = to_bytes h x ∧
    refcount (c_buffer_truncate h x n).1 (c_buffer_truncate h x n).2 = refcount h x := by
  refine ⟨?_, rfl, rfl, rfl, rfl⟩
  simp [c_buffer_truncate_parameter, hn]

theorem c_buffer_truncate_noop_witness :
    5 > c_buffer_length fooBuffer ∧
    (c_buffer_truncate_parameter fooBuffer 5 = fooBuffer ∧
    c_buffer_truncate fooHeap fooBuffer 5 = (fooHeap, fooBuffer) ∧
    c_buffer_length (c_buffer_truncate fooHeap fooBuffer 5).2 = c_buffer_length fooBuffer ∧
    to_bytes (c_buffer_truncate fooHeap fooBuffer 5).1 (c_buffer_truncate fooHeap fooBuffer 5).2
      = to_bytes fooHeap fooBuffer ∧
    refcount (c_buffer_truncate fooHeap fooBuffer 5).1 (c_buffer_truncate fooHeap fooBuffer 5).2
      = refcount fooHeap fooBuffer) :=
  ⟨by decide, c_buffer_truncate_noop fooHeap fooBuffer 5 (by decide)⟩

/-! ## Indexing -/

/-- C8: for every buffer `x` with bytes `bs` (the empty buffer included) and
every index `i`, `c_buffer_bytes_index(x, i)` returns normally: 0 when
`i >= length(x)`, and the `i`-th byte of `x` when `i < length(x)`. The result
is a function of the bytes of the buffer alone, so nothing outside them is
read. -/
theorem c_buffer_bytes_index_spec (h : Heap) (x : Pos) (bs : List Byte) (i : Nat)
    (hx : to_bytes h x = .ok bs) :
    c_buffer_bytes_index h x i = .ok (bs.getD i 0) ∧
    (i ≥ c_buffer_length x → c_buffer_bytes_index h x i = .ok 0) ∧
    (∀ hi : i < bs.length, c_buffer_bytes_index h x i = .ok bs[i]) ∧
    (∀ h1 : Heap, to_bytes h1 x = .ok bs →
      c_buffer_bytes_index h1 x i = c_buffer_bytes_index h x i) := by
  have key : ∀ g : Heap, to_bytes g x = .ok bs →
      c_buffer_bytes_index g x i = .ok (bs.getD i 0) := by
    intro g hg
    obtain ⟨hlen, hget⟩ := loadBytes_eq_ok.mp hg
    unfold c_buffer_bytes_index
    by_cases hi : i ≥ c_buffer_length x
    · have : bs.length ≤ i := by omega
      simp [hi, List.getD_eq_getElem?_getD, List.getElem?_eq_none this]
    · have hlt : i < bs.length := by omega
      have hne : ¬ (i < 0 ∨ i ≥ c_buffer_length x) := by omega
      rw [if_neg hne, hget i hlt]
      simp [List.getD_eq_getElem?_getD, List.getElem?_eq_getElem hlt]
  have hlen := (loadBytes_eq_ok.mp hx).1
  refine ⟨key h hx, ?_, ?_, fun h1 hx1 => (key h1 hx1).trans (key h hx).symm⟩
  · intro hi
    have : bs.length ≤ i := by omega
    rw [key h hx]
    simp [List.getD_eq_getElem?_getD, List.getElem?_eq_none this]
  · intro hi
    rw [key h hx]
    simp [List.getD_eq_getElem?_getD, List.getElem?_eq_getElem hi]

theorem c_buffer_bytes_index_spec_witness :
    to_bytes fooHeap fooBuffer = .ok [102, 111, 111] ∧
    (c_buffer_bytes_index fooHeap fooBuffer 7 = .ok (([102, 111, 111] : List Byte).getD 7 0) ∧
      (7 ≥ c_buffer_length fooBuffer → c_buffer_bytes_index fooHeap fooBuffer 7 = .ok 0) ∧
      (∀ hi : 7 < ([102, 111, 111] : List Byte).length,
        c_buffer_bytes_index fooHeap fooBuffer 7 = .ok ([102, 111, 111] : List Byte)[7]) ∧
      (∀ h1 : Heap, to_bytes h1 fooBuffer = .ok [102, 111, 111] →
        c_buffer_bytes_index h1 fooBuffer 7 = c_buffer_bytes_index fooHeap fooBuffer 7)) ∧
    (c_buffer_bytes_index fooHeap fooBuffer 1 = .ok (([102, 111, 111] : List Byte).getD 1 0) ∧
      (1 ≥ c_buffer_length fooBuffer → c_buffer_bytes_index fooHeap fooBuffer 1 = .ok 0) ∧
      (∀ hi : 1 < ([102, 111, 111] : List Byte).length,
        c_buffer_bytes_index fooHeap fooBuffer 1 = .ok ([102, 111, 111] : List Byte)[1]) ∧
      (∀ h1 : Heap, to_bytes h1 fooBuffer = .ok [102, 111, 111] →
        c_buffer_bytes_index h1 fooBuffer 1 = c_buffer_bytes_index fooHeap fooBuffer 1)) :=
  ⟨rfl, c_buffer_bytes_index_spec fooHeap fooBuffer [102, 111, 111] 7 rfl,
    c_buffer_bytes_index_spec fooHeap fooBuffer [102, 111, 111] 1 rfl⟩

/-! ## Conversion to a null-terminated string -/

/-- C10: on the buffer that holds the single byte `0x00`,
`c_buffer_as_null_terminated_string` runs to its end, whatever bytes the new
block holds, and does not build the escaped string `0xC0 0x80 0x00`: `buf[0]` is
`0x00` (not `0xC0`), and `buf[1]`, which is tested before anything has written
it, is `0x80` when the block held `0x00` there and the byte that the block held
otherwise. On the empty buffer the block `[0x00]` is built. On no input, and for
no contents of the new block, does the function return a pointer. -/
theorem c_buffer_as_null_terminated_string_no_result :
    to_bytes nulHeap nulBuffer = .ok [0] ∧
    (∀ stale : Nat → Byte,
      c_buffer_as_null_terminated_string nulHeap nulBuffer stale
        = .ok (⟨nulHeap.blocks ++
            [some [some 0x00, some (if stale 1 = 0 then 0x80 else stale 1), some 0x00]],
            nulHeap.limit⟩, none)) ∧
    to_bytes emptyHeap emptyBuffer = .ok [] ∧
    (∀ stale : Nat → Byte,
      c_buffer_as_null_terminated_string emptyHeap emptyBuffer stale
        = .ok (⟨emptyHeap.blocks ++ [some [some 0x00]], emptyHeap.limit⟩, none)) ∧
    ∀ (h : Heap) (x : Pos) (stale : Nat → Byte) (h1 : Heap) (p : Ptr),
      c_buffer_as_null_terminated_string h x stale ≠ .ok (h1, some p) := by
  refine ⟨rfl, ?_, rfl, fun _ => rfl, ?_⟩
  · intro stale
    have hstep : escapeStep nulBuffer (.addr 1 0) 0
        (⟨nulHeap.blocks ++ [some [some (stale 0), some (stale 1), some (stale 2)]], 4096⟩, 0)
        = if stale 1 = 0 then
            .ok (⟨nulHeap.blocks ++ [some [some 0, some 0x80, some (stale 2)]], 4096⟩, 2)
          else
            .ok (⟨nulHeap.blocks ++ [some [some 0, some (stale 1), some (stale 2)]], 4096⟩,
              1) := rfl
    have hmain : c_buffer_as_null_terminated_string nulHeap nulBuffer stale
        = match forLoop (escapeStep nulBuffer (.addr 1 0)) 1 0
            (⟨nulHeap.blocks ++ [some [some (stale 0), some (stale 1), some (stale 2)]], 4096⟩,
              0) with
          | .error e => .error e
          | .ok (h2, _) =>
            match h2.store (.addr 1 2) 0 with
            | .error e => .error e
            | .ok h3 => .ok (h3, none) := rfl
    rw [hmain, forLoop_one, hstep]
    by_cases h0 : stale 1 = 0
    · rw [if_pos h0, if_pos h0]
      rfl
    · rw [if_neg h0, if_neg h0]
      rfl
  · intro h x stale h1 p hr
    cases as_null_terminated_string_none hr

/-! ## Base 64 decoding -/

/-- C3: for every byte sequence `b`, `c_buffer_base64decode` applied to a buffer
that holds the RFC 4648 (section 4, standard alphabet, `=` padding) encoding of
`b` returns a buffer of length `length b` whose bytes are exactly `b`, when the
allocation succeeds. The encodings of `""`, `"foo"`, `"fo"` and `"f"` are `""`,
`"Zm9v"`, `"Zm8="` and `"Zg=="`. -/
theorem c_buffer_base64decode_encode (h : Heap) (encoded : Pos) (b : List Byte)
    (he : to_bytes h encoded = .ok (base64encode b))
    (hn : c_buffer_length encoded < U64)
    (halloc : BUFFER_METADATA_WIDTH + b.length ≤ h.limit) :
    (∃ h1 decoded, c_buffer_base64decode h encoded = .ok (h1, decoded) ∧
      c_buffer_length decoded = b.length ∧
      to_bytes h1 decoded = .ok b) ∧
    base64encode (ascii "") = ascii "" ∧
    base64encode (ascii "foo") = ascii "Zm9v" ∧
    base64encode (ascii "fo") = ascii "Zm8=" ∧
    base64encode (ascii "f") = ascii "Zg==" := by
  refine ⟨?_, by decide, by decide, by decide, by decide⟩
  have hlen : (base64encode b).length = c_buffer_length encoded := (loadBytes_eq_ok.mp he).1
  have hn1 : (base64encode b).length < U64 := by omega
  have hL := decodedLength_base64encode b hn1
  have hfit : 8 + b.length < U64 := by
    have := base64encode_length b
    have hU := U64_eq
    omega
  have hdec := base64decode_eq he hn1 (by rw [hL]; exact hfit) (by rw [hL]; exact halloc)
  have hpure := runSteps_base64encode b [] 0 (by simpa using hn1)
  simp only [List.nil_append, List.length_nil] at hpure
  rw [hL, hpure] at hdec
  have hb : (⟨h.blocks ++ [none, some (List.replicate 8 (some 0) ++ b.map some)],
      h.limit⟩ : Heap).blocks[h.blocks.length + 1]?
        = some (some (List.replicate 8 (some 0) ++ b.map some ++ [])) := by
    show (h.blocks ++ _)[h.blocks.length + 1]? = _
    rw [List.getElem?_append_right (by omega)]
    simp
  have hbytes := loadBytes_block _ _ _ _ _ hb
  simp only [List.length_replicate] at hbytes
  exact ⟨_, _, hdec, rfl, hbytes⟩

theorem c_buffer_base64decode_encode_witness :
    (to_bytes (textHeap (ascii "")) (textBuffer (ascii ""))
        = .ok (base64encode (ascii "")) ∧
      c_buffer_length (textBuffer (ascii "")) < U64 ∧
      BUFFER_METADATA_WIDTH + (ascii "").length ≤ (textHeap (ascii "")).limit) ∧
    (to_bytes (textHeap (ascii "Zm9v")) (textBuffer (ascii "Zm9v"))
        = .ok (base64encode (ascii "foo")) ∧
      c_buffer_length (textBuffer (ascii "Zm9v")) < U64 ∧
      BUFFER_METADATA_WIDTH + (ascii "foo").length ≤ (textHeap (ascii "Zm9v")).limit) ∧
    (to_bytes (textHeap (ascii "Zm8=")) (textBuffer (ascii "Zm8="))
        = .ok (base64encode (ascii "fo")) ∧
      c_buffer_length (textBuffer (ascii "Zm8=")) < U64 ∧
      BUFFER_METADATA_WIDTH + (ascii "fo").length ≤ (textHeap (ascii "Zm8=")).limit) ∧
    (to_bytes (textHeap (ascii "Zg==")) (textBuffer (ascii "Zg=="))
        = .ok (base64encode (ascii "f")) ∧
      c_buffer_length (textBuffer (ascii "Zg==")) < U64 ∧
      BUFFER_METADATA_WIDTH + (ascii "f").length ≤ (textHeap (ascii "Zg==")).limit) ∧
    (∃ h1 decoded,
      c_buffer_base64decode (textHeap (ascii "")) (textBuffer (ascii ""))
        = .ok (h1, decoded) ∧
      c_buffer_length decoded = (ascii "").length ∧
      to_bytes h1 decoded = .ok (ascii "")) ∧
    (∃ h1 decoded,
      c_buffer_base64decode (textHeap (ascii "Zm9v")) (textBuffer (ascii "Zm9v"))
        = .ok (h1, decoded) ∧
      c_buffer_length decoded = (ascii "foo").length ∧
      to_bytes h1 decoded = .ok (ascii "foo")) ∧
    (∃ h1 decoded,
      c_buffer_base64decode (textHeap (ascii "Zm8=")) (textBuffer (ascii "Zm8="))
        = .ok (h1, decoded) ∧
      c_buffer_length decoded = (ascii "fo").length ∧
      to_bytes h1 decoded = .ok (ascii "fo")) ∧
    (∃ h1 decoded,
      c_buffer_base64decode (textHeap (ascii "Zg==")) (textBuffer (ascii "Zg=="))
        = .ok (h1, decoded) ∧
      c_buffer_length decoded = (ascii "f").length ∧
      to_bytes h1 decoded = .ok (ascii "f")) :=
  ⟨⟨rfl, by decide, by decide⟩, ⟨rfl, by decide, by decide⟩,
    ⟨rfl, by decide, by decide⟩, ⟨rfl, by decide, by decide⟩,
    (c_buffer_base64decode_encode (textHeap (ascii "")) (textBuffer (ascii ""))
      (ascii "") rfl (by decide) (by decide)).1,
    (c_buffer_base64decode_encode (textHeap (ascii "Zm9v")) (textBuffer (ascii "Zm9v"))
      (ascii "foo") rfl (by decide) (by decide)).1,
    (c_buffer_base64decode_encode (textHeap (ascii "Zm8=")) (textBuffer (ascii "Zm8="))
      (ascii "fo") rfl (by decide) (by decide)).1,
    (c_buffer_base64decode_encode (textHeap (ascii "Zg==")) (textBuffer (ascii "Zg=="))
      (ascii "f") rfl (by decide) (by decide)).1⟩


/-! ## Construction from a null-terminated string -/

/-- C11: on the null-terminated string `"A"` (the bytes `0x41 0x00`, first zero
at position 1), `c_buffer_construct_from_null_terminated_string` returns a
buffer of length 2 whose bytes are `0x41 0x00`: the loop `while (data_nt[n++]);`
leaves `n` one past the terminator, so the terminator is part of the buffer and
the length is not 1. -/
theorem c_buffer_construct_from_null_terminated_string_keeps_terminator :
    (stringHeap (ascii "A")).loadBytes (.addr 0 0) 2 = .ok [0x41, 0x00] ∧
    scanTerminator (stringHeap (ascii "A")) (.addr 0 0) 3 0 = .ok 2 ∧
    ∃ h1 buffer,
      c_buffer_construct_from_null_terminated_string (stringHeap (ascii "A")) (.addr 0 0)
        = .ok (h1, buffer) ∧
      c_buffer_length buffer = 2 ∧
      to_bytes h1 buffer = .ok [0x41, 0x00] :=
  ⟨rfl, rfl, _, _, rfl, rfl, rfl⟩

/-! ## Increment of the reference count -/

/-- C15: for every live buffer with reference count `r` (its handle points into
block `b`), `c_buffer_refcount_increment` returns normally, the reference count
becomes `(r + 1) mod 2 ^ 64` (there is no upper bound check: from `2 ^ 64 - 1`
it becomes 0), no block is freed (the block of the buffer stays live), and the
bytes are unchanged (the length is the tag of the handle). -/
theorem c_buffer_refcount_increment_spec (h : Heap) (x : Pos) (b : Nat) (o : Int) (r : Nat)
    (hobj : x.obj = .addr b o) (hr : refcount h x = .ok r) :
    ∃ h1, c_buffer_refcount_increment h x = .ok h1 ∧
      refcount h1 x = .ok ((r + 1) % 2 ^ 64) ∧
      (r = 2 ^ 64 - 1 → refcount h1 x = .ok 0) ∧
      h1.live b ∧ ¬ h1.freed b ∧
      (∀ c : Nat, h1.freed c ↔ h.freed c) ∧
      to_bytes h1 x = to_bytes h x := by
  obtain ⟨h1, hi, hr1, hb1, hs1⟩ := increment_eq hr
  obtain ⟨b1, o1, hobj1, hlive⟩ := obj_of_refcount hr
  rw [hobj] at hobj1
  cases hobj1
  have hl1 : h1.live b := (hs1.live b).mpr hlive
  refine ⟨h1, hi, hr1, ?_, hl1, not_freed_of_live hl1, hs1.freed, hb1⟩
  intro hmax
  rw [hr1, hmax]
  rfl

theorem c_buffer_refcount_increment_spec_witness :
    ((fooBuffer.obj = .addr 0 8 ∧ refcount fooHeap fooBuffer = .ok 2) ∧
      ∃ h1, c_buffer_refcount_increment fooHeap fooBuffer = .ok h1 ∧
        refcount h1 fooBuffer = .ok ((2 + 1) % 2 ^ 64) ∧
        (2 = 2 ^ 64 - 1 → refcount h1 fooBuffer = .ok 0) ∧
        h1.live 0 ∧ ¬ h1.freed 0 ∧
        (∀ c : Nat, h1.freed c ↔ fooHeap.freed c) ∧
        to_bytes h1 fooBuffer = to_bytes fooHeap fooBuffer) ∧
    ((fooBuffer.obj = .addr 0 8 ∧ refcount fullHeap fooBuffer = .ok (2 ^ 64 - 1)) ∧
      ∃ h1, c_buffer_refcount_increment fullHeap fooBuffer = .ok h1 ∧
        refcount h1 fooBuffer = .ok ((2 ^ 64 - 1 + 1) % 2 ^ 64) ∧
        (2 ^ 64 - 1 = 2 ^ 64 - 1 → refcount h1 fooBuffer = .ok 0) ∧
        h1.live 0 ∧ ¬ h1.freed 0 ∧
        (∀ c : Nat, h1.freed c ↔ fullHeap.freed c) ∧
        to_bytes h1 fooBuffer = to_bytes fullHeap fooBuffer) :=
  ⟨⟨⟨rfl, rfl⟩, c_buffer_refcount_increment_spec fooHeap fooBuffer 0 8 2 rfl rfl⟩,
    ⟨⟨rfl, rfl⟩,
      c_buffer_refcount_increment_spec fullHeap fooBuffer 0 8 (2 ^ 64 - 1) rfl rfl⟩⟩

/-! ## Zero-filled buffers -/

/-- C16: for every `n` for which the allocation succeeds, `c_buffer_construct_zeroed(n)`
returns a buffer with length `n`, every byte `0x00` and reference count 0, and
so does `c_buffer_construct` applied to any sequence of `n` zero bytes: the two
buffers have the same length, bytes and reference count. -/
theorem c_buffer_construct_zeroed_spec (h g : Heap) (n : Nat) (data : Ptr)
    (hfit : BUFFER_METADATA_WIDTH + n < U64)
    (halloc : BUFFER_METADATA_WIDTH + n ≤ h.limit)
    (hdata : g.loadBytes data n = .ok (List.replicate n 0))
    (hg : BUFFER_METADATA_WIDTH + n ≤ g.limit) :
    ∃ h1 x g1 y, c_buffer_construct_zeroed h n = .ok (h1, x) ∧
      c_buffer_construct g n data = .ok (g1, y) ∧
      c_buffer_length x = n ∧ c_buffer_length y = n ∧
      to_bytes h1 x = .ok (List.replicate n 0) ∧ to_bytes g1 y = .ok (List.replicate n 0) ∧
      (∀ j : Nat, j < n → c_buffer_bytes_index h1 x j = .ok 0x00) ∧
      refcount h1 x = .ok 0 ∧ refcount g1 y = .ok 0 := by
  have hz := construct_zeroed_eq (h := h) hfit halloc
  have hdata1 : g.loadBytes data (List.replicate n (0 : Byte)).length
      = .ok (List.replicate n (0 : Byte)) := by simpa using hdata
  have hc := construct_eq hdata1 (by simpa using hfit) (by simpa using hg)
  simp only [List.length_replicate, List.map_replicate] at hc
  have hbx : (⟨h.blocks ++ [none, some (List.replicate 8 (some 0) ++
      List.replicate n (some 0))], h.limit⟩ : Heap).blocks[h.blocks.length + 1]?
        = some (some (List.replicate 8 (some 0) ++ (List.replicate n (0 : Byte)).map some
            ++ [])) := by
    show (h.blocks ++ _)[h.blocks.length + 1]? = _
    rw [List.getElem?_append_right (by omega)]
    simp
  have hby : (⟨g.blocks ++ [some (List.replicate 8 (some 0) ++ List.replicate n (some 0))],
      g.limit⟩ : Heap).blocks[g.blocks.length]?
        = some (some (List.replicate 8 (some 0) ++ (List.replicate n (0 : Byte)).map some
            ++ [])) := by
    simp
  have hxb := loadBytes_block _ _ _ _ _ hbx
  have hyb := loadBytes_block _ _ _ _ _ hby
  simp only [List.length_replicate] at hxb hyb
  have hx0 : (⟨h.blocks ++ [none, some (List.replicate 8 (some 0) ++
      List.replicate n (some 0))], h.limit⟩ : Heap).blocks[h.blocks.length + 1]?
        = some (some (List.replicate 8 (some 0) ++ List.replicate n (some 0))) := by
    simpa using hbx
  have hy0 : (⟨g.blocks ++ [some (List.replicate 8 (some 0) ++ List.replicate n (some 0))],
      g.limit⟩ : Heap).blocks[g.blocks.length]?
        = some (some (List.replicate 8 (some 0) ++ List.replicate n (some 0))) := by
    simp
  refine ⟨_, _, _, _, hz, hc, rfl, rfl, hxb, hyb, ?_, load64_zero_header hx0,
    load64_zero_header hy0⟩
  intro j hj
  have hget := (loadBytes_eq_ok.mp hxb).2 j (by simpa using hj)
  have hne : ¬ (j < 0 ∨ j ≥ n) := by omega
  simp only [c_buffer_bytes_index, c_buffer_length, hne, if_false]
  rw [show c_buffer_bytes (⟨n, .addr (h.blocks.length + 1) 8⟩ : Pos)
    = Ptr.addr (h.blocks.length + 1) ((8 : Nat) : Int) from rfl, hget]
  simp

theorem c_buffer_construct_zeroed_spec_witness :
    (BUFFER_METADATA_WIDTH + 2 < U64 ∧ BUFFER_METADATA_WIDTH + 2 ≤ fooData.limit ∧
      emptyHeap.loadBytes (.addr 0 3) 2 = .ok (List.replicate 2 0) ∧
      BUFFER_METADATA_WIDTH + 2 ≤ emptyHeap.limit) ∧
    ∃ h1 x g1 y, c_buffer_construct_zeroed fooData 2 = .ok (h1, x) ∧
      c_buffer_construct emptyHeap 2 (.addr 0 3) = .ok (g1, y) ∧
      c_buffer_length x = 2 ∧ c_buffer_length y = 2 ∧
      to_bytes h1 x = .ok (List.replicate 2 0) ∧ to_bytes g1 y = .ok (List.replicate 2 0) ∧
      (∀ j : Nat, j < 2 → c_buffer_bytes_index h1 x j = .ok 0x00) ∧
      refcount h1 x = .ok 0 ∧ refcount g1 y = .ok 0 :=
  ⟨⟨by decide, by decide, rfl, by decide⟩,
    c_buffer_construct_zeroed_spec fooData emptyHeap 2 (.addr 0 3) (by decide) (by decide) rfl
      (by decide)⟩

/-! ## Round trip through the null-terminated form -/

/-- C17: on the buffer `"A"` (no zero byte, no `0xC0 0x80`) the round trip does
not give back `"A"`. `c_buffer_as_null_terminated_string` builds the block
`0x41 0x00`, whatever bytes the new block held, but its body has no `return`
statement: on no input does it return a pointer, so there is nothing that
`c_buffer_construct_from_null_terminated_string` could be applied to. Applied to
the block that was built, the latter returns a buffer of length 2 with the bytes
`0x41 0x00`. It does so on every string: the result has one byte more than the
string and ends with the terminator, and it holds no other zero byte, so it is
never a buffer without zero bytes, and nothing is expanded back. -/
theorem null_terminated_round_trip_fails :
    to_bytes (textHeap (ascii "A")) (textBuffer (ascii "A")) = .ok [0x41] ∧
    (∀ stale : Nat → Byte,
      c_buffer_as_null_terminated_string (textHeap (ascii "A")) (textBuffer (ascii "A")) stale
        = .ok (⟨(textHeap (ascii "A")).blocks ++ [some [some 0x41, some 0x00]],
            (textHeap (ascii "A")).limit⟩, none)) ∧
    (∀ (h : Heap) (x : Pos) (stale : Nat → Byte) (h1 : Heap) (p : Ptr),
      c_buffer_as_null_terminated_string h x stale ≠ .ok (h1, some p)) ∧
    (∃ h2 buffer,
      c_buffer_construct_from_null_terminated_string
        ⟨(textHeap (ascii "A")).blocks ++ [some [some 0x41, some 0x00]],
          (textHeap (ascii "A")).limit⟩ (.addr 1 0) = .ok (h2, buffer) ∧
      c_buffer_length buffer = 2 ∧ to_bytes h2 buffer = .ok [0x41, 0x00]) ∧
    ∀ (g : Heap) (data : Ptr) (s : List Byte), (∀ v ∈ s, v ≠ 0) →
      g.loadBytes data (s.length + 1) = .ok (s ++ [0]) →
      BUFFER_METADATA_WIDTH + (s.length + 1) < U64 →
      BUFFER_METADATA_WIDTH + (s.length + 1) ≤ g.limit →
      ∃ g1 buffer, c_buffer_construct_from_null_terminated_string g data = .ok (g1, buffer) ∧
        c_buffer_length buffer = s.length + 1 ∧
        to_bytes g1 buffer = .ok (s ++ [0]) ∧
        ∀ bx : List Byte, (∀ v ∈ bx, v ≠ 0) → to_bytes g1 buffer ≠ .ok bx := by
  refine ⟨rfl, ?_, ?_, ⟨_, _, rfl, rfl, rfl⟩, ?_⟩
  · intro stale
    have hstep : escapeStep (textBuffer (ascii "A")) (.addr 1 0) 0
        (⟨(textHeap (ascii "A")).blocks ++ [some [some (stale 0), some (stale 1)]], 4096⟩, 0)
        = if stale 1 = 0 then
            .ok (⟨(textHeap (ascii "A")).blocks ++ [some [some 0x41, some 0x80]], 4096⟩, 2)
          else
            .ok (⟨(textHeap (ascii "A")).blocks ++ [some [some 0x41, some (stale 1)]], 4096⟩,
              1) := rfl
    have hmain : c_buffer_as_null_terminated_string (textHeap (ascii "A"))
          (textBuffer (ascii "A")) stale
        = match forLoop (escapeStep (textBuffer (ascii "A")) (.addr 1 0)) 1 0
            (⟨(textHeap (ascii "A")).blocks ++ [some [some (stale 0), some (stale 1)]], 4096⟩,
              0) with
          | .error e => .error e
          | .ok (h2, _) =>
            match h2.store (.addr 1 1) 0 with
            | .error e => .error e
            | .ok h3 => .ok (h3, none) := rfl
    rw [hmain, forLoop_one, hstep]
    by_cases h0 : stale 1 = 0
    · rw [if_pos h0]
      rfl
    · rw [if_neg h0]
      rfl
  · intro h x stale h1 p hr
    cases as_null_terminated_string_none hr
  · intro g data s hs hdata hfit halloc
    have hrun := from_null_terminated_eq hs hdata hfit halloc
    have hb : (⟨g.blocks ++ [some (List.replicate 8 (some 0) ++ (s ++ [0]).map some)],
        g.limit⟩ : Heap).blocks[g.blocks.length]?
          = some (some (List.replicate 8 (some 0) ++ (s ++ [0]).map some ++ [])) := by
      simp
    have hbytes := loadBytes_block _ _ _ _ _ hb
    simp only [List.length_replicate, List.length_append, List.length_singleton] at hbytes
    refine ⟨_, _, hrun, rfl, hbytes, ?_⟩
    intro bx hbx heq
    have hbytes1 : to_bytes (⟨g.blocks ++
        [some (List.replicate 8 (some 0) ++ (s ++ [0]).map some)], g.limit⟩ : Heap)
        ⟨s.length + 1, .addr g.blocks.length 8⟩ = .ok (s ++ [0]) := hbytes
    rw [hbytes1] at heq
    cases heq
    exact hbx 0 (by simp) rfl

/-! ## The length of the decoded buffer -/

/-- C20: in `c_buffer_base64decode` the `uint64_t` value of the length expression
`n / 4 * 3 - p1 - p2`, where `p1 + p2` is the number of `=` among the last two
input positions, wraps around below zero exactly when `n < 4` and
`p1 + p2 >= 1`, and is then `2 ^ 64 - (p1 + p2)`; for `n >= 4` the subtraction
does not wrap and the length is at most `n / 4 * 3`. Whenever the function
returns, the length of its result is that value. -/
theorem base64decode_length_wrap (h : Heap) (encoded : Pos) (e : List Byte) (p1 p2 : Nat)
    (he : to_bytes h encoded = .ok e) (hn : c_buffer_length encoded < U64)
    (h1 : paddingAt h encoded 1 = .ok p1) (h2 : paddingAt h encoded 2 = .ok p2) :
    p1 + p2 = paddingCount e ∧ p1 + p2 ≤ 2 ∧
    (∀ h1 d, c_buffer_base64decode h encoded = .ok (h1, d) →
      c_buffer_length d = lengthExpression (c_buffer_length encoded) p1 p2) ∧
    (c_buffer_length encoded / 4 * 3 < p1 + p2 ↔
      c_buffer_length encoded < 4 ∧ 1 ≤ p1 + p2) ∧
    (c_buffer_length encoded < 4 → 1 ≤ p1 + p2 →
      lengthExpression (c_buffer_length encoded) p1 p2 = 2 ^ 64 - (p1 + p2)) ∧
    (4 ≤ c_buffer_length encoded →
      lengthExpression (c_buffer_length encoded) p1 p2 + (p1 + p2)
        = c_buffer_length encoded / 4 * 3 ∧
      lengthExpression (c_buffer_length encoded) p1 p2 ≤ c_buffer_length encoded / 4 * 3) := by
  have hlen := (loadBytes_eq_ok.mp he).1
  have hn1 : e.length < U64 := by omega
  rw [paddingAt_eq he hn1 1 (Nat.le_refl 1)] at h1
  rw [paddingAt_eq he hn1 2 (by omega)] at h2
  cases h1
  cases h2
  have hp1 := paddingAtL_le_one e 1
  have hp2 := paddingAtL_le_one e 2
  obtain ⟨hw, hz, hok⟩ := decodedLength_cases e hn1
  have hL : lengthExpression (c_buffer_length encoded) (paddingAtL e 1) (paddingAtL e 2)
      = decodedLength e := by
    rw [← hlen]
    rfl
  rw [hL, ← hlen]
  refine ⟨paddingAtL_add e hn1, by omega, fun h1 d hd => base64decode_tag he hn1 hd, by omega,
    hw, ?_⟩
  intro hge
  obtain ⟨hle, heq⟩ := hok hge
  omega

theorem base64decode_length_wrap_witness :
    ((to_bytes (textHeap (ascii "=")) (textBuffer (ascii "=")) = .ok (ascii "=") ∧
        c_buffer_length (textBuffer (ascii "=")) < U64 ∧
        paddingAt (textHeap (ascii "=")) (textBuffer (ascii "=")) 1 = .ok 1 ∧
        paddingAt (textHeap (ascii "=")) (textBuffer (ascii "=")) 2 = .ok 0) ∧
      1 + 0 = paddingCount (ascii "=") ∧ 1 + 0 ≤ 2 ∧
      (∀ h1 d,
        c_buffer_base64decode (textHeap (ascii "=")) (textBuffer (ascii "="))
          = .ok (h1, d) →
        c_buffer_length d = lengthExpression (c_buffer_length (textBuffer (ascii "="))) 1 0) ∧
      (c_buffer_length (textBuffer (ascii "=")) / 4 * 3 < 1 + 0 ↔
        c_buffer_length (textBuffer (ascii "=")) < 4 ∧ 1 ≤ 1 + 0) ∧
      (c_buffer_length (textBuffer (ascii "=")) < 4 → 1 ≤ 1 + 0 →
        lengthExpression (c_buffer_length (textBuffer (ascii "="))) 1 0 = 2 ^ 64 - (1 + 0)) ∧
      (4 ≤ c_buffer_length (textBuffer (ascii "=")) →
        lengthExpression (c_buffer_length (textBuffer (ascii "="))) 1 0 + (1 + 0)
          = c_buffer_length (textBuffer (ascii "=")) / 4 * 3 ∧
        lengthExpression (c_buffer_length (textBuffer (ascii "="))) 1 0
          ≤ c_buffer_length (textBuffer (ascii "=")) / 4 * 3)) ∧
    ((to_bytes (textHeap (ascii "A=")) (textBuffer (ascii "A=")) = .ok (ascii "A=") ∧
        c_buffer_length (textBuffer (ascii "A=")) < U64 ∧
        paddingAt (textHeap (ascii "A=")) (textBuffer (ascii "A=")) 1 = .ok 1 ∧
        paddingAt (textHeap (ascii "A=")) (textBuffer (ascii "A=")) 2 = .ok 0) ∧
      1 + 0 = paddingCount (ascii "A=") ∧ 1 + 0 ≤ 2 ∧
      (∀ h1 d,
        c_buffer_base64decode (textHeap (ascii "A=")) (textBuffer (ascii "A="))
          = .ok (h1, d) →
        c_buffer_length d = lengthExpression (c_buffer_length (textBuffer (ascii "A="))) 1 0) ∧
      (c_buffer_length (textBuffer (ascii "A=")) / 4 * 3 < 1 + 0 ↔
        c_buffer_length (textBuffer (ascii "A=")) < 4 ∧ 1 ≤ 1 + 0) ∧
      (c_buffer_length (textBuffer (ascii "A=")) < 4 → 1 ≤ 1 + 0 →
        lengthExpression (c_buffer_length (textBuffer (ascii "A="))) 1 0 = 2 ^ 64 - (1 + 0)) ∧
      (4 ≤ c_buffer_length (textBuffer (ascii "A=")) →
        lengthExpression (c_buffer_length (textBuffer (ascii "A="))) 1 0 + (1 + 0)
          = c_buffer_length (textBuffer (ascii "A=")) / 4 * 3 ∧
        lengthExpression (c_buffer_length (textBuffer (ascii "A="))) 1 0
          ≤ c_buffer_length (textBuffer (ascii "A=")) / 4 * 3)) ∧
    ((to_bytes (textHeap (ascii "==")) (textBuffer (ascii "==")) = .ok (ascii "==") ∧
        c_buffer_length (textBuffer (ascii "==")) < U64 ∧
        paddingAt (textHeap (ascii "==")) (textBuffer (ascii "==")) 1 = .ok 1 ∧
        paddingAt (textHeap (ascii "==")) (textBuffer (ascii "==")) 2 = .ok 1) ∧
      1 + 1 = paddingCount (ascii "==") ∧ 1 + 1 ≤ 2 ∧
      (∀ h1 d,
        c_buffer_base64decode (textHeap (ascii "==")) (textBuffer (ascii "=="))
          = .ok (h1, d) →
        c_buffer_length d = lengthExpression (c_buffer_length (textBuffer (ascii "=="))) 1 1) ∧
      (c_buffer_length (textBuffer (ascii "==")) / 4 * 3 < 1 + 1 ↔
        c_buffer_length (textBuffer (ascii "==")) < 4 ∧ 1 ≤ 1 + 1) ∧
      (c_buffer_length (textBuffer (ascii "==")) < 4 → 1 ≤ 1 + 1 →
        lengthExpression (c_buffer_length (textBuffer (ascii "=="))) 1 1 = 2 ^ 64 - (1 + 1)) ∧
      (4 ≤ c_buffer_length (textBuffer (ascii "==")) →
        lengthExpression (c_buffer_length (textBuffer (ascii "=="))) 1 1 + (1 + 1)
          = c_buffer_length (textBuffer (ascii "==")) / 4 * 3 ∧
        lengthExpression (c_buffer_length (textBuffer (ascii "=="))) 1 1
          ≤ c_buffer_length (textBuffer (ascii "==")) / 4 * 3)) ∧
    ((to_bytes (textHeap (ascii "Zg=")) (textBuffer (ascii "Zg=")) = .ok (ascii "Zg=") ∧
        c_buffer_length (textBuffer (ascii "Zg=")) < U64 ∧
        paddingAt (textHeap (ascii "Zg=")) (textBuffer (ascii "Zg=")) 1 = .ok 1 ∧
        paddingAt (textHeap (ascii "Zg=")) (textBuffer (ascii "Zg=")) 2 = .ok 0) ∧
      1 + 0 = paddingCount (ascii "Zg=") ∧ 1 + 0 ≤ 2 ∧
      (∀ h1 d,
        c_buffer_base64decode (textHeap (ascii "Zg=")) (textBuffer (ascii "Zg="))
          = .ok (h1, d) →
        c_buffer_length d = lengthExpression (c_buffer_length (textBuffer (ascii "Zg="))) 1 0) ∧
      (c_buffer_length (textBuffer (ascii "Zg=")) / 4 * 3 < 1 + 0 ↔
        c_buffer_length (textBuffer (ascii "Zg=")) < 4 ∧ 1 ≤ 1 + 0) ∧
      (c_buffer_length (textBuffer (ascii "Zg=")) < 4 → 1 ≤ 1 + 0 →
        lengthExpression (c_buffer_length (textBuffer (ascii "Zg="))) 1 0 = 2 ^ 64 - (1 + 0)) ∧
      (4 ≤ c_buffer_length (textBuffer (ascii "Zg=")) →
        lengthExpression (c_buffer_length (textBuffer (ascii "Zg="))) 1 0 + (1 + 0)
          = c_buffer_length (textBuffer (ascii "Zg=")) / 4 * 3 ∧
        lengthExpression (c_buffer_length (textBuffer (ascii "Zg="))) 1 0
          ≤ c_buffer_length (textBuffer (ascii "Zg=")) / 4 * 3)) ∧
    ((to_bytes (textHeap (ascii "Zg==")) (textBuffer (ascii "Zg==")) = .ok (ascii "Zg==") ∧
        c_buffer_length (textBuffer (ascii "Zg==")) < U64 ∧
        paddingAt (textHeap (ascii "Zg==")) (textBuffer (ascii "Zg==")) 1 = .ok 1 ∧
        paddingAt (textHeap (ascii "Zg==")) (textBuffer (ascii "Zg==")) 2 = .ok 1) ∧
      1 + 1 = paddingCount (ascii "Zg==") ∧ 1 + 1 ≤ 2 ∧
      (∀ h1 d,
        c_buffer_base64decode (textHeap (ascii "Zg==")) (textBuffer (ascii "Zg=="))
          = .ok (h1, d) →
        c_buffer_length d = lengthExpression (c_buffer_length (textBuffer (ascii "Zg=="))) 1 1) ∧
      (c_buffer_length (textBuffer (ascii "Zg==")) / 4 * 3 < 1 + 1 ↔
        c_buffer_length (textBuffer (ascii "Zg==")) < 4 ∧ 1 ≤ 1 + 1) ∧
      (c_buffer_length (textBuffer (ascii "Zg==")) < 4 → 1 ≤ 1 + 1 →
        lengthExpression (c_buffer_length (textBuffer (ascii "Zg=="))) 1 1 = 2 ^ 64 - (1 + 1)) ∧
      (4 ≤ c_buffer_length (textBuffer (ascii "Zg==")) →
        lengthExpression (c_buffer_length (textBuffer (ascii "Zg=="))) 1 1 + (1 + 1)
          = c_buffer_length (textBuffer (ascii "Zg==")) / 4 * 3 ∧
        lengthExpression (c_buffer_length (textBuffer (ascii "Zg=="))) 1 1
          ≤ c_buffer_length (textBuffer (ascii "Zg==")) / 4 * 3)) :=
  ⟨⟨⟨rfl, by decide, rfl, rfl⟩,
      base64decode_length_wrap (textHeap (ascii "=")) (textBuffer (ascii "="))
        (ascii "=") 1 0 rfl (by decide) rfl rfl⟩,
    ⟨⟨rfl, by decide, rfl, rfl⟩,
      base64decode_length_wrap (textHeap (ascii "A=")) (textBuffer (ascii "A="))
        (ascii "A=") 1 0 rfl (by decide) rfl rfl⟩,
    ⟨⟨rfl, by decide, rfl, rfl⟩,
      base64decode_length_wrap (textHeap (ascii "==")) (textBuffer (ascii "=="))
        (ascii "==") 1 1 rfl (by decide) rfl rfl⟩,
    ⟨⟨rfl, by decide, rfl, rfl⟩,
      base64decode_length_wrap (textHeap (ascii "Zg=")) (textBuffer (ascii "Zg="))
        (ascii "Zg=") 1 0 rfl (by decide) rfl rfl⟩,
    ⟨⟨rfl, by decide, rfl, rfl⟩,
      base64decode_length_wrap (textHeap (ascii "Zg==")) (textBuffer (ascii "Zg=="))
        (ascii "Zg==") 1 1 rfl (by decide) rfl rfl⟩⟩

/-- C12 (counterexample): on the one-byte input `"="` the claimed length is
`1 / 4 * 3 - 1`. The length expression wraps to `2 ^ 64 - 1`: in any heap that
holds `"="`, a buffer returned by `c_buffer_base64decode` would have that
length, and in the sample heap the request is not satisfied and nothing is
returned. -/
theorem base64decode_length_counterexample :
    to_bytes (textHeap (ascii "=")) (textBuffer (ascii "=")) = .ok (ascii "=") ∧
    paddingCount (ascii "=") = 1 ∧
    (∀ (h h1 : Heap) (encoded d : Pos), to_bytes h encoded = .ok (ascii "=") →
      c_buffer_base64decode h encoded = .ok (h1, d) → c_buffer_length d = 2 ^ 64 - 1) ∧
    c_buffer_base64decode (textHeap (ascii "=")) (textBuffer (ascii "="))
      = .error .allocationFailure ∧
    ¬ ∃ h1 d,
      c_buffer_base64decode (textHeap (ascii "=")) (textBuffer (ascii "=")) = .ok (h1, d) ∧
      (c_buffer_length d : Int)
        = (((ascii "=").length / 4 * 3 : Nat) : Int) - (paddingCount (ascii "=") : Int) := by
  have hfail : c_buffer_base64decode (textHeap (ascii "=")) (textBuffer (ascii "="))
      = .error .allocationFailure := rfl
  refine ⟨rfl, rfl, ?_, hfail, ?_⟩
  · intro h h1 encoded d he hd
    have hn : (ascii "=").length < U64 := by
      rw [U64_eq]
      decide
    rw [base64decode_tag he hn hd]
    have hp : 1 ≤ paddingAtL (ascii "=") 1 + paddingAtL (ascii "=") 2 := by
      rw [paddingAtL_add _ hn]
      decide
    rw [(decodedLength_cases (ascii "=") hn).1 (by decide) hp, paddingAtL_add _ hn]
    rfl
  · rintro ⟨h1, d, hd, -⟩
    rw [hfail] at hd
    cases hd

/-- C12 (amended): for every encoded buffer of length `n` with `n >= 4`, or with
no `=` in its last two positions, for which the allocation succeeds, the buffer
returned by `c_buffer_base64decode` has length `n / 4 * 3` minus the number of
`=` characters in the last two positions of the input (0, 1 or 2). -/
theorem base64decode_length_spec (h : Heap) (encoded : Pos) (e : List Byte)
    (he : to_bytes h encoded = .ok e) (hn : c_buffer_length encoded < U64)
    (hcase : 4 ≤ c_buffer_length encoded ∨ paddingCount e = 0)
    (halloc : BUFFER_METADATA_WIDTH + (c_buffer_length encoded / 4 * 3 - paddingCount e)
      ≤ h.limit) :
    paddingCount e ≤ 2 ∧ paddingCount e ≤ c_buffer_length encoded / 4 * 3 ∧
    ∃ h1 d, c_buffer_base64decode h encoded = .ok (h1, d) ∧
      c_buffer_length d = c_buffer_length encoded / 4 * 3 - paddingCount e := by
  have hlen := (loadBytes_eq_ok.mp he).1
  have hn1 : e.length < U64 := by omega
  have hp1 := paddingAtL_le_one e 1
  have hp2 := paddingAtL_le_one e 2
  have hadd := paddingAtL_add e hn1
  obtain ⟨-, hz, hok⟩ := decodedLength_cases e hn1
  have hU := U64_eq
  have hL : paddingCount e ≤ e.length / 4 * 3 ∧
      decodedLength e = e.length / 4 * 3 - paddingCount e := by
    rcases Nat.lt_or_ge e.length 4 with hlt | hge
    · have hp0 : paddingCount e = 0 := by
        rcases hcase with hc | hc
        · omega
        · exact hc
      rw [hz hlt (by omega), hp0]
      omega
    · obtain ⟨hle, heq⟩ := hok hge
      rw [heq, hadd]
      omega
  rw [← hlen] at halloc ⊢
  obtain ⟨hle, hLe⟩ := hL
  have hdec := base64decode_eq he hn1 (by rw [hLe]; omega)
    (by rw [hLe]; simpa [BUFFER_METADATA_WIDTH] using halloc)
  exact ⟨by omega, hle, _, _, hdec, hLe⟩

theorem base64decode_length_spec_witness :
    ((to_bytes (textHeap (ascii "Zg==")) (textBuffer (ascii "Zg==")) = .ok (ascii "Zg==") ∧
        c_buffer_length (textBuffer (ascii "Zg==")) < U64 ∧
        (4 ≤ c_buffer_length (textBuffer (ascii "Zg==")) ∨ paddingCount (ascii "Zg==") = 0) ∧
        BUFFER_METADATA_WIDTH +
          (c_buffer_length (textBuffer (ascii "Zg==")) / 4 * 3 - paddingCount (ascii "Zg=="))
          ≤ (textHeap (ascii "Zg==")).limit) ∧
      paddingCount (ascii "Zg==") ≤ 2 ∧
      paddingCount (ascii "Zg==") ≤ c_buffer_length (textBuffer (ascii "Zg==")) / 4 * 3 ∧
      ∃ h1 d,
        c_buffer_base64decode (textHeap (ascii "Zg==")) (textBuffer (ascii "Zg=="))
          = .ok (h1, d) ∧
        c_buffer_length d
          = c_buffer_length (textBuffer (ascii "Zg==")) / 4 * 3 - paddingCount (ascii "Zg==")) ∧
    ((to_bytes (textHeap (ascii "Zm9")) (textBuffer (ascii "Zm9")) = .ok (ascii "Zm9") ∧
        c_buffer_length (textBuffer (ascii "Zm9")) < U64 ∧
        (4 ≤ c_buffer_length (textBuffer (ascii "Zm9")) ∨ paddingCount (ascii "Zm9") = 0) ∧
        BUFFER_METADATA_WIDTH +
          (c_buffer_length (textBuffer (ascii "Zm9")) / 4 * 3 - paddingCount (ascii "Zm9"))
          ≤ (textHeap (ascii "Zm9")).limit) ∧
      paddingCount (ascii "Zm9") ≤ 2 ∧
      paddingCount (ascii "Zm9") ≤ c_buffer_length (textBuffer (ascii "Zm9")) / 4 * 3 ∧
      ∃ h1 d,
        c_buffer_base64decode (textHeap (ascii "Zm9")) (textBuffer (ascii "Zm9"))
          = .ok (h1, d) ∧
        c_buffer_length d
          = c_buffer_length (textBuffer (ascii "Zm9")) / 4 * 3 - paddingCount (ascii "Zm9")) :=
  ⟨⟨⟨rfl, by decide, by decide, by decide⟩,
      base64decode_length_spec (textHeap (ascii "Zg==")) (textBuffer (ascii "Zg=="))
        (ascii "Zg==") rfl (by decide) (by decide) (by decide)⟩,
    ⟨⟨rfl, by decide, by decide, by decide⟩,
      base64decode_length_spec (textHeap (ascii "Zm9")) (textBuffer (ascii "Zm9"))
        (ascii "Zm9") rfl (by decide) (by decide) (by decide)⟩⟩

/-! ## What the decoder reads -/

/-- C13: `c_buffer_base64decode` skips every input byte that is no alphabet
character and reads no input past what it needs: for two encoded buffers with
the same computed output length `L` (for which the allocations succeed) whose
subsequences of alphabet characters have the same first `ceil(4 * L / 3)`
elements (the whole subsequences, when they are shorter), the function returns
buffers with the same `L` bytes. -/
theorem base64decode_reads_alphabet_only (h1 h2 : Heap) (enc1 enc2 : Pos)
    (e1 e2 : List Byte) (L : Nat)
    (he1 : to_bytes h1 enc1 = .ok e1) (he2 : to_bytes h2 enc2 = .ok e2)
    (hn1 : c_buffer_length enc1 < U64) (hn2 : c_buffer_length enc2 < U64)
    (hL1 : decodedLength e1 = L) (hL2 : decodedLength e2 = L)
    (hfit : BUFFER_METADATA_WIDTH + L < U64)
    (halloc1 : BUFFER_METADATA_WIDTH + L ≤ h1.limit)
    (halloc2 : BUFFER_METADATA_WIDTH + L ≤ h2.limit)
    (hag : (alphabetChars e1).take ((4 * L + 2) / 3)
      = (alphabetChars e2).take ((4 * L + 2) / 3)) :
    ∃ g1 d1 g2 d2 bs, c_buffer_base64decode h1 enc1 = .ok (g1, d1) ∧
      c_buffer_base64decode h2 enc2 = .ok (g2, d2) ∧
      c_buffer_length d1 = L ∧ c_buffer_length d2 = L ∧
      to_bytes g1 d1 = .ok bs ∧ to_bytes g2 d2 = .ok bs := by
  have hlen1 := (loadBytes_eq_ok.mp he1).1
  have hlen2 := (loadBytes_eq_ok.mp he2).1
  obtain ⟨g1, d1, hd1, hl1, hb1⟩ := base64decode_bytes he1 (by omega)
    (by rw [hL1]; exact hfit) (by rw [hL1]; exact halloc1)
  obtain ⟨g2, d2, hd2, hl2, hb2⟩ := base64decode_bytes he2 (by omega)
    (by rw [hL2]; exact hfit) (by rw [hL2]; exact halloc2)
  have htake : (sixlets e1).take ((4 * L + 2) / 3) = (sixlets e2).take ((4 * L + 2) / 3) := by
    rw [sixlets_eq_map, sixlets_eq_map, ← List.map_take, ← List.map_take, hag]
  have hrun := runSteps_congr (sixlets e1) (sixlets e2) L 0
    { bits := 0, bitslen := 0, i := 0 } phase_start
    (fun i hi => getD_eq_of_take_eq htake (by rw [Nat.zero_add] at hi; exact hi))
  rw [hL1] at hb1 hl1
  rw [hL2, ← hrun] at hb2
  rw [hL2] at hl2
  exact ⟨g1, d1, g2, d2, _, hd1, hd2, hl1, hl2, hb1, hb2⟩

theorem base64decode_reads_alphabet_only_witness :
    (to_bytes (textHeap (ascii "Zm8A=")) (textBuffer (ascii "Zm8A=")) = .ok (ascii "Zm8A=") ∧
      to_bytes (textHeap (ascii "Z.m8.=")) (textBuffer (ascii "Z.m8.="))
        = .ok (ascii "Z.m8.=") ∧
      c_buffer_length (textBuffer (ascii "Zm8A=")) < U64 ∧
      c_buffer_length (textBuffer (ascii "Z.m8.=")) < U64 ∧
      decodedLength (ascii "Zm8A=") = 2 ∧ decodedLength (ascii "Z.m8.=") = 2 ∧
      BUFFER_METADATA_WIDTH + 2 < U64 ∧
      BUFFER_METADATA_WIDTH + 2 ≤ (textHeap (ascii "Zm8A=")).limit ∧
      BUFFER_METADATA_WIDTH + 2 ≤ (textHeap (ascii "Z.m8.=")).limit ∧
      (alphabetChars (ascii "Zm8A=")).take ((4 * 2 + 2) / 3)
        = (alphabetChars (ascii "Z.m8.=")).take ((4 * 2 + 2) / 3)) ∧
    ∃ g1 d1 g2 d2 bs,
      c_buffer_base64decode (textHeap (ascii "Zm8A=")) (textBuffer (ascii "Zm8A="))
        = .ok (g1, d1) ∧
      c_buffer_base64decode (textHeap (ascii "Z.m8.=")) (textBuffer (ascii "Z.m8.="))
        = .ok (g2, d2) ∧
      c_buffer_length d1 = 2 ∧ c_buffer_length d2 = 2 ∧
      to_bytes g1 d1 = .ok bs ∧ to_bytes g2 d2 = .ok bs :=
  ⟨⟨rfl, rfl, by decide, by decide, by decide, by decide, by decide, by decide, by decide,
      by decide⟩,
    base64decode_reads_alphabet_only (textHeap (ascii "Zm8A=")) (textHeap (ascii "Z.m8.="))
      (textBuffer (ascii "Zm8A=")) (textBuffer (ascii "Z.m8.=")) (ascii "Zm8A=")
      (ascii "Z.m8.=") 2 rfl rfl (by decide) (by decide) (by decide) (by decide) (by decide)
      (by decide) (by decide) (by decide)⟩

/-! ## URL-safe characters -/

/-- C14: for two encoded buffers that differ only by `-` in place of `+` and
`_` in place of `/`, in any positions and in either direction (they are equal
once every `-` is replaced by `+` and every `_` by `/`), `c_buffer_base64decode`
returns buffers with the same length and the same bytes, when the allocations
succeed. -/
theorem base64decode_url_safe (h1 h2 : Heap) (enc1 enc2 : Pos) (e1 e2 : List Byte)
    (he1 : to_bytes h1 enc1 = .ok e1) (he2 : to_bytes h2 enc2 = .ok e2)
    (hn : c_buffer_length enc1 < U64)
    (hsame : e1.map toStandard = e2.map toStandard)
    (hfit : BUFFER_METADATA_WIDTH + decodedLength e1 < U64)
    (halloc1 : BUFFER_METADATA_WIDTH + decodedLength e1 ≤ h1.limit)
    (halloc2 : BUFFER_METADATA_WIDTH + decodedLength e1 ≤ h2.limit) :
    ∃ g1 d1 g2 d2 bs, c_buffer_base64decode h1 enc1 = .ok (g1, d1) ∧
      c_buffer_base64decode h2 enc2 = .ok (g2, d2) ∧
      c_buffer_length d1 = c_buffer_length d2 ∧
      to_bytes g1 d1 = .ok bs ∧ to_bytes g2 d2 = .ok bs := by
  have hlen1 := (loadBytes_eq_ok.mp he1).1
  have hlen : e1.length = e2.length := by
    have := congrArg List.length hsame
    simpa using this
  have hL : decodedLength e2 = decodedLength e1 := by
    rw [← decodedLength_map_toStandard e2, ← hsame, decodedLength_map_toStandard]
  have hs : sixlets e2 = sixlets e1 := by
    rw [← sixlets_map_toStandard e2, ← hsame, sixlets_map_toStandard]
  obtain ⟨g1, d1, hd1, hl1, hb1⟩ := base64decode_bytes he1 (by omega) hfit halloc1
  obtain ⟨g2, d2, hd2, hl2, hb2⟩ := base64decode_bytes he2 (by omega)
    (by rw [hL]; exact hfit) (by rw [hL]; exact halloc2)
  rw [hL, hs] at hb2
  exact ⟨g1, d1, g2, d2, _, hd1, hd2, by rw [hl1, hl2, hL], hb1, hb2⟩

theorem base64decode_url_safe_witness :
    (to_bytes (textHeap (ascii "-_8=")) (textBuffer (ascii "-_8=")) = .ok (ascii "-_8=") ∧
      to_bytes (textHeap (ascii "+/8=")) (textBuffer (ascii "+/8=")) = .ok (ascii "+/8=") ∧
      c_buffer_length (textBuffer (ascii "-_8=")) < U64 ∧
      (ascii "-_8=").map toStandard = (ascii "+/8=").map toStandard ∧
      BUFFER_METADATA_WIDTH + decodedLength (ascii "-_8=") < U64 ∧
      BUFFER_METADATA_WIDTH + decodedLength (ascii "-_8=") ≤ (textHeap (ascii "-_8=")).limit ∧
      BUFFER_METADATA_WIDTH + decodedLength (ascii "-_8=")
        ≤ (textHeap (ascii "+/8=")).limit) ∧
    ∃ g1 d1 g2 d2 bs,
      c_buffer_base64decode (textHeap (ascii "-_8=")) (textBuffer (ascii "-_8="))
        = .ok (g1, d1) ∧
      c_buffer_base64decode (textHeap (ascii "+/8=")) (textBuffer (ascii "+/8="))
        = .ok (g2, d2) ∧
      c_buffer_length d1 = c_buffer_length d2 ∧
      to_bytes g1 d1 = .ok bs ∧ to_bytes g2 d2 = .ok bs :=
  ⟨⟨rfl, rfl, by decide, by decide, by decide, by decide, by decide⟩,
    base64decode_url_safe (textHeap (ascii "-_8=")) (textHeap (ascii "+/8="))
      (textBuffer (ascii "-_8=")) (textBuffer (ascii "+/8=")) (ascii "-_8=") (ascii "+/8=")
      rfl rfl (by decide) (by decide) (by decide) (by decide) (by decide)⟩

/-! ## Missing symbols -/

/-- C19: when the allocation succeeds, `c_buffer_base64decode` returns exactly
`L` bytes for the computed output length `L`, however few alphabet characters
the input holds, and every output byte `j` whose decoding needs a symbol that is
missing (`floor((8 * j + 7) / 6) ≥ k`, for `k` alphabet characters in the input)
is `0xFF`: the value `-1` of a missing symbol, or-ed into the accumulator, sets
all of its 16 bits. -/
theorem base64decode_missing_symbols (h : Heap) (encoded : Pos) (e : List Byte) (k : Nat)
    (he : to_bytes h encoded = .ok e) (hn : c_buffer_length encoded < U64)
    (hk : (alphabetChars e).length = k)
    (hfit : BUFFER_METADATA_WIDTH + decodedLength e < U64)
    (halloc : BUFFER_METADATA_WIDTH + decodedLength e ≤ h.limit) :
    (∀ bits, accumulate bits (-1) = 0xFFFF) ∧
    ∃ g d bs, c_buffer_base64decode h encoded = .ok (g, d) ∧
      c_buffer_length d = decodedLength e ∧
      to_bytes g d = .ok bs ∧ bs.length = decodedLength e ∧
      ∀ j, j < decodedLength e → k ≤ (8 * j + 7) / 6 → bs[j]? = some 0xFF := by
  refine ⟨accumulate_neg_one, ?_⟩
  have hlen := (loadBytes_eq_ok.mp he).1
  obtain ⟨g, d, hd, hl, hb⟩ := base64decode_bytes he (by omega) hfit halloc
  refine ⟨g, d, _, hd, hl, hb, runSteps_length _ _ _ _, ?_⟩
  intro j hj hmiss
  exact runSteps_missing (sixlets e) (decodedLength e) 0 _ phase_start j hj
    (by rw [sixlets_length, hk, Nat.zero_add]; exact hmiss)

theorem base64decode_missing_symbols_witness :
    (to_bytes (textHeap (ascii "====")) (textBuffer (ascii "====")) = .ok (ascii "====") ∧
      c_buffer_length (textBuffer (ascii "====")) < U64 ∧
      (alphabetChars (ascii "====")).length = 0 ∧
      BUFFER_METADATA_WIDTH + decodedLength (ascii "====") < U64 ∧
      BUFFER_METADATA_WIDTH + decodedLength (ascii "====")
        ≤ (textHeap (ascii "====")).limit) ∧
    decodedLength (ascii "====") = 1 ∧
    ((∀ bits, accumulate bits (-1) = 0xFFFF) ∧
      ∃ g d bs, c_buffer_base64decode (textHeap (ascii "====")) (textBuffer (ascii "===="))
          = .ok (g, d) ∧
        c_buffer_length d = decodedLength (ascii "====") ∧
        to_bytes g d = .ok bs ∧ bs.length = decodedLength (ascii "====") ∧
        ∀ j, j < decodedLength (ascii "====") → 0 ≤ (8 * j + 7) / 6 → bs[j]? = some 0xFF) :=
  ⟨⟨rfl, by decide, by decide, by decide, by decide⟩, by decide,
    base64decode_missing_symbols (textHeap (ascii "====")) (textBuffer (ascii "====")) (ascii "====")
      0 rfl (by decide) (by decide) (by decide) (by decide)⟩

/-! ## The decoded bytes -/

/-- C18: for an encoded buffer with computed output length `L` (not wrapped
around, so that the allocation succeeds) that holds at least `ceil(4 * L / 3)`
alphabet characters, output byte `j` of `c_buffer_base64decode` is made of the
bits `8 * j`, ..., `8 * j + 7`, most significant first, of the bit string formed
by concatenating the six-bit values of the alphabet characters in input order
(`A`-`Z` are 0..25, `a`-`z` are 26..51, `0`-`9` are 52..61, `+` and `-` are 62,
`/` and `_` are 63); at the start of every round the accumulator `bits` holds
exactly the bits taken from the input and not yet stored, and `bitslen` is their
number, so no pending bit is lost. -/
theorem base64decode_bit_stream (h : Heap) (encoded : Pos) (e : List Byte)
    (he : to_bytes h encoded = .ok e) (hn : c_buffer_length encoded < U64)
    (hfit : BUFFER_METADATA_WIDTH + decodedLength e < U64)
    (halloc : BUFFER_METADATA_WIDTH + decodedLength e ≤ h.limit)
    (hk : (4 * decodedLength e + 2) / 3 ≤ (alphabetChars e).length) :
    ((∀ c : Byte, 65 ≤ c.val → c.val ≤ 90 → sixletOf c = (c.val : Int) - 65) ∧
      (∀ c : Byte, 97 ≤ c.val → c.val ≤ 122 → sixletOf c = (c.val : Int) - 97 + 26) ∧
      (∀ c : Byte, 48 ≤ c.val → c.val ≤ 57 → sixletOf c = (c.val : Int) - 48 + 52) ∧
      sixletOf 43 = 62 ∧ sixletOf 45 = 62 ∧ sixletOf 47 = 63 ∧ sixletOf 95 = 63) ∧
    sixlets e = (alphabetChars e).map sixletOf ∧
    (∃ g d bs, c_buffer_base64decode h encoded = .ok (g, d) ∧
      c_buffer_length d = decodedLength e ∧
      to_bytes g d = .ok bs ∧ bs.length = decodedLength e ∧
      ∀ j (hj : j < bs.length), (bs[j]).val = streamByte (sixlets e) j) ∧
    ∀ j, j ≤ decodedLength e →
      (stateAt e j).bits = pendingBits (sixlets e) j ∧
      (stateAt e j).bitslen = 6 * (((4 * j + 2) / 3 : Nat) : Int) - 8 * (j : Int) := by
  have hlen := (loadBytes_eq_ok.mp he).1
  have hne : e.length < U64 := by omega
  refine ⟨sixletOf_table, sixlets_eq_map e, ?_, fun j hj => stateAt_eq hne j (by omega)⟩
  obtain ⟨g, d, hd, hl, hb⟩ := base64decode_bytes he hne hfit halloc
  have hv := runSteps_value (sixlets e) (decodedLength e) 0 { bits := 0, bitslen := 0, i := 0 }
    phase_start (by have := pendingBits_zero (sixlets e) 0; simpa using this.symm)
    (fun i hi => sixlets_value e (by rw [sixlets_length]; rw [Nat.zero_add] at hi; omega))
  rw [hv.1] at hb
  refine ⟨g, d, _, hd, hl, hb, by simp, ?_⟩
  intro j hj
  simp only [List.getElem_map, List.getElem_range', Nat.zero_add, Nat.one_mul, toByte]
  exact Nat.mod_eq_of_lt (streamByte_lt _ _)

theorem base64decode_bit_stream_witness :
    (to_bytes (textHeap (ascii "Zm8=")) (textBuffer (ascii "Zm8=")) = .ok (ascii "Zm8=") ∧
      c_buffer_length (textBuffer (ascii "Zm8=")) < U64 ∧
      BUFFER_METADATA_WIDTH + decodedLength (ascii "Zm8=") < U64 ∧
      BUFFER_METADATA_WIDTH + decodedLength (ascii "Zm8=") ≤ (textHeap (ascii "Zm8=")).limit ∧
      (4 * decodedLength (ascii "Zm8=") + 2) / 3 ≤ (alphabetChars (ascii "Zm8=")).length) ∧
    (decodedLength (ascii "Zm8=") = 2 ∧ sixlets (ascii "Zm8=") = [25, 38, 60] ∧
      streamByte (sixlets (ascii "Zm8=")) 0 = 0x66 ∧
      streamByte (sixlets (ascii "Zm8=")) 1 = 0x6f) ∧
    (∃ g d bs, c_buffer_base64decode (textHeap (ascii "Zm8=")) (textBuffer (ascii "Zm8="))
        = .ok (g, d) ∧
      c_buffer_length d = decodedLength (ascii "Zm8=") ∧
      to_bytes g d = .ok bs ∧ bs.length = decodedLength (ascii "Zm8=") ∧
      ∀ j (hj : j < bs.length), (bs[j]).val = streamByte (sixlets (ascii "Zm8=")) j) ∧
    ∀ j, j ≤ decodedLength (ascii "Zm8=") →
      (stateAt (ascii "Zm8=") j).bits = pendingBits (sixlets (ascii "Zm8=")) j ∧
      (stateAt (ascii "Zm8=") j).bitslen
        = 6 * (((4 * j + 2) / 3 : Nat) : Int) - 8 * (j : Int) :=
  ⟨⟨rfl, by decide, by decide, by decide, by decide⟩, ⟨by decide, by decide, by decide,
      by decide⟩,
    (base64decode_bit_stream (textHeap (ascii "Zm8=")) (textBuffer (ascii "Zm8="))
      (ascii "Zm8=") rfl (by decide) (by decide) (by decide) (by decide)).2.2⟩

end Effekt
